import Mathlib

/-!
# hayase-cli: stream extraction subsystem

A shallow embedding of `internal/models/types.go`, `internal/extractors/extractor.go`
and `internal/extractors/voe/voe.go`, with the properties of the registry dispatch
and of the VOE decoder proved over it.

Conventions of the embedding:

* a Go `string` is its byte sequence, a `List Nat` whose elements are byte values
  (arithmetic on bytes is reduced `% 256` where Go's `byte` arithmetic can wrap);
* a `time.Time` instant is an `Int` number of nanoseconds, and every reading of
  `time.Now()` is an explicit input;
* a Go `error` value is a `GoError`; a `(*T, error)` result is a pair of options;
* the calls a function makes on its collaborators are returned as an explicit trace.
-/

namespace Hayase

/-! ## Go strings -/

/-- A Go `string`, as the sequence of its bytes. -/
abbrev GoString := List Nat

/-- UTF-8 encoding of one code point (`utf8.AppendRune` on a valid scalar value). -/
def utf8Encode (r : Nat) : List Nat :=
  if r < 0x80 then [r]
  else if r < 0x800 then [0xC0 + r / 64, 0x80 + r % 64]
  else if r < 0x10000 then [0xE0 + r / 4096, 0x80 + r / 64 % 64, 0x80 + r % 64]
  else [0xF0 + r / 262144, 0x80 + r / 4096 % 64, 0x80 + r / 64 % 64, 0x80 + r % 64]

/-- The bytes of a string literal of the source. -/
def lit (s : String) : GoString :=
  s.data.flatMap (fun c => utf8Encode c.toNat)

/-- Go `strings.HasPrefix(s, p)`. -/
def hasPrefix : GoString → GoString → Bool
  | _, [] => true
  | [], _ :: _ => false
  | c :: cs, p :: ps => c == p && hasPrefix cs ps

/-- Go `strings.Contains(s, substr)`: `substr` occurs at some byte offset of `s`. -/
def stringsContains : GoString → GoString → Bool
  | [], substr => hasPrefix [] substr
  | c :: cs, substr => hasPrefix (c :: cs) substr || stringsContains cs substr

/-- Go `strings.ReplaceAll(s, old, new)` for a non-empty `old`: the occurrences of `old`
are replaced from the left, without overlap. `skip` counts the bytes of `s` still
covered by the occurrence just replaced. -/
def replaceAllAux (old new : GoString) : Nat → GoString → GoString
  | _, [] => []
  | skip + 1, _ :: cs => replaceAllAux old new skip cs
  | 0, c :: cs =>
    if hasPrefix (c :: cs) old then new ++ replaceAllAux old new (old.length - 1) cs
    else c :: replaceAllAux old new 0 cs

/-- Go `strings.ReplaceAll(s, old, new)` for a non-empty `old`. -/
def replaceAll (s old new : GoString) : GoString :=
  replaceAllAux old new 0 s

/-! ## Go `unicode/utf8` and `[]rune` conversion -/

/-- Whether `b` is a continuation byte `0x80..0xBF`. -/
def isCont (b : Nat) : Bool := 0x80 ≤ b && b ≤ 0xBF

/-- Go `utf8.DecodeRune` on a non-empty prefix: the rune and its width. An ill-formed
sequence decodes as `U+FFFD` of width 1. -/
def decodeRune : GoString → Nat × Nat
  | [] => (0xFFFD, 0)
  | b0 :: rest =>
    if b0 < 0x80 then (b0, 1)
    else if 0xC2 ≤ b0 && b0 ≤ 0xDF then
      match rest with
      | b1 :: _ => if isCont b1 then ((b0 % 32) * 64 + b1 % 64, 2) else (0xFFFD, 1)
      | _ => (0xFFFD, 1)
    else if 0xE0 ≤ b0 && b0 ≤ 0xEF then
      match rest with
      | b1 :: b2 :: _ =>
        let lo := if b0 = 0xE0 then 0xA0 else 0x80
        let hi := if b0 = 0xED then 0x9F else 0xBF
        if lo ≤ b1 && b1 ≤ hi && isCont b2 then
          ((b0 % 16) * 4096 + (b1 % 64) * 64 + b2 % 64, 3)
        else (0xFFFD, 1)
      | _ => (0xFFFD, 1)
    else if 0xF0 ≤ b0 && b0 ≤ 0xF4 then
      match rest with
      | b1 :: b2 :: b3 :: _ =>
        let lo := if b0 = 0xF0 then 0x90 else 0x80
        let hi := if b0 = 0xF4 then 0x8F else 0xBF
        if lo ≤ b1 && b1 ≤ hi && isCont b2 && isCont b3 then
          ((b0 % 8) * 262144 + (b1 % 64) * 4096 + (b2 % 64) * 64 + b3 % 64, 4)
        else (0xFFFD, 1)
      | _ => (0xFFFD, 1)
    else (0xFFFD, 1)

/-- Go `[]rune(s)`; `skip` counts the bytes still covered by the rune just decoded. -/
def toRunesAux : Nat → GoString → List Nat
  | _, [] => []
  | skip + 1, _ :: cs => toRunesAux skip cs
  | 0, c :: cs =>
    let (r, size) := decodeRune (c :: cs)
    r :: toRunesAux (size - 1) cs

/-- Go `[]rune(s)`. -/
def toRunes (s : GoString) : List Nat := toRunesAux 0 s

/-- Go `string(runes)` for runes produced by `[]rune(s)`. -/
def fromRunes (runes : List Nat) : GoString :=
  runes.flatMap utf8Encode

/-! ## Go `encoding/base64`, `StdEncoding` -/

/-- The standard alphabet: the character for a 6-bit value. -/
def b64Char (v : Nat) : Nat :=
  if v < 26 then 65 + v
  else if v < 52 then 97 + (v - 26)
  else if v < 62 then 48 + (v - 52)
  else if v = 62 then 43
  else 47

/-- The decode map: the 6-bit value of a character of the alphabet. -/
def b64Value (c : Nat) : Option Nat :=
  if 65 ≤ c && c ≤ 90 then some (c - 65)
  else if 97 ≤ c && c ≤ 122 then some (c - 97 + 26)
  else if 48 ≤ c && c ≤ 57 then some (c - 48 + 52)
  else if c = 43 then some 62
  else if c = 47 then some 63
  else none

/-- Go `StdEncoding.EncodeToString`. -/
def base64Encode : GoString → GoString
  | b0 :: b1 :: b2 :: rest =>
    let val := b0 * 65536 + b1 * 256 + b2
    b64Char (val / 262144 % 64) :: b64Char (val / 4096 % 64) :: b64Char (val / 64 % 64) ::
      b64Char (val % 64) :: base64Encode rest
  | [b0, b1] =>
    let val := b0 * 65536 + b1 * 256
    [b64Char (val / 262144 % 64), b64Char (val / 4096 % 64), b64Char (val / 64 % 64), 61]
  | [b0] =>
    let val := b0 * 65536
    [b64Char (val / 262144 % 64), b64Char (val / 4096 % 64), 61, 61]
  | [] => []

/-- The loops "skip over newlines" of `decodeQuantum`. -/
def skipNewlines : GoString → GoString
  | [] => []
  | c :: cs => if c = 10 || c = 13 then skipNewlines cs else c :: cs

/-- The bytes of a quantum from its 6-bit values `dbuf[0..3]`. -/
def quantumBytes (d0 d1 d2 d3 : Nat) : Nat × Nat × Nat :=
  let val := d0 * 262144 + d1 * 4096 + d2 * 64 + d3
  (val / 65536 % 256, val / 256 % 256, val % 256)

/-- Go `StdEncoding.Decode`, quantum after quantum (`decodeQuantum`); `dbuf` holds the
values read so far in the current quantum. `none` is a `CorruptInputError`. -/
def base64DecodeFrom : List Nat → GoString → Option GoString
  | dbuf, [] => if dbuf.length = 0 then some [] else none
  | dbuf, c :: cs =>
    match b64Value c with
    | some out =>
      match dbuf with
      | [d0, d1, d2] =>
        match base64DecodeFrom [] cs with
        | some bytes =>
          let (x, y, z) := quantumBytes d0 d1 d2 out
          some (x :: y :: z :: bytes)
        | none => none
      | _ => base64DecodeFrom (dbuf ++ [out]) cs
    | none =>
      if c = 10 || c = 13 then base64DecodeFrom dbuf cs
      else if c ≠ 61 then none
      else
        match dbuf with
        | [d0, d1] =>
          match skipNewlines cs with
          | [] => none
          | c2 :: rest =>
            if c2 ≠ 61 then none
            else if skipNewlines rest = [] then some [(quantumBytes d0 d1 0 0).1]
            else none
        | [d0, d1, d2] =>
          if skipNewlines cs = [] then
            some [(quantumBytes d0 d1 d2 0).1, (quantumBytes d0 d1 d2 0).2.1]
          else none
        | _ => none

/-- Go `base64.StdEncoding.DecodeString`; `none` when it returns an error. -/
def base64Decode (s : GoString) : Option GoString :=
  base64DecodeFrom [] s

/-! ## Go `regexp`: patterns with one quoted capture group -/

/-- A compiled regular expression of the shape `lead([^']+)'`: the literal text `lead`,
one capture group of one or more bytes other than `'` (byte 39), and a closing `'`. -/
structure QuotedPattern where
  lead : GoString

/-- The match of the pattern that starts at the first byte of `s`, if there is one: the
text of the capture group. The group is the longest run of bytes other than `'`; it has
to be non-empty and followed by `'`. -/
def QuotedPattern.matchAt (p : QuotedPattern) (s : GoString) : Option GoString :=
  if hasPrefix s p.lead then
    let rest := s.drop p.lead.length
    let group := rest.takeWhile (fun c => c != 39)
    if !group.isEmpty && (rest.drop group.length).head? == some 39 then some group
    else none
  else none

/-- Element 1 of the result of Go `(*Regexp).FindStringSubmatch` (the capture group of
the leftmost match); `none` when there is no match and the result is nil. -/
def QuotedPattern.FindStringSubmatch (p : QuotedPattern) : GoString → Option GoString
  | [] => p.matchAt []
  | c :: cs =>
    match p.matchAt (c :: cs) with
    | some group => some group
    | none => QuotedPattern.FindStringSubmatch p cs

/-! ## Go `regexp`: the URL pattern -/

/-- A compiled regular expression of the shape `https?://[^...]+`: the text `http`, an
optional `s`, the text `://`, and one or more bytes outside the negated class, whose
members are listed by `excluded`. -/
structure URLPattern where
  excluded : GoString

/-- The match of the pattern that starts at the first byte of `s`, if there is one. The
optional `s` is tried first; the class is repeated as far as it goes. -/
def URLPattern.matchAt (p : URLPattern) (s : GoString) : Option GoString :=
  let withS := (s.drop 8).takeWhile (fun c => !p.excluded.contains c)
  let withoutS := (s.drop 7).takeWhile (fun c => !p.excluded.contains c)
  if hasPrefix s (lit "https://") && !withS.isEmpty then some (lit "https://" ++ withS)
  else if hasPrefix s (lit "http://") && !withoutS.isEmpty then
    some (lit "http://" ++ withoutS)
  else none

/-- The leftmost match of the pattern in `s`, if there is one. -/
def URLPattern.search (p : URLPattern) : GoString → Option GoString
  | [] => p.matchAt []
  | c :: cs =>
    match p.matchAt (c :: cs) with
    | some m => some m
    | none => URLPattern.search p cs

/-- Go `(*Regexp).FindString`: the text of the leftmost match, the empty string when
there is no match. -/
def URLPattern.FindString (p : URLPattern) (s : GoString) : GoString :=
  match p.search s with
  | some m => m
  | none => lit ""

/-! ## Go `sort.Slice`

`sort.Slice(x, less)` is `pdqsort_func(lessSwap{less, swap}, 0, n, bits.Len(n))` of the
standard library (`sort/zsortfunc.go`, Go 1.19 and later). The slice is a `List`; the
functions below follow the library ones, loop by loop. A loop with a counter is a
recursion on the number of iterations it has left. -/

namespace sort

variable {α : Type}

/-- Go `data.Less(i, j)` for the closure `less` over the slice contents. -/
def lessAt (less : α → α → Bool) (data : List α) (i j : Nat) : Bool :=
  match data[i]?, data[j]? with
  | some x, some y => less x y
  | _, _ => false

/-- Go `data.Swap(i, j)`. -/
def swapAt (data : List α) (i j : Nat) : List α :=
  match data[i]?, data[j]? with
  | some x, some y => (data.set i y).set j x
  | _, _ => data

/-- The inner loop of `insertionSort_func`:
`for j := i; j > a && data.Less(j, j-1); j-- { data.Swap(j, j-1) }`, entered at `j`. -/
def insertionInner (less : α → α → Bool) (a : Nat) : Nat → List α → List α
  | 0, data => data
  | j + 1, data =>
    if j + 1 > a && lessAt less data (j + 1) j then
      insertionInner less a j (swapAt data (j + 1) j)
    else data

/-- The outer loop of `insertionSort_func`, `for i := a + 1; i < b; i++`, with `n`
iterations left and entered at `i`. -/
def insertionOuter (less : α → α → Bool) (a b : Nat) : Nat → Nat → List α → List α
  | 0, _, data => data
  | n + 1, i, data =>
    if i < b then insertionOuter less a b n (i + 1) (insertionInner less a i data)
    else data

/-- Go `insertionSort_func(data, a, b)`. -/
def insertionSort (less : α → α → Bool) (data : List α) (a b : Nat) : List α :=
  insertionOuter less a b (b - (a + 1)) (a + 1) data

/-- Go `siftDown_func(data, lo, hi, first)`: the loop entered at `root`; `fuel` bounds
`hi - root`, which every iteration decreases. -/
def siftDown (less : α → α → Bool) (hi first : Nat) : Nat → Nat → List α → List α
  | 0, _, data => data
  | fuel + 1, root, data =>
    let child := 2 * root + 1
    if child ≥ hi then data
    else
      let child :=
        if child + 1 < hi && lessAt less data (first + child) (first + child + 1) then child + 1
        else child
      if !lessAt less data (first + root) (first + child) then data
      else siftDown less hi first fuel child (swapAt data (first + root) (first + child))

/-- The first loop of `heapSort_func`, `for i := (hi - 1) / 2; i >= 0; i--`, with the
iterations `i = n - 1, ..., 0` left. -/
def heapBuild (less : α → α → Bool) (hi first : Nat) : Nat → List α → List α
  | 0, data => data
  | i + 1, data => heapBuild less hi first i (siftDown less hi first hi i data)

/-- The second loop of `heapSort_func`, `for i := hi - 1; i >= 0; i--`, with the
iterations `i = n - 1, ..., 0` left. -/
def heapPop (less : α → α → Bool) (first : Nat) : Nat → List α → List α
  | 0, data => data
  | i + 1, data =>
    heapPop less first i (siftDown less i first i 0 (swapAt data first (first + i)))

/-- Go `heapSort_func(data, a, b)`. -/
def heapSort (less : α → α → Bool) (data : List α) (a b : Nat) : List α :=
  let first := a
  let hi := b - a
  heapPop less first hi (heapBuild less hi first ((hi - 1) / 2 + 1) data)

/-- The scan `for i <= j && p(i) { i++ }` with `n = j + 1 - i` positions left. -/
def scanUp (p : Nat → Bool) : Nat → Nat → Nat
  | 0, i => i
  | n + 1, i => if p i then scanUp p n (i + 1) else i

/-- The scan `for i <= j && p(j) { j-- }`, entered at `j` (always with `i ≥ 1`). -/
def scanDown (p : Nat → Bool) (i : Nat) : Nat → Nat
  | 0 => 0
  | j + 1 => if i ≤ j + 1 && p (j + 1) then scanDown p i j else j + 1

/-- The main loop of `partition_func`; `fuel` bounds `j + 1 - i`. -/
def partitionLoop (less : α → α → Bool) (a : Nat) :
    Nat → List α → Nat → Nat → List α × Nat × Nat
  | 0, data, i, j => (data, i, j)
  | fuel + 1, data, i, j =>
    let i := scanUp (fun k => lessAt less data k a) (j + 1 - i) i
    let j := scanDown (fun k => !lessAt less data k a) i j
    if i > j then (data, i, j)
    else partitionLoop less a fuel (swapAt data i j) (i + 1) (j - 1)

/-- Go `partition_func(data, a, b, pivot)`: the slice, `newpivot`, `alreadyPartitioned`. -/
def partition (less : α → α → Bool) (data : List α) (a b pivot : Nat) :
    List α × Nat × Bool :=
  let data := swapAt data a pivot
  let i := a + 1
  let j := b - 1
  let i := scanUp (fun k => lessAt less data k a) (j + 1 - i) i
  let j := scanDown (fun k => !lessAt less data k a) i j
  if i > j then (swapAt data j a, j, true)
  else
    let data := swapAt data i j
    let i := i + 1
    let j := j - 1
    let (data, _, j) := partitionLoop less a (j + 1 - i) data i j
    (swapAt data j a, j, false)

/-- The loop of `partitionEqual_func`; `fuel` bounds `j + 1 - i`. -/
def partitionEqualLoop (less : α → α → Bool) (a : Nat) :
    Nat → List α → Nat → Nat → List α × Nat
  | 0, data, i, _ => (data, i)
  | fuel + 1, data, i, j =>
    let i := scanUp (fun k => !lessAt less data a k) (j + 1 - i) i
    let j := scanDown (fun k => lessAt less data a k) i j
    if i > j then (data, i)
    else partitionEqualLoop less a fuel (swapAt data i j) (i + 1) (j - 1)

/-- Go `partitionEqual_func(data, a, b, pivot)`: the slice and `newpivot`. -/
def partitionEqual (less : α → α → Bool) (data : List α) (a b pivot : Nat) :
    List α × Nat :=
  let data := swapAt data a pivot
  partitionEqualLoop less a (b - (a + 1) + 1) data (a + 1) (b - 1)

/-- A loop `for j := from; j <= last; j++ { if !data.Less(j, j-1) { break }; data.Swap(j, j-1) }`
with `n` iterations left. -/
def shiftRight (less : α → α → Bool) : Nat → Nat → List α → List α
  | 0, _, data => data
  | n + 1, j, data =>
    if !lessAt less data j (j - 1) then data
    else shiftRight less n (j + 1) (swapAt data j (j - 1))

/-- A loop `for j := from; j >= 1; j-- { if !data.Less(j, j-1) { break }; data.Swap(j, j-1) }`,
entered at `j`. -/
def shiftLeft (less : α → α → Bool) : Nat → List α → List α
  | 0, data => data
  | j + 1, data =>
    if !lessAt less data (j + 1) j then data
    else shiftLeft less j (swapAt data (j + 1) j)

/-- The loop `for j := 0; j < maxSteps; j++` of `partialInsertionSort_func`, with `steps`
iterations left and the cursor at `i`: the slice and the returned flag. -/
def partialInsertionLoop (less : α → α → Bool) (a b : Nat) :
    Nat → Nat → List α → List α × Bool
  | 0, _, data => (data, false)
  | steps + 1, i, data =>
    let i := scanUp (fun k => !lessAt less data k (k - 1)) (b - i) i
    if i = b then (data, true)
    else if b - a < 50 then (data, false)
    else
      let data := swapAt data i (i - 1)
      let data := if i - a ≥ 2 then shiftLeft less (i - 1) data else data
      let data := if b - i ≥ 2 then shiftRight less (b - (i + 1)) (i + 1) data else data
      partialInsertionLoop less a b steps i data

/-- Go `partialInsertionSort_func(data, a, b)`. -/
def partialInsertionSort (less : α → α → Bool) (data : List α) (a b : Nat) :
    List α × Bool :=
  partialInsertionLoop less a b 5 (a + 1) data

/-- Go `bits.Len(x)` for a 64-bit `x`: the loop over at most `n` remaining bits. -/
def bitsLenAux : Nat → Nat → Nat
  | 0, _ => 0
  | n + 1, x => if x = 0 then 0 else bitsLenAux n (x / 2) + 1

/-- Go `bits.Len(uint(x))`. -/
def bitsLen (x : Nat) : Nat := bitsLenAux 64 x

/-- Method `xorshift.Next` on a `uint64` state: the new state (also the value returned). -/
def xorshiftNext (r : Nat) : Nat :=
  let r := Nat.xor r ((r * 2 ^ 13) % 2 ^ 64)
  let r := Nat.xor r (r / 2 ^ 7)
  Nat.xor r ((r * 2 ^ 17) % 2 ^ 64)

/-- Go `nextPowerOfTwo(length)`. -/
def nextPowerOfTwo (length : Nat) : Nat := (2 ^ bitsLen length) % 2 ^ 64

/-- The loop `for i := 0; i < 3; i++` of `breakPatterns_func`, with `n` iterations left. -/
def breakPatternsLoop (a length modulus idx : Nat) :
    Nat → Nat → Nat → List α → List α
  | 0, _, _, data => data
  | n + 1, i, random, data =>
    let random := xorshiftNext random
    let other := Nat.land random (modulus - 1)
    let other := if other ≥ length then other - length else other
    breakPatternsLoop a length modulus idx n (i + 1) random
      (swapAt data (idx + i) (a + other))

/-- Go `breakPatterns_func(data, a, b)`. -/
def breakPatterns (data : List α) (a b : Nat) : List α :=
  let length := b - a
  if length ≥ 8 then
    breakPatternsLoop a length (nextPowerOfTwo length) (a + (length / 4) * 2 - 1) 3 0 length data
  else data

/-- The `sortedHint` enumeration. -/
inductive SortedHint where
  | unknownHint
  | increasingHint
  | decreasingHint
  deriving DecidableEq, Repr

/-- Go `order2_func(data, a, b, swaps)`: the ordered pair and the updated counter. -/
def order2 (less : α → α → Bool) (data : List α) (a b swaps : Nat) : Nat × Nat × Nat :=
  if lessAt less data b a then (b, a, swaps + 1) else (a, b, swaps)

/-- Go `median_func(data, a, b, c, swaps)`: the index and the updated counter. -/
def median (less : α → α → Bool) (data : List α) (a b c swaps : Nat) : Nat × Nat :=
  let (a, b, swaps) := order2 less data a b swaps
  let (b, _, swaps) := order2 less data b c swaps
  let (_, b, swaps) := order2 less data a b swaps
  (b, swaps)

/-- Go `medianAdjacent_func(data, a, swaps)`. -/
def medianAdjacent (less : α → α → Bool) (data : List α) (a swaps : Nat) : Nat × Nat :=
  median less data (a - 1) a (a + 1) swaps

/-- Go `choosePivot_func(data, a, b)`. -/
def choosePivot (less : α → α → Bool) (data : List α) (a b : Nat) : Nat × SortedHint :=
  let l := b - a
  let swaps := 0
  let i := a + l / 4 * 1
  let j := a + l / 4 * 2
  let k := a + l / 4 * 3
  let (j, swaps) :=
    if l ≥ 8 then
      let (i, j, k, swaps) :=
        if l ≥ 50 then
          let (i, swaps) := medianAdjacent less data i swaps
          let (j, swaps) := medianAdjacent less data j swaps
          let (k, swaps) := medianAdjacent less data k swaps
          (i, j, k, swaps)
        else (i, j, k, swaps)
      median less data i j k swaps
    else (j, swaps)
  if swaps = 0 then (j, .increasingHint)
  else if swaps = 4 * 3 then (j, .decreasingHint)
  else (j, .unknownHint)

/-- The loop of `reverseRange_func`, `for i < j { data.Swap(i, j); i++; j-- }`, with at
most `n` iterations left. -/
def reverseLoop : Nat → Nat → Nat → List α → List α
  | 0, _, _, data => data
  | n + 1, i, j, data =>
    if i < j then reverseLoop n (i + 1) (j - 1) (swapAt data i j) else data

/-- Go `reverseRange_func(data, a, b)`. -/
def reverseRange (data : List α) (a b : Nat) : List α :=
  reverseLoop (b - a) a (b - 1) data

/-- Go `pdqsort_func(data, a, b, limit)`: the `for` loop entered with the given values
of the loop variables. Every iteration that does not return shrinks `b - a`, and the
recursive call is on a strictly shorter range; `fuel` bounds the iterations and
nested calls, and `none` is returned when it is used up. -/
def pdqsort (less : α → α → Bool) :
    Nat → List α → Nat → Nat → Nat → Bool → Bool → Option (List α)
  | 0, _, _, _, _, _, _ => none
  | fuel + 1, data, a, b, limit, wasBalanced, wasPartitioned =>
    let length := b - a
    if length ≤ 12 then some (insertionSort less data a b)
    else if limit = 0 then some (heapSort less data a b)
    else
      let (data, limit) :=
        if !wasBalanced then (breakPatterns data a b, limit - 1) else (data, limit)
      let (pivot, hint) := choosePivot less data a b
      let (data, pivot, hint) :=
        if hint = .decreasingHint then
          (reverseRange data a b, (b - 1) - (pivot - a), SortedHint.increasingHint)
        else (data, pivot, hint)
      let (data, done) :=
        if wasBalanced && wasPartitioned && hint = .increasingHint then
          partialInsertionSort less data a b
        else (data, false)
      if done then some data
      else if a > 0 && !lessAt less data (a - 1) pivot then
        let (data, mid) := partitionEqual less data a b pivot
        pdqsort less fuel data mid b limit wasBalanced wasPartitioned
      else
        let (data, mid, alreadyPartitioned) := partition less data a b pivot
        let leftLen := mid - a
        let rightLen := b - mid
        let balanceThreshold := length / 8
        if leftLen < rightLen then
          match pdqsort less fuel data a mid limit true true with
          | none => none
          | some data =>
            pdqsort less fuel data (mid + 1) b limit (leftLen ≥ balanceThreshold)
              alreadyPartitioned
        else
          match pdqsort less fuel data (mid + 1) b limit true true with
          | none => none
          | some data =>
            pdqsort less fuel data a mid limit (rightLen ≥ balanceThreshold)
              alreadyPartitioned

/-- Go `sort.Slice(x, less)`, with `less` given on elements. -/
def Slice (less : α → α → Bool) (x : List α) : Option (List α) :=
  let length := x.length
  let limit := bitsLen length
  pdqsort less (length + 1) x 0 length limit true true

/-- Insertion of `x` into a list held in reverse: `x` passes every leading element
it is `less` than. -/
def insertRev (less : α → α → Bool) (x : α) : List α → List α
  | [] => [x]
  | y :: ys => if less x y then y :: insertRev less x ys else x :: y :: ys

/-- Insertion sort as a list function: each element in turn is inserted, from the
right, into the sorted part before it. -/
def insertionSortList (less : α → α → Bool) (l : List α) : List α :=
  (l.foldl (fun r x => insertRev less x r) []).reverse

/-- The comparison "has the greater key". -/
def keyGreater (key : α → Int) (x y : α) : Bool := decide (key x > key y)

/-! ### Predicates used to state what the sort does -/

/-- The slice `data'` is a rearrangement of `data` that leaves every index outside
`[a, b)` as it is. -/
def Within (a b : Nat) (data data' : List α) : Prop :=
  List.Perm data' data ∧ ∀ k, (k < a ∨ b ≤ k) → data'[k]? = data[k]?

end sort

/-! ## Errors -/

/-- A Go `error` value as built by `fmt.Errorf`: a plain message, or a message
wrapping a cause (the `%w` verb). -/
inductive GoError where
  | errorf (msg : GoString)
  | wrap (msg : GoString) (cause : GoError)
  deriving DecidableEq

namespace GoError

/-- The `Error()` method: the message text. -/
def Error : GoError → GoString
  | errorf msg => msg
  | wrap msg _ => msg

/-- Go `errors.Unwrap`. -/
def Unwrap : GoError → Option GoError
  | errorf _ => none
  | wrap _ cause => some cause

end GoError

/-! ## internal/models/types.go -/

namespace models

/-- The `Quality` enumeration (`iota` constants 0..3). -/
inductive Quality where
  | Quality720p
  | Quality1080p
  | Quality1440p
  | Quality2160p
  deriving DecidableEq, Repr

/-- Method `Quality.String`. -/
def Quality.String : Quality → GoString
  | .Quality720p => lit "720p"
  | .Quality1080p => lit "1080p"
  | .Quality1440p => lit "1440p"
  | .Quality2160p => lit "2160p"

/-- The `StreamURL` struct; `ExpiresAt` is an instant in nanoseconds. -/
structure StreamURL where
  URL : GoString
  Provider : GoString
  Quality : Quality
  ExpiresAt : Int
  deriving DecidableEq, Repr

/-- Method `StreamURL.IsExpired`: `time.Now().After(s.ExpiresAt)`, with the reading
of the clock passed in as `now`. -/
def StreamURL.IsExpired (s : StreamURL) (now : Int) : Bool :=
  decide (now > s.ExpiresAt)

/-- The `Extractor` interface. `Extract` is given by the outcome `(link, err)` of the
call of this capability on a URL within one registry call. -/
structure Extractor where
  Name : GoString
  Priority : Int
  CanHandle : GoString → Bool
  Extract : GoString → Option StreamURL × Option GoError

end models

/-! ## internal/extractors/voe/voe.go -/

namespace voe

/-- The fields of the `Extractor` struct of package `voe` that the decoding
functions read. -/
structure Extractor where
  name : GoString
  priority : Int
  redirectPattern : URLPattern
  b64Pattern : QuotedPattern
  hlsPattern : QuotedPattern
  junkParts : List GoString

/-- The values set by `New`; the three patterns are compiled from `https?://[^'"<>]+`,
`var a168c='([^']+)'` and `'hls': '([^']+)'`. -/
def New : Extractor :=
  { name := lit "VOE"
    priority := 5
    redirectPattern := { excluded := lit "'\"<>" }
    b64Pattern := { lead := lit "var a168c='" }
    hlsPattern := { lead := lit "'hls': '" }
    junkParts := [lit "@$", lit "^^", lit "~@", lit "%?", lit "*~", lit "!!", lit "#&"] }

/-- Method `Name`. -/
def Extractor.Name (e : Extractor) : GoString := e.name

/-- Method `Priority`. -/
def Extractor.Priority (e : Extractor) : Int := e.priority

/-- Method `CanHandle`. -/
def Extractor.CanHandle (_e : Extractor) (embedURL : GoString) : Bool :=
  stringsContains embedURL (lit "voe.sx") ||
    stringsContains embedURL (lit "voe.to") ||
    stringsContains embedURL (lit "voe.com")

/-- A decoded JSON value (`interface{}` as filled in by `encoding/json`); a number is
kept as its text. -/
inductive JsonValue where
  | null
  | bool (b : Bool)
  | number (text : GoString)
  | string (s : GoString)
  | array (items : List JsonValue)
  | object (fields : List (GoString × JsonValue))

/-- A `map[string]interface{}`. -/
abbrev JsonMap := GoString → Option JsonValue

/-- The type assertion `m[key].(string)`: the value, and whether it is a string. -/
def JsonMap.stringAt (m : JsonMap) (key : GoString) : Option GoString :=
  match m key with
  | some (JsonValue.string s) => some s
  | _ => none

/-- The three errors of `decodeVOEString`. -/
inductive DecodeError where
  | step3
  | step5
  | parseJSON
  deriving DecidableEq, Repr

/-- Function `reverseString`. -/
def reverseString (s : GoString) : GoString :=
  fromRunes (toRunes s).reverse

/-- Method `shiftLetters`. -/
def Extractor.shiftLetters (_e : Extractor) (input : GoString) : GoString :=
  input.map (fun c =>
    if 65 ≤ c ∧ c ≤ 90 then ((c - 65 + 13) % 26) + 65
    else if 97 ≤ c ∧ c ≤ 122 then ((c - 97 + 13) % 26) + 97
    else c)

/-- Method `replaceJunk`. -/
def Extractor.replaceJunk (e : Extractor) (input : GoString) : GoString :=
  e.junkParts.foldl (fun result part => replaceAll result part (lit "_")) input

/-- Method `shiftBack`: `c - byte(n)` in `byte` arithmetic, `byte(n)` being `n` reduced
modulo 256. -/
def Extractor.shiftBack (_e : Extractor) (input : GoString) (n : Int) : GoString :=
  input.map (fun c => (c + 256 - (n % 256).toNat) % 256)

/-- Method `decodeVOEString`; `unmarshal` is `json.Unmarshal` into a
`map[string]interface{}`, `none` when it returns an error. -/
def Extractor.decodeVOEString (unmarshal : GoString → Option JsonMap) (e : Extractor)
    (encoded : GoString) : Except DecodeError JsonMap :=
  let step1 := e.shiftLetters encoded
  let step2 := e.replaceJunk step1
  let step2 := replaceAll step2 (lit "_") (lit "")
  match base64Decode step2 with
  | none => .error .step3
  | some step3 =>
    let step4 := e.shiftBack step3 3
    let step4Reversed := reverseString step4
    match base64Decode step4Reversed with
    | none => .error .step5
    | some step5Bytes =>
      match unmarshal step5Bytes with
      | none => .error .parseJSON
      | some result => .ok result

/-- Go `time.Hour`, in nanoseconds. -/
def timeHour : Int := 3600 * 1000000000

/-- Method `createStreamURL`; `now` is the reading of `time.Now()`. -/
def Extractor.createStreamURL (e : Extractor) (now : Int) (url : GoString) :
    models.StreamURL :=
  let quality :=
    if stringsContains url (lit "720") then models.Quality.Quality720p
    else if stringsContains url (lit "1080") then models.Quality.Quality1080p
    else if stringsContains url (lit "1440") then models.Quality.Quality1440p
    else if stringsContains url (lit "2160") then models.Quality.Quality2160p
    else models.Quality.Quality1080p
  let expiresAt := now + 2 * timeHour
  { URL := url, Quality := quality, Provider := e.Name, ExpiresAt := expiresAt }

/-- Method `extractFromScript`. The work of goquery is the parameter `scripts`: for a
page, `none` when `NewDocumentFromReader` returns an error, otherwise the `Text()` of
the elements selected by `script[type='application/json']`, in document order. The
callback passed to `Each` runs on every selected element: its `return` ends one call of
the callback, not the iteration. -/
def Extractor.extractFromScript (scripts : GoString → Option (List GoString))
    (unmarshal : GoString → Option JsonMap) (e : Extractor) (html : GoString) : GoString :=
  match scripts html with
  | none => lit ""
  | some texts =>
    texts.foldl (fun result text =>
      if text.length > 4 then
        let scriptContent := (text.take (text.length - 2)).drop 2
        match e.decodeVOEString unmarshal scriptContent with
        | .ok decoded =>
          match decoded.stringAt (lit "source") with
          | some source => if source ≠ lit "" then source else result
          | none => result
        | .error _ => result
      else result) (lit "")

/-- Method `extractFromB64Variable`. -/
def Extractor.extractFromB64Variable (unmarshal : GoString → Option JsonMap)
    (e : Extractor) (html : GoString) : GoString :=
  match e.b64Pattern.FindStringSubmatch html with
  | none => lit ""
  | some encoded =>
    match base64Decode encoded with
    | none => lit ""
    | some decoded =>
      let reversed := reverseString decoded
      match unmarshal reversed with
      | none => lit ""
      | some data =>
        match data.stringAt (lit "source") with
        | some source => if source ≠ lit "" then source else lit ""
        | none => lit ""

/-- Method `extractHLSSource`. -/
def Extractor.extractHLSSource (e : Extractor) (html : GoString) : GoString :=
  match e.hlsPattern.FindStringSubmatch html with
  | none => lit ""
  | some encoded =>
    match base64Decode encoded with
    | none => lit ""
    | some decoded =>
      let result := decoded
      if result = lit "" then lit "" else result

/-- The three extraction methods of `Extract`, in the order of the source. -/
inductive Method where
  | scriptTag
  | b64Variable
  | hlsPattern
  deriving DecidableEq, Repr

/-- What the decoding of a page produces: the returned pair and, in order, the methods
that were called. -/
structure PageOutcome where
  link : Option models.StreamURL
  err : Option GoError
  tried : List Method

/-- The last part of method `Extract`, from the final HTML on: the three methods and the
construction of the result. `now` is the reading of `time.Now()` made by
`createStreamURL`. -/
def Extractor.decodePage (scripts : GoString → Option (List GoString))
    (unmarshal : GoString → Option JsonMap) (e : Extractor) (now : Int)
    (html : GoString) : PageOutcome :=
  let streamURL := e.extractFromScript scripts unmarshal html
  if streamURL ≠ lit "" then
    ⟨some (e.createStreamURL now streamURL), none, [.scriptTag]⟩
  else
    let streamURL := e.extractFromB64Variable unmarshal html
    if streamURL ≠ lit "" then
      ⟨some (e.createStreamURL now streamURL), none, [.scriptTag, .b64Variable]⟩
    else
      let streamURL := e.extractHLSSource html
      if streamURL ≠ lit "" then
        ⟨some (e.createStreamURL now streamURL), none,
          [.scriptTag, .b64Variable, .hlsPattern]⟩
      else
        ⟨none, some (.errorf (lit "failed to extract stream URL using all methods")),
          [.scriptTag, .b64Variable, .hlsPattern]⟩


/-- Go slice expression `s[lo:hi]` on a string; `none` when the bounds are out of range
and the expression panics. -/
def sliceString (s : GoString) (lo hi : Int) : Option GoString :=
  if 0 ≤ lo ∧ lo ≤ hi ∧ hi ≤ s.length then some ((s.take hi.toNat).drop lo.toNat)
  else none

/-- The callback that `extractFromScript` passes to `Each`, on the text of one element,
with the slice expression checked: the value of `result` after the call, `none` when the
slice expression panics. -/
def Extractor.scriptCallback (unmarshal : GoString → Option JsonMap) (e : Extractor)
    (result text : GoString) : Option GoString :=
  if text.length > 4 then
    match sliceString text 2 ((text.length : Int) - 2) with
    | none => none
    | some scriptContent =>
      match e.decodeVOEString unmarshal scriptContent with
      | .ok decoded =>
        match decoded.stringAt (lit "source") with
        | some source => if source ≠ lit "" then some source else some result
        | none => some result
      | .error _ => some result
  else some result

/-- One more call of the callback after the calls made so far. -/
def Extractor.scriptStep (unmarshal : GoString → Option JsonMap) (e : Extractor)
    (acc : Option GoString) (text : GoString) : Option GoString :=
  match acc with
  | none => none
  | some result => e.scriptCallback unmarshal result text

/-- Method `extractFromScript` with the slice expression checked: `none` when a call of
the callback panics. -/
def Extractor.extractFromScriptChecked (scripts : GoString → Option (List GoString))
    (unmarshal : GoString → Option JsonMap) (e : Extractor) (html : GoString) :
    Option GoString :=
  match scripts html with
  | none => some (lit "")
  | some texts => texts.foldl (e.scriptStep unmarshal) (some (lit ""))

/-- A response of the HTTP client: the status code, and what `io.ReadAll` returns on the
body. -/
structure Response where
  StatusCode : Int
  body : Except GoError GoString

/-- The HTTP side of `Extract`. `newRequest url` is the error of
`http.NewRequestWithContext(ctx, "GET", url, nil)`, if any; `Do i url agent` is what
`e.httpClient.Do` returns for the request number `i` of the call, made for `url` with
the header `User-Agent: agent`. -/
structure Transport where
  newRequest : GoString → Option GoError
  Do : Nat → GoString → GoString → Except GoError Response

/-- The text of an integer printed with the verb `%d`. -/
def formatInt (n : Int) : GoString := lit (toString n)

/-- What a call of `Extract` produces: the returned pair, the requests sent (URL and
`User-Agent`), in order, and the decoding methods called. -/
structure ExtractOutcome where
  link : Option models.StreamURL
  err : Option GoError
  requests : List (GoString × GoString)
  tried : List Method

/-- Method `Extract`. `now` is the reading of `time.Now()` made by `createStreamURL`. -/
def Extractor.Extract (t : Transport) (scripts : GoString → Option (List GoString))
    (unmarshal : GoString → Option JsonMap) (e : Extractor) (now : Int)
    (embeddedURL : GoString) : ExtractOutcome :=
  let agent := lit "Mozilla/5.0 (Windows NT 10.0; Win64; x64) AppleWebKit/537.36"
  match t.newRequest embeddedURL with
  | some err => ⟨none, some (.wrap (lit "failed to create request: " ++ err.Error) err), [], []⟩
  | none =>
    match t.Do 0 embeddedURL agent with
    | .error err =>
      ⟨none, some (.wrap (lit "failed to get initial page: " ++ err.Error) err),
        [(embeddedURL, agent)], []⟩
    | .ok resp =>
      if resp.StatusCode ≠ 200 then
        ⟨none, some (.errorf (lit "initial page returned status " ++ formatInt resp.StatusCode)),
          [(embeddedURL, agent)], []⟩
      else
        match resp.body with
        | .error err =>
          ⟨none, some (.wrap (lit "failed to read initial page: " ++ err.Error) err),
            [(embeddedURL, agent)], []⟩
        | .ok body =>
          let responseText := body
          let redirectMatch := e.redirectPattern.FindString responseText
          if redirectMatch = lit "" then
            ⟨none, some (.errorf (lit "no redirect URL found")), [(embeddedURL, agent)], []⟩
          else
            let redirectURL := redirectMatch
            match t.newRequest redirectURL with
            | some err =>
              ⟨none,
                some (.wrap (lit "failed to create redirect request: " ++ err.Error) err),
                [(embeddedURL, agent)], []⟩
            | none =>
              match t.Do 1 redirectURL (lit "Mozilla/5.0") with
              | .error err =>
                ⟨none, some (.wrap (lit "failed to follow redirect: " ++ err.Error) err),
                  [(embeddedURL, agent), (redirectURL, lit "Mozilla/5.0")], []⟩
              | .ok finalResp =>
                match finalResp.body with
                | .error err =>
                  ⟨none,
                    some (.wrap (lit "failed to read redirect response: " ++ err.Error) err),
                    [(embeddedURL, agent), (redirectURL, lit "Mozilla/5.0")], []⟩
                | .ok finalBody =>
                  let html := finalBody
                  let page := e.decodePage scripts unmarshal now html
                  ⟨page.link, page.err,
                    [(embeddedURL, agent), (redirectURL, lit "Mozilla/5.0")], page.tried⟩

/-- The condition of the redirect step in the words of the specification: at offset `k`
of the body starts the text `http://` or `https://` followed by at least one byte
outside the set `'`, `"`, `<`, `>`. -/
def redirectStartsAt (body : GoString) (k : Nat) : Prop :=
  ∃ scheme c, (scheme = lit "http://" ∨ scheme = lit "https://") ∧
    (scheme ++ [c]) <+: body.drop k ∧ c ∉ lit "'\"<>"

/-- The condition of Method B in the words of the specification: at offset `k` of the
page starts the assignment `var a168c='`, the text `blob`, `'`, where `blob` is not
empty and holds no `'`. -/
def assignmentAt (html : GoString) (k : Nat) (blob : GoString) : Prop :=
  ∃ rest, html.drop k = lit "var a168c='" ++ blob ++ lit "'" ++ rest ∧ blob ≠ lit "" ∧
    39 ∉ blob

end voe

/-! ## internal/extractors/extractor.go -/

namespace extractors

open models

/-- The configuration handle held by `System` (a `*storage.Config`, possibly nil);
no operation of this package reads it. -/
structure Config where
  deriving DecidableEq

/-- The `System` struct. -/
structure System where
  extractors : List Extractor
  config : Option Config

/-- What one call of `System.Extract` produces: the returned pair and, in order,
the capabilities whose `Extract` was called. -/
structure Outcome where
  link : Option StreamURL
  err : Option GoError
  invoked : List Extractor

/-- The second loop of `System.Extract` over the remaining candidates. `i` is the
position of the next candidate, `clock i` the reading of `time.Now()` made by the
`IsExpired` check on the result of candidate `i`, and `invoked` the calls so far. -/
def extractLoop (embeddedURL : GoString) (clock : Nat → Int) :
    List Extractor → Nat → Option GoError → List Extractor → Outcome
  | [], _, lastErr, invoked =>
    match lastErr with
    | some e =>
      ⟨none, some (.wrap (lit "all extractors failed, last error: " ++ e.Error) e), invoked⟩
    | none => ⟨none, some (.errorf (lit "no valid stream URL found")), invoked⟩
  | extractor :: rest, i, lastErr, invoked =>
    match extractor.Extract embeddedURL with
    | (_, some err) =>
      extractLoop embeddedURL clock rest (i + 1) (some err) (invoked ++ [extractor])
    | (some streamURL, none) =>
      if !streamURL.IsExpired (clock i) then
        ⟨some streamURL, none, invoked ++ [extractor]⟩
      else extractLoop embeddedURL clock rest (i + 1) lastErr (invoked ++ [extractor])
    | (none, none) =>
      extractLoop embeddedURL clock rest (i + 1) lastErr (invoked ++ [extractor])

/-- The first loop of `System.Extract`: the candidates, in registry order. -/
def candidatesOf (s : System) (embeddedURL : GoString) : List Extractor :=
  s.extractors.filter (fun extractor => extractor.CanHandle embeddedURL)

/-- Method `System.Extract`. -/
def System.Extract (s : System) (clock : Nat → Int) (embeddedURL : GoString) : Outcome :=
  let candidates := candidatesOf s embeddedURL
  if candidates.length = 0 then
    ⟨none, some (.errorf (lit "no extractor can handle URL: " ++ embeddedURL)), []⟩
  else extractLoop embeddedURL clock candidates 0 none []

/-- Method `System.GetExtractors`. -/
def System.GetExtractors (s : System) : List Extractor := s.extractors

/-- The variables of a running call of `System.Extract`: the receiver `*s`, the locals
`candidates` and `lastErr`, and the capabilities whose `Extract` was called so far. -/
structure ExtractState where
  s : System
  candidates : List Extractor
  lastErr : Option GoError
  invoked : List Extractor

/-- One iteration of the first loop of `System.Extract`. -/
def collectStep (embeddedURL : GoString) (st : ExtractState) (extractor : Extractor) :
    ExtractState :=
  if extractor.CanHandle embeddedURL then
    { st with candidates := st.candidates ++ [extractor] }
  else st

/-- One iteration of the second loop of `System.Extract` on the candidate at position
`i`: the state after it and, when the iteration returns, the returned pair. -/
def tryStep (embeddedURL : GoString) (clock : Nat → Int) (i : Nat) (st : ExtractState)
    (extractor : Extractor) : ExtractState × Option (Option StreamURL × Option GoError) :=
  let st := { st with invoked := st.invoked ++ [extractor] }
  match extractor.Extract embeddedURL with
  | (_, some err) => ({ st with lastErr := some err }, none)
  | (some streamURL, none) =>
    if !streamURL.IsExpired (clock i) then (st, some (some streamURL, none))
    else (st, none)
  | (none, none) => (st, none)

/-- The second loop of `System.Extract` as a run on the state. -/
def tryLoop (embeddedURL : GoString) (clock : Nat → Int) :
    List Extractor → Nat → ExtractState →
      ExtractState × Option (Option StreamURL × Option GoError)
  | [], _, st => (st, none)
  | extractor :: rest, i, st =>
    match tryStep embeddedURL clock i st extractor with
    | (st, some r) => (st, some r)
    | (st, none) => tryLoop embeddedURL clock rest (i + 1) st

/-- Method `System.Extract` as a run on the state: the state when the call returns, and
the returned pair. -/
def System.ExtractRun (s : System) (clock : Nat → Int) (embeddedURL : GoString) :
    ExtractState × (Option StreamURL × Option GoError) :=
  let st : ExtractState := { s := s, candidates := [], lastErr := none, invoked := [] }
  let st := st.s.extractors.foldl (collectStep embeddedURL) st
  if st.candidates.length = 0 then
    (st, (none, some (.errorf (lit "no extractor can handle URL: " ++ embeddedURL))))
  else
    match tryLoop embeddedURL clock st.candidates 0 st with
    | (st, some r) => (st, r)
    | (st, none) =>
      match st.lastErr with
      | some e =>
        (st, (none, some (.wrap (lit "all extractors failed, last error: " ++ e.Error) e)))
      | none => (st, (none, some (.errorf (lit "no valid stream URL found"))))

/-- Method `System.registerExtractors`, appending the capabilities `registered` in
order (the source registers the single capability `voe.New()`). -/
def System.registerExtractors (s : System) (registered : List Extractor) : System :=
  { s with extractors := s.extractors ++ registered }

/-- The `sort.Slice` call of `NewSystem`, whose `less` compares
`extractors[i].Priority() > extractors[j].Priority()`. -/
def sortExtractors (extractors : List Extractor) : Option (List Extractor) :=
  sort.Slice (fun x y => decide (x.Priority > y.Priority)) extractors

/-- Function `NewSystem` for a given registration list; `none` if the sort does not
return. -/
def NewSystemWith (registered : List Extractor) (config : Option Config) : Option System :=
  let system : System := { extractors := [], config := config }
  let system := system.registerExtractors registered
  match sortExtractors system.extractors with
  | some sorted => some { system with extractors := sorted }
  | none => none

/-- The acceptance test of the loop on the result of the candidate at position `i`:
no error, a non-nil link, and the link not expired at the reading `clock i`. -/
def accepted (clock : Nat → Int) (i : Nat) (r : Option StreamURL × Option GoError) : Bool :=
  match r with
  | (some streamURL, none) => !streamURL.IsExpired (clock i)
  | _ => false

/-- The last error returned by one of the given candidates, if any returned one. -/
def lastRecorded (embeddedURL : GoString) (cands : List Extractor) : Option GoError :=
  (cands.filterMap (fun extractor => (extractor.Extract embeddedURL).2)).getLast?

/-- The `NoCandidate` error for a URL. -/
def errNoCandidate (embeddedURL : GoString) : GoError :=
  .errorf (lit "no extractor can handle URL: " ++ embeddedURL)

/-- The `AllCandidatesFailed` error wrapping a cause. -/
def errAllFailed (cause : GoError) : GoError :=
  .wrap (lit "all extractors failed, last error: " ++ cause.Error) cause

/-- The error returned when the loop ends with no error recorded. -/
def errNoValid : GoError :=
  .errorf (lit "no valid stream URL found")

end extractors

/-! ## cmd/root.go -/

namespace cmd

/-- What `runWatch` meets outside the program: the value of `canAccessTTY()`, and the
errors, if any, of `storage.NewConfig()`, `providerRegistry.GetDefault()` and
`playerRegistry.GetDefault()`. -/
structure Env where
  canAccessTTY : Bool
  configErr : Option GoError
  providerErr : Option GoError
  playerErr : Option GoError

/-- How `runWatch` goes on: it returns an error of its own, it hands over to
`playDirect`, or it builds the TUI model and runs the TUI program. -/
inductive WatchOutcome where
  | failed (err : GoError)
  | playDirect (animeName : GoString) (seasonNum episodeNum : Int)
  | tui
  deriving DecidableEq

/-- A call of `runWatch`: how it goes on, and whether `canAccessTTY()` was called. -/
structure WatchRun where
  outcome : WatchOutcome
  ttyChecked : Bool
  deriving DecidableEq

/-- The local `needsTUI` of `runWatch`. -/
def needsTUI (animeName : GoString) (seasonNum episodeNum : Int) : Bool :=
  animeName == lit "" || (animeName != lit "" && seasonNum == 0) ||
    (animeName != lit "" && decide (seasonNum > 0) && episodeNum == 0)

/-- The condition of `runWatch` under which it hands over to `playDirect`. -/
def directPlay (animeName : GoString) (seasonNum episodeNum : Int) : Bool :=
  animeName != lit "" && decide (seasonNum > 0) && decide (episodeNum > 0)

/-- Function `runWatch`, on the values of the flags `--anime`, `--season`, `--episode`.
`canAccessTTY()` is the right operand of `&&`: it is called exactly when `needsTUI`
holds. -/
def runWatch (env : Env) (animeName : GoString) (seasonNum episodeNum : Int) : WatchRun :=
  let needs := needsTUI animeName seasonNum episodeNum
  if needs && !env.canAccessTTY then
    ⟨.failed (.errorf (lit "TTY not available for interactive mode")), needs⟩
  else
    match env.configErr with
    | some err =>
      ⟨.failed (.wrap (lit "failed to load configuration: " ++ err.Error) err), needs⟩
    | none =>
      match env.providerErr with
      | some err => ⟨.failed (.wrap (lit "no provider available: " ++ err.Error) err), needs⟩
      | none =>
        match env.playerErr with
        | some err => ⟨.failed (.wrap (lit "no player available: " ++ err.Error) err), needs⟩
        | none =>
          if directPlay animeName seasonNum episodeNum then
            ⟨.playDirect animeName seasonNum episodeNum, needs⟩
          else ⟨.tui, needs⟩

end cmd

/-! ## internal/tui/navigation/state.go -/

namespace navigation

/-- Type `ViewState`, an `int`. -/
abbrev ViewState := Int

/-- Constant `AnimeView`. -/
def AnimeView : ViewState := 0

/-- Constant `SeasonView`. -/
def SeasonView : ViewState := 1

/-- Constant `EpisodeView`. -/
def EpisodeView : ViewState := 2

/-- Constant `PlayerView`. -/
def PlayerView : ViewState := 3

/-- The field `selection` of `State`; a pointer is nil or an address. -/
structure Selection where
  Anime : Option Nat
  Season : Int
  Episode : Option Nat
  deriving DecidableEq

/-- The `State` struct. -/
structure State where
  current : ViewState
  selection : Selection
  width : Int
  height : Int
  quitting : Bool
  deriving DecidableEq

/-- Function `NewState`: every field but `current` has its zero value. -/
def NewState : State :=
  { current := AnimeView, selection := { Anime := none, Season := 0, Episode := none },
    width := 0, height := 0, quitting := false }

/-- Method `GetCurrentView`. -/
def State.GetCurrentView (s : State) : ViewState := s.current

/-- Method `NavigateForward`. -/
def State.NavigateForward (s : State) : State :=
  if s.current = AnimeView then { s with current := SeasonView }
  else if s.current = SeasonView then { s with current := EpisodeView }
  else if s.current = EpisodeView then { s with current := PlayerView }
  else s

/-- Method `NavigateBack`. -/
def State.NavigateBack (s : State) : State :=
  if s.current = AnimeView then s
  else if s.current = SeasonView then { s with current := AnimeView }
  else if s.current = EpisodeView then { s with current := SeasonView }
  else if s.current = PlayerView then { s with current := EpisodeView }
  else s

/-- One navigation call. -/
inductive Move where
  | forward
  | back
  deriving DecidableEq

/-- The state after one navigation call. -/
def State.move (s : State) : Move → State
  | .forward => s.NavigateForward
  | .back => s.NavigateBack

/-- The state after a sequence of navigation calls, made in order. -/
def State.moves (s : State) (calls : List Move) : State :=
  calls.foldl State.move s

end navigation

/-! ## Go `strings.ToLower` and `strings.Fields` -/

/-- The lower-case form of an ASCII code point. -/
def asciiLower (c : Nat) : Nat :=
  if 65 ≤ c ∧ c ≤ 90 then c + 32 else c

/-- Go `strings.ToLower`. A string of ASCII bytes is mapped byte by byte; any other
string is mapped rune by rune by `unicode.ToLower`, an ill-formed byte becoming
`U+FFFD`. `lower` is `unicode.ToLower` on the code points from `U+0080` on. -/
def stringsToLower (lower : Nat → Nat) (s : GoString) : GoString :=
  if s.all (fun c => c < 128) then s.map asciiLower
  else fromRunes ((toRunes s).map (fun r => if r < 128 then asciiLower r else lower r))

/-- Go `unicode.IsSpace`. -/
def unicodeIsSpace (r : Nat) : Bool :=
  (9 ≤ r && r ≤ 13) || r = 32 || r = 0x85 || r = 0xA0 || r = 0x1680 ||
    (0x2000 ≤ r && r ≤ 0x200A) || r = 0x2028 || r = 0x2029 || r = 0x202F || r = 0x205F ||
    r = 0x3000

/-- The fields of a text, read rune by rune. `skip` counts the bytes still covered by
the rune just decoded, `keep` tells whether they belong to the field being read, and
`field` is the field read so far. -/
def stringsFieldsAux : Nat → Bool → GoString → GoString → List GoString
  | _, _, field, [] => if field.isEmpty then [] else [field]
  | skip + 1, keep, field, c :: cs =>
    stringsFieldsAux skip keep (if keep then field ++ [c] else field) cs
  | 0, _, field, c :: cs =>
    let (r, size) := decodeRune (c :: cs)
    if unicodeIsSpace r then
      (if field.isEmpty then [] else [field]) ++ stringsFieldsAux (size - 1) false [] cs
    else stringsFieldsAux (size - 1) true (field ++ [c]) cs

/-- Go `strings.Fields`: the maximal runs of runes that are not white space. -/
def stringsFields (s : GoString) : List GoString :=
  stringsFieldsAux 0 false [] s

/-! ## Go `float64` -/

/-- A finite `float64` value that is not negative, `mant * 2 ^ exp`. Zero is `⟨0, 0⟩`;
any other value has `2 ^ 52 ≤ mant < 2 ^ 53`. The exponent is not bounded: the values
are those of `float64` between `2 ^ -1022` and `2 ^ 1024`, where the quotients and
products of word counts lie. -/
structure Float64 where
  mant : Nat
  exp : Int
  deriving DecidableEq

/-- The number that a `Float64` stands for. -/
def Float64.toRat (x : Float64) : ℚ := (x.mant : ℚ) * (2 : ℚ) ^ x.exp

/-- The number of binary digits of `n`, counted with `fuel` steps. -/
def bitLengthAux : Nat → Nat → Nat
  | 0, _ => 0
  | fuel + 1, n => if n = 0 then 0 else bitLengthAux fuel (n / 2) + 1

/-- The number of binary digits of `n`. -/
def bitLength (n : Nat) : Nat := bitLengthAux n n

/-- The integer `e` with `2 ^ e ≤ a / b < 2 ^ (e + 1)`, for positive `a` and `b`. -/
def floorLog2 (a b : Nat) : Int :=
  let d : Int := (bitLength a : Int) - (bitLength b : Int)
  if b * 2 ^ d.toNat ≤ a * 2 ^ (-d).toNat then d else d - 1

/-- The integer nearest to `n / d`, the even one of the two when `n / d` is half-way. -/
def roundHalfEven (n d : Nat) : Nat :=
  let q := n / d
  let r := n % d
  if 2 * r < d then q else if d < 2 * r then q + 1 else if q % 2 = 0 then q else q + 1

/-- The `float64` nearest to `a / b` (round to nearest, ties to even), for `b > 0`: the
result of an IEEE 754 operation whose exact value is `a / b`. -/
def Float64.round (a b : Nat) : Float64 :=
  if a = 0 then ⟨0, 0⟩
  else
    let e := floorLog2 a b - 52
    let m := roundHalfEven (a * 2 ^ (-e).toNat) (b * 2 ^ e.toNat)
    if m = 2 ^ 53 then ⟨2 ^ 52, e + 1⟩ else ⟨m, e⟩

/-- The numerator of the value over the denominator `Float64.den`. -/
def Float64.num (x : Float64) : Nat := x.mant * 2 ^ x.exp.toNat

/-- A denominator of the value: a power of two. -/
def Float64.den (x : Float64) : Nat := 2 ^ (-x.exp).toNat

/-- The conversion `float64(n)` of an `int` that is not negative. -/
def Float64.ofInt (n : Nat) : Float64 := Float64.round n 1

/-- The `float64` quotient `x / y`, for `y` other than zero. -/
def Float64.div (x y : Float64) : Float64 := Float64.round (x.num * y.den) (x.den * y.num)

/-- The `float64` product `x * y`. -/
def Float64.mul (x y : Float64) : Float64 := Float64.round (x.num * y.num) (x.den * y.den)

/-! ## Words of an ASCII text -/

/-- The white-space bytes of ASCII: tab, line feed, vertical tab, form feed, carriage
return and space. -/
def asciiSpace (c : Nat) : Bool :=
  c = 9 || c = 10 || c = 11 || c = 12 || c = 13 || c = 32

/-- The words of an ASCII text, as the claim reads them: the text is cut at every
white-space byte and the pieces that are not empty are kept, in order. -/
def asciiWords (s : GoString) : List GoString :=
  (s.splitOnP asciiSpace).filter (fun w => !w.isEmpty)

/-- The number of query words that contain or are contained in some title word, as the
claim reads it. -/
def matchingWords (queryWords titleWords : List GoString) : Nat :=
  queryWords.countP (fun qw => titleWords.any (fun tw => decide (qw <:+: tw ∨ tw <:+: qw)))

/-! ## internal/providers/aniworld/aniworld.go -/

namespace aniworld

/-- Function `calculateMatchScore`; `matchCount` is the local `matches`. The constants
`100.0`, `90.0`, `70.0`, `50.0` and `0.0` are the `float64` values of these integers, and
the last tier is `float64(matches) / float64(len(queryWords)) * 50.0`: two conversions,
a quotient and a product, each rounded. -/
def calculateMatchScore (lower : Nat → Nat) (query title : GoString) : Float64 :=
  let queryLower := stringsToLower lower query
  let titleLower := stringsToLower lower title
  if queryLower = titleLower then Float64.ofInt 100
  else if hasPrefix titleLower queryLower then Float64.ofInt 90
  else if stringsContains titleLower queryLower then Float64.ofInt 70
  else
    let queryWords := stringsFields queryLower
    let titleWords := stringsFields titleLower
    let matchCount := queryWords.foldl (fun (count : Nat) qw =>
      if titleWords.any (fun tw => stringsContains tw qw || stringsContains qw tw) then
        count + 1
      else count) 0
    if queryWords.length > 0 then
      ((Float64.ofInt matchCount).div (Float64.ofInt queryWords.length)).mul (Float64.ofInt 50)
    else Float64.ofInt 0

end aniworld

/-! ## URL host -/

/-- The text of a URL after its first `://` (empty when there is none). -/
def afterScheme : GoString → GoString
  | [] => []
  | c :: cs => if hasPrefix (c :: cs) (lit "://") then cs.drop 2 else afterScheme cs

/-- The host component of a URL: the text between `://` and the next `/`, `?` or `#`. -/
def urlHost (u : GoString) : GoString :=
  (afterScheme u).takeWhile (fun c => c != 47 && c != 63 && c != 35)

/-- The aliases of the origin host. -/
def voeAliases : List GoString := [lit "voe.sx", lit "voe.to", lit "voe.com"]

/-! ## Fixtures of the round-trip test -/

namespace fixture

/-- The stage "add 3 to each byte". -/
def add3 (s : GoString) : GoString := s.map (fun c => (c + 3) % 256)

/-- The junk token of index `k`, as listed by `voe.New`. -/
def junkToken (k : Fin 7) : GoString :=
  match k with
  | 0 => lit "@$"
  | 1 => lit "^^"
  | 2 => lit "~@"
  | 3 => lit "%?"
  | 4 => lit "*~"
  | 5 => lit "!!"
  | 6 => lit "#&"

/-- The stage "reinsert junk tokens": `gaps` lists, for each position of `w` in turn
(before its first byte, between two bytes, after its last byte), the tokens put there. -/
def insertJunk : GoString → List (List (Fin 7)) → GoString
  | w, [] => w
  | [], g :: _ => g.flatMap junkToken
  | c :: cs, g :: gaps => g.flatMap junkToken ++ c :: insertJunk cs gaps

/-- The JSON text of the object `{"source": u}` for a URL `u` that needs no escaping. -/
def sourceJSON (u : GoString) : GoString :=
  lit "\x7b\"source\":\"" ++ u ++ lit "\"\x7d"

/-- The fixture in the order the specification lists the stages: reverse,
base64-encode, add 3 to each byte, base64-encode, reinsert junk tokens, rotate letters
by 13. -/
def specOrder (j : GoString) (gaps : List (List (Fin 7))) : GoString :=
  voe.New.shiftLetters (insertJunk (base64Encode (add3 (base64Encode j.reverse))) gaps)

/-- The fixture with the stages of `decodeVOEString` inverted one by one, last stage
first: base64-encode, reverse, add 3 to each byte, base64-encode, reinsert junk tokens,
rotate letters by 13. -/
def inverseOrder (j : GoString) (gaps : List (List (Fin 7))) : GoString :=
  voe.New.shiftLetters (insertJunk (base64Encode (add3 (base64Encode j).reverse)) gaps)

/-- A JSON reader that knows one text: it reads `sourceJSON u` as the object whose only
field is `source`, the string `u`, and rejects every other text. -/
def unmarshalOnly (u : GoString) (text : GoString) : Option voe.JsonMap :=
  if text = sourceJSON u then
    some (fun key => if key = lit "source" then some (voe.JsonValue.string u) else none)
  else none

/-- A piece of a junked text: one byte of the text, or one whole junk token. -/
inductive Seg where
  | ch (c : Nat)
  | tok (k : Fin 7)

/-- The first byte of a junk token. -/
def junkFst (k : Fin 7) : Nat :=
  match k with
  | 0 => 64 | 1 => 94 | 2 => 126 | 3 => 37 | 4 => 42 | 5 => 33 | 6 => 35

/-- The second byte of a junk token. -/
def junkSnd (k : Fin 7) : Nat :=
  match k with
  | 0 => 36 | 1 => 94 | 2 => 64 | 3 => 63 | 4 => 126 | 5 => 33 | 6 => 38

/-- Whether a byte occurs in some junk token. -/
def isJunkByte (c : Nat) : Bool :=
  c = 64 || c = 36 || c = 94 || c = 126 || c = 37 || c = 63 || c = 42 || c = 33 ||
    c = 35 || c = 38

/-- The bytes of a piece. -/
def Seg.bytes : Seg → GoString
  | .ch c => [c]
  | .tok k => junkToken k

/-- The text spelled by a list of pieces. -/
def flatten (segs : List Seg) : GoString := segs.flatMap Seg.bytes

/-- The byte left in place of a piece by the replacement: the byte itself, or one
underscore for a whole token. -/
def Seg.replaced : Seg → Nat
  | .ch c => c
  | .tok _ => 95

/-- The pieces after the tokens of index below `n` have become underscores. -/
def Seg.resolve (n : Nat) : Seg → Seg
  | .ch c => .ch c
  | .tok m => if m.val < n then .ch 95 else .tok m

/-- The bytes of the text proper, the tokens left out. -/
def chars : List Seg → GoString
  | [] => []
  | .ch c :: segs => c :: chars segs
  | .tok _ :: segs => chars segs

/-- The pieces of `insertJunk w gaps`. -/
def junkSegs : GoString → List (List (Fin 7)) → List Seg
  | w, [] => w.map Seg.ch
  | [], g :: _ => g.map Seg.tok
  | c :: cs, g :: gaps => g.map Seg.tok ++ Seg.ch c :: junkSegs cs gaps

/-- The substitution made by replacing the token of index `k`. -/
def Seg.subst (k : Fin 7) : Seg → Seg
  | .ch c => .ch c
  | .tok m => if m = k then .ch 95 else .tok m

/-- The error of a failed decoding, if it failed. -/
def failure (r : Except voe.DecodeError voe.JsonMap) : Option voe.DecodeError :=
  match r with
  | .error e => some e
  | .ok _ => none

/-- A sample media URL. -/
def sampleMedia : GoString := lit "https://cdn.example/video_720.m3u8"

/-- A sample choice of junk: two tokens in front, one after the third byte, two at the
fifth position. -/
def sampleGaps : List (List (Fin 7)) := [[0, 4], [], [], [2], [], [1, 1]]

/-- The text of a script element carrying a payload: the JSON array `["payload"]`. -/
def scriptText (payload : GoString) : GoString :=
  lit "[\"" ++ payload ++ lit "\"]"

/-- The opening tag of a JSON script element. -/
def openTag : GoString := lit "<script type=\"application/json\">"

/-- The closing tag of a script element. -/
def closeTag : GoString := lit "</script>"

/-- A JSON script element with the given text. -/
def scriptElement (text : GoString) : GoString :=
  openTag ++ text ++ closeTag

/-- The texts between `openTag` and the next `closeTag`, left to right. The first
argument counts bytes of a tag still to skip, the second is the text of the element
being read, if any. -/
def scriptElementsAux : Nat → Option GoString → GoString → List GoString
  | _, _, [] => []
  | skip + 1, cur, _ :: cs => scriptElementsAux skip cur cs
  | 0, none, c :: cs =>
    if hasPrefix (c :: cs) openTag then scriptElementsAux (openTag.length - 1) (some []) cs
    else scriptElementsAux 0 none cs
  | 0, some text, c :: cs =>
    if hasPrefix (c :: cs) closeTag then
      text :: scriptElementsAux (closeTag.length - 1) none cs
    else scriptElementsAux 0 (some (text ++ [c])) cs

/-- A stand-in for goquery on the sample pages, whose JSON script elements are written
as `openTag`, text, `closeTag`: the texts of these elements in document order. -/
def scriptElements (html : GoString) : Option (List GoString) :=
  some (scriptElementsAux 0 none html)

/-- A JSON reader that knows the texts `sourceJSON u` for `u` without `"` and `\`: it
reads such a text as the object whose only field is `source`, the string `u`, and
rejects every other text. -/
def unmarshalSource (text : GoString) : Option voe.JsonMap :=
  let u := (text.drop 11).take (text.length - 13)
  if text = sourceJSON u ∧ 34 ∉ u ∧ 92 ∉ u then
    some (fun key => if key = lit "source" then some (voe.JsonValue.string u) else none)
  else none

/-- A first media URL. -/
def firstMedia : GoString := lit "https://cdn.example/first_720.m3u8"

/-- A second media URL. -/
def secondMedia : GoString := lit "https://cdn.example/second_1080.m3u8"

/-- A page with two JSON script elements, each carrying a payload that decodes: the
first to `firstMedia`, the second to `secondMedia`. -/
def twoScriptPage : GoString :=
  scriptElement (scriptText (inverseOrder (sourceJSON firstMedia) [])) ++
    scriptElement (scriptText (inverseOrder (sourceJSON secondMedia) []))

/-- A page whose only JSON script element carries a text that is no payload, and whose
player setup holds the literal `'hls': '...'` with the base64 text of `sampleMedia`. -/
def hlsPage : GoString :=
  scriptElement (scriptText (lit "not-a-payload")) ++
    lit "<script>var sources = \x7b'hls': '" ++ base64Encode sampleMedia ++
    lit "'\x7d;</script>"

/-- A page with no JSON script element, no `var a168c` and no `hls` literal. -/
def emptyPage : GoString := lit "<html><body>gone</body></html>"

/-- A page whose script assigns to `a168c` the base64 text of the reversed object text
of `secondMedia`. -/
def b64Page : GoString :=
  lit "<html><script>var a168c='" ++ base64Encode (sourceJSON secondMedia).reverse ++
    lit "';</script></html>"

end fixture

/-! ## Stub capabilities and sample inputs -/

namespace stubs

open models extractors

/-- A capability that accepts every URL and whose `Extract` returns the given pair. -/
def stub (name : String) (priority : Int) (r : Option StreamURL × Option GoError) :
    Extractor :=
  { Name := lit name, Priority := priority, CanHandle := fun _ => true,
    Extract := fun _ => r }

/-- A capability that accepts no URL. -/
def deaf (name : String) (priority : Int) : Extractor :=
  { Name := lit name, Priority := priority, CanHandle := fun _ => false,
    Extract := fun _ => (none, none) }

/-- A link expiring at instant 100. -/
def sampleLink : StreamURL :=
  { URL := lit "https://cdn.example/v.m3u8", Provider := lit "stub",
    Quality := .Quality1080p, ExpiresAt := 100 }

/-- Error A. -/
def errA : GoError := .errorf (lit "A")

/-- Error B. -/
def errB : GoError := .errorf (lit "B")

/-- A clock that always reads instant 0. -/
def clock0 : Nat → Int := fun _ => 0

/-- A clock that always reads instant 500. -/
def clock500 : Nat → Int := fun _ => 500

/-- A sample embed URL. -/
def sampleURL : GoString := lit "https://voe.sx/e/abc123"

/-- A registry whose candidates fail with A, fail with B, then return a link. -/
def sysABok : System :=
  { extractors := [stub "a" 5 (none, some errA), deaf "d" 4, stub "b" 3 (none, some errB),
      stub "ok" 2 (some sampleLink, none), stub "late" 1 (some sampleLink, none)],
    config := none }

/-- A registry with two candidates failing with A then B. -/
def sysAB : System :=
  { extractors := [stub "a" 5 (none, some errA), stub "b" 3 (none, some errB)],
    config := none }

/-- A registry whose only candidate returns a nil link and a nil error. -/
def sysNil : System :=
  { extractors := [stub "nil" 5 (none, none)], config := none }

/-- A registry with no capability accepting any URL. -/
def sysDeaf : System :=
  { extractors := [deaf "d" 5], config := none }

/-- A failing stub of the given name and priority. -/
def prio (name : String) (priority : Int) : Extractor :=
  stub name priority (none, some errA)

/-- Thirteen stubs: twelve of priority 5 registered first, then one of priority 9. -/
def thirteenStubs : List Extractor :=
  [prio "c0" 5, prio "c1" 5, prio "c2" 5, prio "c3" 5, prio "c4" 5, prio "c5" 5,
    prio "c6" 5, prio "c7" 5, prio "c8" 5, prio "c9" 5, prio "c10" 5, prio "c11" 5,
    prio "c12" 9]

end stubs

/-! ## Insertion sort: the path of `sort.Slice` for at most 12 elements -/

namespace sort

variable {α : Type}

theorem insertRev_perm (less : α → α → Bool) (x : α) (l : List α) :
    List.Perm (insertRev less x l) (x :: l) := by
  induction l with
  | nil => exact List.Perm.refl _
  | cons y ys ih =>
    unfold insertRev
    split
    · exact (List.Perm.cons y ih).trans (List.Perm.swap x y ys)
    · exact List.Perm.refl _

theorem insertRev_sorted (key : α → Int) (x : α) (l : List α)
    (h : l.Pairwise (fun u v => key u ≤ key v)) :
    (insertRev (keyGreater key) x l).Pairwise (fun u v => key u ≤ key v) := by
  induction l with
  | nil => simp [insertRev]
  | cons y ys ih =>
    rw [List.pairwise_cons] at h
    unfold insertRev
    by_cases hxy : keyGreater key x y = true
    · rw [if_pos hxy, List.pairwise_cons]
      refine ⟨?_, ih h.2⟩
      intro z hz
      have hz2 := (insertRev_perm (keyGreater key) x ys).subset hz
      rcases List.mem_cons.mp hz2 with rfl | hz3
      · have : key z > key y := by simpa [keyGreater] using hxy
        omega
      · exact h.1 z hz3
    · rw [if_neg hxy, List.pairwise_cons, List.pairwise_cons]
      have hle : key x ≤ key y := by
        simp only [keyGreater, decide_eq_true_eq, not_lt] at hxy
        omega
      refine ⟨?_, h.1, h.2⟩
      intro z hz
      rcases List.mem_cons.mp hz with rfl | hz3
      · exact hle
      · exact le_trans hle (h.1 z hz3)

theorem foldl_insertRev_perm (less : α → α → Bool) (rest : List α) :
    ∀ rpre : List α,
      List.Perm (rest.foldl (fun r x => insertRev less x r) rpre).reverse
        (rpre.reverse ++ rest) := by
  induction rest with
  | nil => intro rpre; simp
  | cons x rest ih =>
    intro rpre
    rw [List.foldl_cons]
    refine (ih _).trans ?_
    have h1 : List.Perm (insertRev less x rpre).reverse (rpre.reverse ++ [x]) := by
      refine (List.reverse_perm _).trans ((insertRev_perm less x rpre).trans ?_)
      refine List.Perm.trans ?_ (List.perm_append_comm)
      exact List.Perm.cons x (List.reverse_perm _).symm
    have h2 := List.Perm.append_right rest h1
    simpa using h2

theorem foldl_insertRev_sorted (key : α → Int) (rest : List α) :
    ∀ rpre : List α, rpre.Pairwise (fun u v => key u ≤ key v) →
      (rest.foldl (fun r x => insertRev (keyGreater key) x r) rpre).Pairwise
        (fun u v => key u ≤ key v) := by
  induction rest with
  | nil => intro rpre h; exact h
  | cons x rest ih =>
    intro rpre h
    rw [List.foldl_cons]
    exact ih _ (insertRev_sorted key x rpre h)

theorem insertionSortList_perm (less : α → α → Bool) (l : List α) :
    List.Perm (insertionSortList less l) l := by
  simpa [insertionSortList] using foldl_insertRev_perm less l []

theorem insertionSortList_sorted (key : α → Int) (l : List α) :
    (insertionSortList (keyGreater key) l).Pairwise (fun u v => key u ≥ key v) := by
  unfold insertionSortList
  rw [List.pairwise_reverse]
  exact foldl_insertRev_sorted key l [] List.Pairwise.nil

theorem getElem?_swapAt (data : List α) (i j k : Nat) (hi : i < data.length)
    (hj : j < data.length) :
    (swapAt data i j)[k]? =
      if k = j then data[i]? else if k = i then data[j]? else data[k]? := by
  unfold swapAt
  rw [List.getElem?_eq_getElem hi, List.getElem?_eq_getElem hj]
  simp only
  rw [List.getElem?_set, List.getElem?_set]
  by_cases hkj : k = j
  · subst hkj
    simp [hi, hj]
  · have hjk : ¬ j = k := fun h => hkj h.symm
    rw [if_neg hjk, if_neg hkj]
    by_cases hki : k = i
    · subst hki
      simp [hi, hj]
    · have hik : ¬ i = k := fun h => hki h.symm
      rw [if_neg hik, if_neg hki]

theorem set_perm_of_getElem? (x y : α) :
    ∀ (l : List α) (j : Nat), l[j]? = some y → List.Perm (y :: l.set j x) (x :: l) := by
  intro l
  induction l with
  | nil => intro j h; simp at h
  | cons hd tl ih =>
    intro j h
    cases j with
    | zero =>
      simp only [List.getElem?_cons_zero, Option.some.injEq] at h
      subst h
      simp only [List.set_cons_zero]
      exact List.Perm.swap x hd tl
    | succ j =>
      simp only [List.getElem?_cons_succ] at h
      simp only [List.set_cons_succ]
      exact (List.Perm.swap hd y _).trans (((ih j h).cons hd).trans (List.Perm.swap x hd tl))

theorem swap_set_perm (x y : α) :
    ∀ (l : List α) (i j : Nat), l[i]? = some x → l[j]? = some y →
      List.Perm ((l.set i y).set j x) l := by
  intro l
  induction l with
  | nil => intro i j h; simp at h
  | cons hd tl ih =>
    intro i j hi hj
    cases i with
    | zero =>
      simp only [List.getElem?_cons_zero, Option.some.injEq] at hi
      subst hi
      cases j with
      | zero =>
        simp only [List.getElem?_cons_zero, Option.some.injEq] at hj
        subst hj
        simp
      | succ j =>
        simp only [List.getElem?_cons_succ] at hj
        simp only [List.set_cons_zero, List.set_cons_succ]
        exact set_perm_of_getElem? hd y tl j hj
    | succ i =>
      simp only [List.getElem?_cons_succ] at hi
      cases j with
      | zero =>
        simp only [List.getElem?_cons_zero, Option.some.injEq] at hj
        subst hj
        simp only [List.set_cons_succ, List.set_cons_zero]
        exact set_perm_of_getElem? hd x tl i hi
      | succ j =>
        simp only [List.getElem?_cons_succ] at hj
        simp only [List.set_cons_succ]
        exact (ih i j hi hj).cons hd

theorem swapAt_perm (data : List α) (i j : Nat) : List.Perm (swapAt data i j) data := by
  unfold swapAt
  split
  · rename_i x y hx hy
    exact swap_set_perm x y data i j hx hy
  · exact List.Perm.refl _

theorem Within.refl (a b : Nat) (data : List α) : Within a b data data :=
  ⟨List.Perm.refl _, fun _ _ => rfl⟩

theorem Within.trans {a b : Nat} {d1 d2 d3 : List α} (h12 : Within a b d1 d2)
    (h23 : Within a b d2 d3) : Within a b d1 d3 :=
  ⟨h23.1.trans h12.1, fun k hk => (h23.2 k hk).trans (h12.2 k hk)⟩

theorem Within.length {a b : Nat} {d1 d2 : List α} (h : Within a b d1 d2) :
    d2.length = d1.length := h.1.length_eq

theorem Within.swap (a b : Nat) (data : List α) (i j : Nat) (hi : a ≤ i) (hib : i < b)
    (hj : a ≤ j) (hjb : j < b) (hb : b ≤ data.length) :
    Within a b data (swapAt data i j) := by
  refine ⟨swapAt_perm data i j, ?_⟩
  intro k hk
  rw [getElem?_swapAt data i j k (by omega) (by omega)]
  have h1 : ¬ k = j := by omega
  have h2 : ¬ k = i := by omega
  rw [if_neg h1, if_neg h2]

end sort

/-! ## Go string primitives -/

theorem hasPrefix_iff (s p : GoString) : hasPrefix s p = true ↔ p <+: s := by
  induction p generalizing s with
  | nil => simp [hasPrefix]
  | cons a ps ih =>
    cases s with
    | nil => simp [hasPrefix]
    | cons c cs =>
      simp only [hasPrefix, Bool.and_eq_true, beq_iff_eq, ih, List.cons_prefix_cons]
      constructor
      · rintro ⟨h1, h2⟩; exact ⟨h1.symm, h2⟩
      · rintro ⟨h1, h2⟩; exact ⟨h1.symm, h2⟩

theorem stringsContains_iff (s substr : GoString) :
    stringsContains s substr = true ↔ substr <:+: s := by
  induction s with
  | nil =>
    simp only [stringsContains, hasPrefix_iff, List.prefix_nil, List.infix_nil]
  | cons c cs ih =>
    simp only [stringsContains, Bool.or_eq_true, hasPrefix_iff, ih, List.infix_cons_iff]

/-! ## Properties of the VOE decoder: matching and quality -/

namespace voe

open models

/-- C7 (as stated, refuted): a media URL containing both "720" and "1080" on which
`createStreamURL` infers 720p, not 1080p. -/
theorem createStreamURL_720_and_1080_is_720p :
    lit "720" <:+: lit "https://cdn.example/1080/video_720.m3u8" ∧
      lit "1080" <:+: lit "https://cdn.example/1080/video_720.m3u8" ∧
      (New.createStreamURL 0 (lit "https://cdn.example/1080/video_720.m3u8")).Quality =
        Quality.Quality720p ∧
      (New.createStreamURL 0 (lit "https://cdn.example/1080/video_720.m3u8")).Quality ≠
        Quality.Quality1080p := by
  decide

/-- C7 (amended): for every media URL that contains both the substring "720" and the
substring "1080", the quality inferred by `createStreamURL` is 720p: the test for
"720" comes first and the others are `else` branches. -/
theorem createStreamURL_720_wins (e : Extractor) (now : Int) (url : GoString)
    (h720 : lit "720" <:+: url) (_h1080 : lit "1080" <:+: url) :
    (e.createStreamURL now url).Quality = Quality.Quality720p := by
  have h : stringsContains url (lit "720") = true := (stringsContains_iff _ _).mpr h720
  simp [Extractor.createStreamURL, h]

theorem createStreamURL_720_wins_witness :
    (New.createStreamURL 0 (lit "https://cdn.example/1080/video_720.m3u8")).Quality =
      Quality.Quality720p :=
  createStreamURL_720_wins New 0 (lit "https://cdn.example/1080/video_720.m3u8")
    (by decide) (by decide)

/-- C8: the quality set by `createStreamURL` is the tier of the first of the literals
"720", "1080", "1440", "2160", tested in that order, that occurs as a substring of the
URL wherever it stands, and 1080p when none occurs. -/
theorem createStreamURL_quality (e : Extractor) (now : Int) (url : GoString) :
    (e.createStreamURL now url).Quality =
      if lit "720" <:+: url then Quality.Quality720p
      else if lit "1080" <:+: url then Quality.Quality1080p
      else if lit "1440" <:+: url then Quality.Quality1440p
      else if lit "2160" <:+: url then Quality.Quality2160p
      else Quality.Quality1080p := by
  simp only [Extractor.createStreamURL, stringsContains_iff]

/-- C10 (as stated, refuted): a URL whose host is `example.com`, none of the aliases,
and which `CanHandle` accepts because its path contains "voe.sx". -/
theorem CanHandle_accepts_foreign_host :
    urlHost (lit "https://example.com/watch?ref=voe.sx") = lit "example.com" ∧
      urlHost (lit "https://example.com/watch?ref=voe.sx") ∉ voeAliases ∧
      New.CanHandle (lit "https://example.com/watch?ref=voe.sx") = true := by
  decide

/-- C10 (amended): `CanHandle(url)` returns true exactly when the URL contains one of
"voe.sx", "voe.to", "voe.com" as a substring at any position (host, path or query). -/
theorem CanHandle_iff_contains (e : Extractor) (url : GoString) :
    e.CanHandle url = true ↔
      (lit "voe.sx" <:+: url ∨ lit "voe.to" <:+: url ∨ lit "voe.com" <:+: url) := by
  simp only [Extractor.CanHandle, Bool.or_eq_true, stringsContains_iff, or_assoc]

end voe

/-! ## Properties of the registry dispatch -/

namespace extractors

open models

theorem extractLoop_invoked_take (url : GoString) (clock : Nat → Int) :
    ∀ (cands : List Extractor) (i : Nat) (lastErr : Option GoError) (invoked : List Extractor),
      ∃ k, (extractLoop url clock cands i lastErr invoked).invoked = invoked ++ cands.take k := by
  intro cands
  induction cands with
  | nil =>
    intro i lastErr invoked
    refine ⟨0, ?_⟩
    cases lastErr <;> simp [extractLoop]
  | cons e rest ih =>
    intro i lastErr invoked
    unfold extractLoop
    split
    · obtain ⟨k, hk⟩ := ih (i + 1) (some ‹GoError›) (invoked ++ [e])
      exact ⟨k + 1, by simp [hk]⟩
    · split
      · exact ⟨1, by simp⟩
      · obtain ⟨k, hk⟩ := ih (i + 1) lastErr (invoked ++ [e])
        exact ⟨k + 1, by simp [hk]⟩
    · obtain ⟨k, hk⟩ := ih (i + 1) lastErr (invoked ++ [e])
      exact ⟨k + 1, by simp [hk]⟩

theorem Extract_invoked_prefix (s : System) (clock : Nat → Int) (url : GoString) :
    (s.Extract clock url).invoked <+: candidatesOf s url := by
  unfold System.Extract
  simp only
  split
  · exact List.nil_prefix
  · obtain ⟨k, hk⟩ := extractLoop_invoked_take url clock (candidatesOf s url) 0 none []
    rw [hk, List.nil_append]
    exact List.take_prefix _ _

/-- C2: `System.Extract` calls `Extract` only on capabilities whose `CanHandle(url)`
is true, and the calls form a subsequence, in registry order, of the capabilities
that accept the URL (hence of the registry). -/
theorem Extract_invokes_only_candidates (s : System) (clock : Nat → Int) (url : GoString) :
    (∀ e ∈ (s.Extract clock url).invoked, e.CanHandle url = true) ∧
      List.Sublist (s.Extract clock url).invoked
        (s.extractors.filter (fun e => e.CanHandle url)) ∧
      List.Sublist (s.Extract clock url).invoked s.extractors := by
  have hp := Extract_invoked_prefix s clock url
  have hs : List.Sublist (s.Extract clock url).invoked
      (s.extractors.filter (fun e => e.CanHandle url)) := hp.sublist
  refine ⟨?_, hs, hs.trans (List.filter_sublist _)⟩
  intro e he
  have := hs.subset he
  exact (List.mem_filter.mp this).2

theorem extractLoop_cons_err (url : GoString) (clock : Nat → Int) (e : Extractor)
    (rest : List Extractor) (i : Nat) (lastErr : Option GoError) (invoked : List Extractor)
    (l : Option StreamURL) (err : GoError) (hx : e.Extract url = (l, some err)) :
    extractLoop url clock (e :: rest) i lastErr invoked =
      extractLoop url clock rest (i + 1) (some err) (invoked ++ [e]) := by
  rw [extractLoop, hx]
  cases l <;> rfl

theorem extractLoop_cons_nil (url : GoString) (clock : Nat → Int) (e : Extractor)
    (rest : List Extractor) (i : Nat) (lastErr : Option GoError) (invoked : List Extractor)
    (hx : e.Extract url = (none, none)) :
    extractLoop url clock (e :: rest) i lastErr invoked =
      extractLoop url clock rest (i + 1) lastErr (invoked ++ [e]) := by
  rw [extractLoop, hx]

theorem extractLoop_cons_expired (url : GoString) (clock : Nat → Int) (e : Extractor)
    (rest : List Extractor) (i : Nat) (lastErr : Option GoError) (invoked : List Extractor)
    (link : StreamURL) (hx : e.Extract url = (some link, none))
    (hexp : link.IsExpired (clock i) = true) :
    extractLoop url clock (e :: rest) i lastErr invoked =
      extractLoop url clock rest (i + 1) lastErr (invoked ++ [e]) := by
  rw [extractLoop, hx]
  simp [hexp]

theorem extractLoop_cons_live (url : GoString) (clock : Nat → Int) (e : Extractor)
    (rest : List Extractor) (i : Nat) (lastErr : Option GoError) (invoked : List Extractor)
    (link : StreamURL) (hx : e.Extract url = (some link, none))
    (hlive : link.IsExpired (clock i) = false) :
    extractLoop url clock (e :: rest) i lastErr invoked =
      ⟨some link, none, invoked ++ [e]⟩ := by
  rw [extractLoop, hx]
  simp [hlive]

theorem lastRecorded_cons (url : GoString) (e : Extractor) (pre : List Extractor) :
    lastRecorded url (e :: pre) =
      (lastRecorded url pre).or (e.Extract url).2 := by
  unfold lastRecorded
  cases hx : (e.Extract url).2 with
  | none => simp [List.filterMap_cons, hx]
  | some err =>
    simp only [List.filterMap_cons, hx]
    cases hl : (List.filterMap (fun extractor => (extractor.Extract url).2) pre) with
    | nil => simp
    | cons a l =>
      rw [List.getLast?_cons_cons]
      cases hg : (a :: l).getLast? with
      | none => simp at hg
      | some g => simp

theorem extractLoop_skip (url : GoString) (clock : Nat → Int) :
    ∀ (pre rest : List Extractor) (i : Nat) (lastErr : Option GoError)
      (invoked : List Extractor),
      (∀ j (hj : j < pre.length),
        accepted clock (i + j) ((pre.get ⟨j, hj⟩).Extract url) = false) →
      extractLoop url clock (pre ++ rest) i lastErr invoked =
        extractLoop url clock rest (i + pre.length)
          ((lastRecorded url pre).or lastErr) (invoked ++ pre) := by
  intro pre
  induction pre with
  | nil => intro rest i lastErr invoked _; simp [lastRecorded]
  | cons e pre ih =>
    intro rest i lastErr invoked h
    have h0 := h 0 (by simp)
    have hrest : ∀ j (hj : j < pre.length),
        accepted clock (i + 1 + j) ((pre.get ⟨j, hj⟩).Extract url) = false := by
      intro j hj
      have := h (j + 1) (by simp; omega)
      simpa [Nat.add_assoc, Nat.add_comm 1 j] using this
    have key : ∀ le, extractLoop url clock (pre ++ rest) (i + 1) le (invoked ++ [e]) =
        extractLoop url clock rest (i + (pre.length + 1))
          ((lastRecorded url pre).or le) (invoked ++ e :: pre) := by
      intro le
      rw [ih rest (i + 1) le (invoked ++ [e]) hrest]
      simp [Nat.add_assoc, Nat.add_comm 1]
    simp only [List.cons_append, List.length_cons]
    rw [lastRecorded_cons]
    rcases hx : e.Extract url with ⟨l, er⟩
    cases er with
    | some err =>
      rw [extractLoop_cons_err url clock e _ i lastErr invoked l err hx, key]
      cases lastRecorded url pre <;> simp
    | none =>
      cases l with
      | none =>
        rw [extractLoop_cons_nil url clock e _ i lastErr invoked hx, key]
        cases lastRecorded url pre <;> simp
      | some link =>
        have hexp : link.IsExpired (clock i) = true := by
          simpa [accepted, hx] using h0
        rw [extractLoop_cons_expired url clock e _ i lastErr invoked link hx hexp, key]
        cases lastRecorded url pre <;> simp

theorem lastRecorded_all_err (url : GoString) :
    ∀ (cands : List Extractor) (hne : cands ≠ []),
      (∀ e ∈ cands, (e.Extract url).2 ≠ none) →
      lastRecorded url cands = ((cands.getLast hne).Extract url).2 := by
  intro cands
  induction cands with
  | nil => intro hne; exact absurd rfl hne
  | cons e pre ih =>
    intro hne hall
    rw [lastRecorded_cons]
    cases pre with
    | nil => simp [lastRecorded]
    | cons e2 pre2 =>
      have hne2 : e2 :: pre2 ≠ [] := by simp
      have h2 := ih hne2 (fun x hx => hall x (List.mem_cons_of_mem _ hx))
      rw [h2, List.getLast_cons hne2]
      have hlast := hall ((e2 :: pre2).getLast hne2)
        (List.mem_cons_of_mem _ (List.getLast_mem hne2))
      cases hv : (((e2 :: pre2).getLast hne2).Extract url).2 with
      | none => exact absurd hv hlast
      | some v => simp

theorem Extract_of_no_accepted (s : System) (clock : Nat → Int) (url : GoString)
    (hne : candidatesOf s url ≠ [])
    (hno : ∀ j (hj : j < (candidatesOf s url).length),
      accepted clock j (((candidatesOf s url).get ⟨j, hj⟩).Extract url) = false) :
    s.Extract clock url =
      extractLoop url clock [] (candidatesOf s url).length
        (lastRecorded url (candidatesOf s url)) (candidatesOf s url) := by
  unfold System.Extract
  have hlen : ¬ (candidatesOf s url).length = 0 := by
    intro h
    exact hne (List.length_eq_zero.mp h)
  simp only [hlen, if_false]
  have := extractLoop_skip url clock (candidatesOf s url) [] 0 none []
    (by intro j hj; simpa using hno j hj)
  simpa using this

theorem Extract_at_first_accepted (s : System) (clock : Nat → Int) (url : GoString)
    (pre post : List Extractor) (c : Extractor) (link : StreamURL)
    (hc : candidatesOf s url = pre ++ c :: post)
    (hpre : ∀ j (hj : j < pre.length),
      accepted clock j ((pre.get ⟨j, hj⟩).Extract url) = false)
    (hok : c.Extract url = (some link, none))
    (hlive : link.IsExpired (clock pre.length) = false) :
    s.Extract clock url = ⟨some link, none, pre ++ [c]⟩ := by
  unfold System.Extract
  have hlen : ¬ (candidatesOf s url).length = 0 := by
    rw [hc]; simp
  simp only [hlen, if_false]
  rw [hc, extractLoop_skip url clock pre (c :: post) 0 none []
    (by intro j hj; simpa using hpre j hj)]
  rw [extractLoop_cons_live url clock c post _ _ _ link hok (by simpa using hlive)]
  simp

theorem first_accepted_split (url : GoString) (clock : Nat → Int) :
    ∀ (cands : List Extractor) (i : Nat),
      (∃ j, ∃ hj : j < cands.length,
        accepted clock (i + j) ((cands.get ⟨j, hj⟩).Extract url) = true) →
      ∃ pre c post link, cands = pre ++ c :: post ∧
        (∀ j (hj : j < pre.length),
          accepted clock (i + j) ((pre.get ⟨j, hj⟩).Extract url) = false) ∧
        c.Extract url = (some link, none) ∧
        link.IsExpired (clock (i + pre.length)) = false := by
  intro cands
  induction cands with
  | nil =>
    intro i h
    obtain ⟨j, hj, _⟩ := h
    simp at hj
  | cons e rest ih =>
    intro i h
    cases hacc : accepted clock i (e.Extract url) with
    | true =>
      rcases hx : e.Extract url with ⟨l, er⟩
      rw [hx] at hacc
      cases er with
      | some err => cases l <;> simp [accepted] at hacc
      | none =>
        cases l with
        | none => simp [accepted] at hacc
        | some link =>
          refine ⟨[], e, rest, link, rfl, ?_, hx, ?_⟩
          · intro j hj
            simp at hj
          · simpa [accepted] using hacc
    | false =>
      obtain ⟨j, hj, hj2⟩ := h
      cases j with
      | zero =>
        simp only [List.get_eq_getElem, List.getElem_cons_zero, Nat.add_zero] at hj2
        rw [hj2] at hacc
        cases hacc
      | succ j =>
        have hj' : j < rest.length := by simpa using hj
        obtain ⟨pre, c, post, link, h1, h2, h3, h4⟩ := ih (i + 1)
          ⟨j, hj', by
            simpa [Nat.add_assoc, Nat.add_comm 1 j] using hj2⟩
        refine ⟨e :: pre, c, post, link, by rw [h1]; rfl, ?_, h3, ?_⟩
        · intro k hk
          cases k with
          | zero => simpa using hacc
          | succ k =>
            have := h2 k (by simpa using hk)
            simpa [Nat.add_assoc, Nat.add_comm 1 k] using this
        · simpa [Nat.add_assoc, Nat.add_comm 1] using h4

/-- C3: if some candidate returns, without error, a link that is not expired when it
is checked, then, `c` being the first such candidate in registry order and `pre` the
candidates before it, `System.Extract` returns the link of `c` with a nil error, having
invoked exactly `pre` and then `c`, in order, and no later candidate. -/
theorem Extract_returns_first_accepted (s : System) (clock : Nat → Int) (url : GoString)
    (h : ∃ j, ∃ hj : j < (candidatesOf s url).length,
      accepted clock j (((candidatesOf s url).get ⟨j, hj⟩).Extract url) = true) :
    ∃ pre c post link, candidatesOf s url = pre ++ c :: post ∧
      (∀ j (hj : j < pre.length),
        accepted clock j ((pre.get ⟨j, hj⟩).Extract url) = false) ∧
      c.Extract url = (some link, none) ∧
      link.IsExpired (clock pre.length) = false ∧
      s.Extract clock url = ⟨some link, none, pre ++ [c]⟩ := by
  obtain ⟨pre, c, post, link, h1, h2, h3, h4⟩ :=
    first_accepted_split url clock (candidatesOf s url) 0 (by simpa using h)
  have h2' : ∀ j (hj : j < pre.length),
      accepted clock j ((pre.get ⟨j, hj⟩).Extract url) = false := by
    intro j hj
    simpa using h2 j hj
  have h4' : link.IsExpired (clock pre.length) = false := by simpa using h4
  exact ⟨pre, c, post, link, h1, h2', h3, h4',
    Extract_at_first_accepted s clock url pre post c link h1 h2' h3 h4'⟩

theorem Extract_returns_first_accepted_witness :
    ∃ pre c post link, candidatesOf stubs.sysABok stubs.sampleURL = pre ++ c :: post ∧
      (∀ j (hj : j < pre.length),
        accepted stubs.clock0 j ((pre.get ⟨j, hj⟩).Extract stubs.sampleURL) = false) ∧
      c.Extract stubs.sampleURL = (some link, none) ∧
      link.IsExpired (stubs.clock0 pre.length) = false ∧
      stubs.sysABok.Extract stubs.clock0 stubs.sampleURL = ⟨some link, none, pre ++ [c]⟩ :=
  Extract_returns_first_accepted stubs.sysABok stubs.clock0 stubs.sampleURL
    ⟨2, by decide, by decide⟩

theorem Extract_sysABok :
    stubs.sysABok.Extract stubs.clock0 stubs.sampleURL =
      ⟨some stubs.sampleLink, none,
        [stubs.stub "a" 5 (none, some stubs.errA), stubs.stub "b" 3 (none, some stubs.errB),
          stubs.stub "ok" 2 (some stubs.sampleLink, none)]⟩ :=
  Extract_at_first_accepted stubs.sysABok stubs.clock0 stubs.sampleURL
    [stubs.stub "a" 5 (none, some stubs.errA), stubs.stub "b" 3 (none, some stubs.errB)]
    [stubs.stub "late" 1 (some stubs.sampleLink, none)]
    (stubs.stub "ok" 2 (some stubs.sampleLink, none)) stubs.sampleLink rfl
    (by
      intro j hj
      have hj2 : j = 0 ∨ j = 1 := by
        simp only [List.length_cons, List.length_nil] at hj
        omega
      rcases hj2 with rfl | rfl <;> rfl)
    rfl (by decide)

/-- C4: when the candidate set is non-empty and every candidate returns an error,
`System.Extract` returns a nil link and an error whose wrapped cause
(`errors.Unwrap`) is the error returned by the last candidate. -/
theorem Extract_all_fail_wraps_last (s : System) (clock : Nat → Int) (url : GoString)
    (hne : candidatesOf s url ≠ [])
    (hall : ∀ e ∈ candidatesOf s url, (e.Extract url).2 ≠ none) :
    (s.Extract clock url).link = none ∧
      ∃ err, (s.Extract clock url).err = some err ∧
        err.Unwrap = (((candidatesOf s url).getLast hne).Extract url).2 := by
  have hno : ∀ j (hj : j < (candidatesOf s url).length),
      accepted clock j (((candidatesOf s url).get ⟨j, hj⟩).Extract url) = false := by
    intro j hj
    have hm := hall _ (List.get_mem (candidatesOf s url) j hj)
    rcases hx : ((candidatesOf s url).get ⟨j, hj⟩).Extract url with ⟨l, er⟩
    rw [hx] at hm
    cases er with
    | none => exact absurd rfl hm
    | some v => cases l <;> rfl
  rw [Extract_of_no_accepted s clock url hne hno, lastRecorded_all_err url _ hne hall]
  have hlast := hall _ (List.getLast_mem hne)
  cases hv : (((candidatesOf s url).getLast hne).Extract url).2 with
  | none => exact absurd hv hlast
  | some v => exact ⟨rfl, _, rfl, rfl⟩

theorem Extract_all_fail_wraps_last_witness :
    (stubs.sysAB.Extract stubs.clock0 stubs.sampleURL).link = none ∧
      ∃ err, (stubs.sysAB.Extract stubs.clock0 stubs.sampleURL).err = some err ∧
        err.Unwrap = some stubs.errB :=
  Extract_all_fail_wraps_last stubs.sysAB stubs.clock0 stubs.sampleURL
    (by simp [candidatesOf, stubs.sysAB, stubs.stub])
    (by
      intro e he
      have : e = stubs.stub "a" 5 (none, some stubs.errA) ∨
          e = stubs.stub "b" 3 (none, some stubs.errB) := by
        simpa [candidatesOf, stubs.sysAB, stubs.stub] using he
      rcases this with rfl | rfl <;> simp [stubs.stub])

theorem Extract_err_cases (s : System) (clock : Nat → Int) (url : GoString) :
    (s.Extract clock url).err = none ∨
      (s.Extract clock url).err = some (errNoCandidate url) ∨
      (∃ cause, (s.Extract clock url).err = some (errAllFailed cause)) ∨
      (s.Extract clock url).err = some errNoValid := by
  have hloop : ∀ (cands : List Extractor) (i : Nat) (lastErr : Option GoError)
      (invoked : List Extractor),
      (extractLoop url clock cands i lastErr invoked).err = none ∨
        (∃ cause, (extractLoop url clock cands i lastErr invoked).err =
          some (errAllFailed cause)) ∨
        (extractLoop url clock cands i lastErr invoked).err = some errNoValid := by
    intro cands
    induction cands with
    | nil =>
      intro i lastErr invoked
      cases lastErr with
      | none => right; right; rfl
      | some e => right; left; exact ⟨e, rfl⟩
    | cons e rest ih =>
      intro i lastErr invoked
      rcases hx : e.Extract url with ⟨l, er⟩
      cases er with
      | some err => rw [extractLoop_cons_err url clock e rest i lastErr invoked l err hx]; exact ih _ _ _
      | none =>
        cases l with
        | none => rw [extractLoop_cons_nil url clock e rest i lastErr invoked hx]; exact ih _ _ _
        | some link =>
          cases hexp : link.IsExpired (clock i) with
          | true =>
            rw [extractLoop_cons_expired url clock e rest i lastErr invoked link hx hexp]
            exact ih _ _ _
          | false =>
            rw [extractLoop_cons_live url clock e rest i lastErr invoked link hx hexp]
            left; rfl
  unfold System.Extract
  simp only
  split
  · right; left; rfl
  · rcases hloop (candidatesOf s url) 0 none [] with h | h | h
    · exact Or.inl h
    · exact Or.inr (Or.inr (Or.inl h))
    · exact Or.inr (Or.inr (Or.inr h))

/-- C5 (as stated, refuted): a registry whose only candidate returns a nil link with a
nil error has a non-empty candidate set and no accepted success, yet `System.Extract`
fails with the plain error "no valid stream URL found", which wraps nothing and is
neither `NoCandidate` nor `AllCandidatesFailed`. -/
theorem Extract_nil_link_not_all_failed :
    candidatesOf stubs.sysNil stubs.sampleURL ≠ [] ∧
      (stubs.sysNil.Extract stubs.clock0 stubs.sampleURL).link = none ∧
      (stubs.sysNil.Extract stubs.clock0 stubs.sampleURL).err =
        some (GoError.errorf (lit "no valid stream URL found")) ∧
      (∀ cause, (stubs.sysNil.Extract stubs.clock0 stubs.sampleURL).err ≠
        some (errAllFailed cause)) ∧
      (stubs.sysNil.Extract stubs.clock0 stubs.sampleURL).err ≠
        some (errNoCandidate stubs.sampleURL) ∧
      ((stubs.sysNil.Extract stubs.clock0 stubs.sampleURL).err.bind GoError.Unwrap) = none := by
  refine ⟨by simp [candidatesOf, stubs.sysNil, stubs.stub], rfl, rfl, ?_, ?_, rfl⟩
  · intro cause h
    have h2 : GoError.errorf (lit "no valid stream URL found") = errAllFailed cause :=
      Option.some.inj h
    cases h2
  · decide

/-- C5 (amended): when the candidate set is non-empty and no candidate is accepted
(each returned an error, a nil link, or a link already expired), `System.Extract`
returns a nil link after invoking every candidate; the error is `AllCandidatesFailed`
wrapping the last error a candidate returned when some candidate returned one, and the
plain error "no valid stream URL found" when none did. On every input the error is
nil, `NoCandidate`, `AllCandidatesFailed` or "no valid stream URL found". -/
theorem Extract_no_accepted_error (s : System) (clock : Nat → Int) (url : GoString)
    (hne : candidatesOf s url ≠ [])
    (hno : ∀ j (hj : j < (candidatesOf s url).length),
      accepted clock j (((candidatesOf s url).get ⟨j, hj⟩).Extract url) = false) :
    (s.Extract clock url).link = none ∧
      (s.Extract clock url).invoked = candidatesOf s url ∧
      (∀ cause, lastRecorded url (candidatesOf s url) = some cause →
        (s.Extract clock url).err =
          some (GoError.wrap (lit "all extractors failed, last error: " ++ cause.Error) cause)) ∧
      (lastRecorded url (candidatesOf s url) = none →
        (s.Extract clock url).err = some (GoError.errorf (lit "no valid stream URL found"))) ∧
      (∀ (s2 : System) (clock2 : Nat → Int) (url2 : GoString),
        (s2.Extract clock2 url2).err = none ∨
          (s2.Extract clock2 url2).err = some (errNoCandidate url2) ∨
          (∃ cause, (s2.Extract clock2 url2).err = some (errAllFailed cause)) ∨
          (s2.Extract clock2 url2).err = some errNoValid) := by
  rw [Extract_of_no_accepted s clock url hne hno]
  refine ⟨?_, ?_, ?_, ?_, Extract_err_cases⟩
  · cases lastRecorded url (candidatesOf s url) <;> rfl
  · cases lastRecorded url (candidatesOf s url) <;> rfl
  · intro cause h
    rw [h]
    rfl
  · intro h
    rw [h]
    rfl

theorem Extract_no_accepted_error_witness :
    (stubs.sysAB.Extract stubs.clock0 stubs.sampleURL).err =
      some (GoError.wrap (lit "all extractors failed, last error: B") stubs.errB) :=
  (Extract_no_accepted_error stubs.sysAB stubs.clock0 stubs.sampleURL
    (by simp [candidatesOf, stubs.sysAB, stubs.stub])
    (by
      intro j hj
      have hj2 : j = 0 ∨ j = 1 := by
        simp only [candidatesOf, stubs.sysAB, stubs.stub, List.filter_cons_of_pos,
          List.filter_nil, List.length_cons, List.length_nil] at hj
        omega
      rcases hj2 with rfl | rfl <;> rfl)).2.2.1 stubs.errB rfl

/-- C6: when no registered capability accepts the URL (in particular when the registry
is empty), `System.Extract` returns a nil link and the `NoCandidate` error, whose
message ends with (so contains) the URL, and calls no capability's `Extract`. -/
theorem Extract_no_candidate (s : System) (clock : Nat → Int) (url : GoString)
    (h : ∀ e ∈ s.extractors, e.CanHandle url = false) :
    s.Extract clock url =
        ⟨none, some (GoError.errorf (lit "no extractor can handle URL: " ++ url)), []⟩ ∧
      (∃ err, (s.Extract clock url).err = some err ∧ url <:+ err.Error) ∧
      (s.Extract clock url).invoked = [] := by
  have hc : candidatesOf s url = [] := by
    unfold candidatesOf
    rw [List.filter_eq_nil_iff]
    intro e he
    simp [h e he]
  have hE : s.Extract clock url =
      ⟨none, some (GoError.errorf (lit "no extractor can handle URL: " ++ url)), []⟩ := by
    unfold System.Extract
    simp [hc]
  rw [hE]
  exact ⟨rfl, ⟨_, rfl, List.suffix_append _ _⟩, rfl⟩

theorem Extract_no_candidate_witness :
    stubs.sysDeaf.Extract stubs.clock0 stubs.sampleURL =
        ⟨none, some (GoError.errorf
          (lit "no extractor can handle URL: https://voe.sx/e/abc123")), []⟩ :=
  (Extract_no_candidate stubs.sysDeaf stubs.clock0 stubs.sampleURL
    (by
      intro e he
      have : e = stubs.deaf "d" 5 := by simpa [stubs.sysDeaf] using he
      rw [this]
      rfl)).1

/-! ### Construction of the registry -/

/-- The `sort.Slice` call is not a stable sort: applied to twelve stubs of priority 5
followed by one of priority 9 (a list that `registerExtractors` itself never builds), it
stores c12, c6, c2, c3, c4, c5, c0, c7, c8, c9, c10, c11, c1. -/
theorem NewSystem_reorders_equal_priority :
    (NewSystemWith stubs.thirteenStubs none).map
        (fun sys => sys.extractors.map (fun e => e.Name)) =
      some [lit "c12", lit "c6", lit "c2", lit "c3", lit "c4", lit "c5", lit "c0", lit "c7",
        lit "c8", lit "c9", lit "c10", lit "c11", lit "c1"] ∧
      ¬ (∃ sys, NewSystemWith stubs.thirteenStubs none = some sys ∧
          ∀ p : Int, sys.extractors.filter (fun e => decide (e.Priority = p)) =
            stubs.thirteenStubs.filter (fun e => decide (e.Priority = p))) := by
  have h1 : (NewSystemWith stubs.thirteenStubs none).map
        (fun sys => sys.extractors.map (fun e => e.Name)) =
      some [lit "c12", lit "c6", lit "c2", lit "c3", lit "c4", lit "c5", lit "c0", lit "c7",
        lit "c8", lit "c9", lit "c10", lit "c11", lit "c1"] := by
    decide
  refine ⟨h1, ?_⟩
  rintro ⟨sys, hs, hst⟩
  have hexp : NewSystemWith stubs.thirteenStubs none =
      some { extractors := [stubs.prio "c12" 9, stubs.prio "c6" 5, stubs.prio "c2" 5,
        stubs.prio "c3" 5, stubs.prio "c4" 5, stubs.prio "c5" 5, stubs.prio "c0" 5,
        stubs.prio "c7" 5, stubs.prio "c8" 5, stubs.prio "c9" 5, stubs.prio "c10" 5,
        stubs.prio "c11" 5, stubs.prio "c1" 5], config := none } := rfl
  rw [hexp] at hs
  have hsys := Option.some.inj hs
  subst hsys
  exact absurd (congrArg (List.map (fun e => e.Name)) (hst 5)) (by decide)

end extractors

/-! ## The Method-A pipeline: round trip -/

theorem b64Value_b64Char : ∀ v, v < 64 → b64Value (b64Char v) = some v := by
  decide

theorem quantumBytes_full (b0 b1 b2 : Nat) (h0 : b0 < 256) (h1 : b1 < 256) (h2 : b2 < 256) :
    quantumBytes ((b0 * 65536 + b1 * 256 + b2) / 262144 % 64)
        ((b0 * 65536 + b1 * 256 + b2) / 4096 % 64)
        ((b0 * 65536 + b1 * 256 + b2) / 64 % 64)
        ((b0 * 65536 + b1 * 256 + b2) % 64) = (b0, b1, b2) := by
  simp only [quantumBytes, Prod.mk.injEq]
  omega

theorem base64DecodeFrom_encode (bs : GoString) (h : ∀ b ∈ bs, b < 256) :
    base64DecodeFrom [] (base64Encode bs) = some bs := by
  induction bs using base64Encode.induct with
  | case1 b0 b1 b2 rest ih =>
    have h0 : b0 < 256 := h b0 (by simp)
    have h1 : b1 < 256 := h b1 (by simp)
    have h2 : b2 < 256 := h b2 (by simp)
    have hr := ih (fun b hb => h b (by simp [hb]))
    simp only [base64Encode, base64DecodeFrom, List.nil_append, List.cons_append]
    rw [b64Value_b64Char _ (Nat.mod_lt _ (by decide)), b64Value_b64Char _ (Nat.mod_lt _ (by decide)),
      b64Value_b64Char _ (Nat.mod_lt _ (by decide)), b64Value_b64Char _ (Nat.mod_lt _ (by decide))]
    simp only [hr, quantumBytes_full b0 b1 b2 h0 h1 h2]
  | case2 b0 b1 =>
    have h0 : b0 < 256 := h b0 (by simp)
    have h1 : b1 < 256 := h b1 (by simp)
    simp only [base64Encode, base64DecodeFrom, List.nil_append, List.cons_append]
    rw [b64Value_b64Char _ (Nat.mod_lt _ (by decide)), b64Value_b64Char _ (Nat.mod_lt _ (by decide)),
      b64Value_b64Char _ (Nat.mod_lt _ (by decide))]
    simp [b64Value, skipNewlines, quantumBytes]
    omega
  | case3 b0 =>
    have h0 : b0 < 256 := h b0 (by simp)
    simp only [base64Encode, base64DecodeFrom, List.nil_append, List.cons_append]
    rw [b64Value_b64Char _ (Nat.mod_lt _ (by decide)), b64Value_b64Char _ (Nat.mod_lt _ (by decide))]
    simp [b64Value, skipNewlines, quantumBytes]
    omega
  | case4 => rfl

theorem base64Decode_encode (bs : GoString) (h : ∀ b ∈ bs, b < 256) :
    base64Decode (base64Encode bs) = some bs :=
  base64DecodeFrom_encode bs h

namespace fixture

theorem junkToken_eq : ∀ k : Fin 7, junkToken k = [junkFst k, junkSnd k] := by decide

theorem junkFst_isJunk : ∀ k : Fin 7, isJunkByte (junkFst k) = true := by decide

theorem junkSnd_isJunk : ∀ k : Fin 7, isJunkByte (junkSnd k) = true := by decide

theorem junk_distinct : ∀ m k : Fin 7, m ≠ k → ¬ (junkFst m = junkFst k ∧ junkSnd m = junkSnd k) := by
  decide

theorem junk_no_straddle : ∀ k m j : Fin 7, k.val ≤ m.val → k.val ≤ j.val → m ≠ k →
    ¬ (junkSnd m = junkFst k ∧ junkFst j = junkSnd k) := by
  decide

theorem flatten_cons (s : Seg) (segs : List Seg) :
    flatten (s :: segs) = s.bytes ++ flatten segs := by
  simp [flatten]

theorem hasPrefix_single (s : GoString) (x : Nat) :
    hasPrefix s [x] = true ↔ s.head? = some x := by
  cases s with
  | nil => simp [hasPrefix]
  | cons c cs => simp [hasPrefix]

theorem head_flatten_resolved (k : Fin 7) (x : Nat) (segs : List Seg)
    (hx : isJunkByte x = true)
    (hok : ∀ s ∈ segs, (∃ c, s = Seg.ch c ∧ isJunkByte c = false) ∨
      (∃ j : Fin 7, s = Seg.tok j ∧ k.val ≤ j.val))
    (hh : (flatten segs).head? = some x) :
    ∃ j : Fin 7, k.val ≤ j.val ∧ junkFst j = x := by
  cases segs with
  | nil => simp [flatten] at hh
  | cons s segs =>
    rcases hok s (by simp) with ⟨c, rfl, hc⟩ | ⟨j, rfl, hj⟩
    · rw [flatten_cons] at hh
      simp only [Seg.bytes, List.singleton_append, List.head?_cons,
        Option.some.injEq] at hh
      rw [hh] at hc
      rw [hc] at hx
      cases hx
    · refine ⟨j, hj, ?_⟩
      rw [flatten_cons] at hh
      simpa [Seg.bytes, junkToken_eq] using hh

theorem replaceAllAux_cons_no (old new : GoString) (c : Nat) (cs : GoString)
    (h : hasPrefix (c :: cs) old = false) :
    replaceAllAux old new 0 (c :: cs) = c :: replaceAllAux old new 0 cs := by
  rw [replaceAllAux, h]
  simp

theorem replaceAllAux_cons_yes (old new : GoString) (c : Nat) (cs : GoString)
    (h : hasPrefix (c :: cs) old = true) :
    replaceAllAux old new 0 (c :: cs) = new ++ replaceAllAux old new (old.length - 1) cs := by
  rw [replaceAllAux, h]
  simp

theorem replaceAllAux_skip (old new : GoString) (n c : Nat) (cs : GoString) :
    replaceAllAux old new (n + 1) (c :: cs) = replaceAllAux old new n cs := by
  rw [replaceAllAux]

theorem flatten_ch (c : Nat) (segs : List Seg) :
    flatten (Seg.ch c :: segs) = c :: flatten segs := by
  simp [flatten, Seg.bytes]

theorem flatten_tok (m : Fin 7) (segs : List Seg) :
    flatten (Seg.tok m :: segs) = junkFst m :: junkSnd m :: flatten segs := by
  simp [flatten, Seg.bytes, junkToken_eq]

theorem replaceAll_token_step (k : Fin 7) (segs : List Seg)
    (hok : ∀ s ∈ segs, (∃ c, s = Seg.ch c ∧ isJunkByte c = false) ∨
      (∃ j : Fin 7, s = Seg.tok j ∧ k.val ≤ j.val)) :
    replaceAllAux (junkToken k) [95] 0 (flatten segs) =
      flatten (segs.map (Seg.subst k)) := by
  induction segs with
  | nil => simp [flatten, replaceAllAux]
  | cons s segs ih =>
    have ih2 := ih (fun s hs => hok s (List.mem_cons_of_mem _ hs))
    rcases hok s (by simp) with ⟨c, rfl, hc⟩ | ⟨m, rfl, hm⟩
    · have hne : c ≠ junkFst k := by
        intro h
        rw [h, junkFst_isJunk] at hc
        cases hc
      have hp : hasPrefix (c :: flatten segs) (junkToken k) = false := by
        rw [junkToken_eq]
        simp [hasPrefix, hne]
      rw [flatten_ch, replaceAllAux_cons_no _ _ _ _ hp, ih2, List.map_cons]
      simp only [Seg.subst]
      rw [flatten_ch]
    · by_cases hmk : m = k
      · subst hmk
        have hp : hasPrefix (junkFst m :: junkSnd m :: flatten segs) (junkToken m) = true := by
          rw [junkToken_eq]
          simp [hasPrefix]
        have hlen : (junkToken m).length - 1 = 1 := by
          rw [junkToken_eq]; rfl
        rw [flatten_tok, replaceAllAux_cons_yes _ _ _ _ hp, hlen, replaceAllAux_skip, ih2,
          List.map_cons]
        simp only [Seg.subst, if_true]
        rw [flatten_ch]
        rfl
      · have h1 := junk_distinct m k hmk
        have hp1 : hasPrefix (junkFst m :: junkSnd m :: flatten segs)
            (junkToken k) = false := by
          rw [junkToken_eq]
          simp only [hasPrefix, Bool.and_true]
          by_contra hcon
          simp only [Bool.not_eq_false, Bool.and_eq_true, beq_iff_eq] at hcon
          exact h1 hcon
        have hp2 : hasPrefix (junkSnd m :: flatten segs) (junkToken k) = false := by
          rw [junkToken_eq]
          by_contra hcon
          simp only [Bool.not_eq_false] at hcon
          cases hfl : flatten segs with
          | nil => rw [hfl] at hcon; simp [hasPrefix] at hcon
          | cons y ys =>
            rw [hfl] at hcon
            simp only [hasPrefix, Bool.and_true, Bool.and_eq_true, beq_iff_eq] at hcon
            have hh : (flatten segs).head? = some (junkSnd k) := by
              rw [hfl]; simp [hcon.2]
            obtain ⟨j, hj, hjx⟩ := head_flatten_resolved k (junkSnd k) segs (junkSnd_isJunk k)
              (fun s hs => hok s (List.mem_cons_of_mem _ hs)) hh
            exact junk_no_straddle k m j hm hj hmk ⟨hcon.1, hjx⟩
        rw [flatten_tok, replaceAllAux_cons_no _ _ _ _ hp1, replaceAllAux_cons_no _ _ _ _ hp2,
          ih2, List.map_cons]
        simp only [Seg.subst, hmk, if_false]
        rw [flatten_tok]

theorem resolve_ok (n : Nat) (k : Fin 7) (hn : n = k.val) (segs : List Seg)
    (hch : ∀ c ∈ chars segs, isJunkByte c = false) :
    ∀ s ∈ segs.map (Seg.resolve n), (∃ c, s = Seg.ch c ∧ isJunkByte c = false) ∨
      (∃ j : Fin 7, s = Seg.tok j ∧ k.val ≤ j.val) := by
  induction segs with
  | nil => intro s hs; simp at hs
  | cons t segs ih =>
    intro s hs
    rw [List.map_cons, List.mem_cons] at hs
    cases t with
    | ch c =>
      rcases hs with rfl | hs
      · exact Or.inl ⟨c, rfl, hch c (by simp [chars])⟩
      · exact ih (fun c hc => hch c (by simp [chars, hc])) s hs
    | tok m =>
      rcases hs with rfl | hs
      · by_cases hm : m.val < n
        · exact Or.inl ⟨95, by simp [Seg.resolve, hm], by decide⟩
        · exact Or.inr ⟨m, by simp [Seg.resolve, hm], by omega⟩
      · exact ih (fun c hc => hch c (by simpa [chars] using hc)) s hs

theorem subst_resolve (k : Fin 7) (segs : List Seg) :
    (segs.map (Seg.resolve k.val)).map (Seg.subst k) = segs.map (Seg.resolve (k.val + 1)) := by
  rw [List.map_map]
  apply List.map_congr_left
  intro s _
  cases s with
  | ch c => rfl
  | tok m =>
    simp only [Function.comp, Seg.resolve]
    by_cases h1 : m.val < k.val
    · have h2 : m.val < k.val + 1 := by omega
      simp [h1, h2, Seg.subst]
    · by_cases h3 : m = k
      · subst h3
        simp [Seg.subst]
      · have h4 : ¬ m.val < k.val + 1 := by
          intro h
          exact h3 (Fin.ext (by omega))
        simp [h1, h4, Seg.subst, h3]

theorem replaceAll_resolve_step (n : Nat) (k : Fin 7) (hn : n = k.val) (segs : List Seg)
    (hch : ∀ c ∈ chars segs, isJunkByte c = false) :
    replaceAll (flatten (segs.map (Seg.resolve n))) (junkToken k) (lit "_") =
      flatten (segs.map (Seg.resolve (n + 1))) := by
  subst hn
  have h := replaceAll_token_step k (segs.map (Seg.resolve k.val))
    (resolve_ok k.val k rfl segs hch)
  rw [subst_resolve] at h
  exact h

theorem resolve_zero (segs : List Seg) : segs.map (Seg.resolve 0) = segs := by
  induction segs with
  | nil => rfl
  | cons s segs ih =>
    rw [List.map_cons, ih]
    cases s <;> simp [Seg.resolve]

theorem replaceJunk_flatten (segs : List Seg)
    (hch : ∀ c ∈ chars segs, isJunkByte c = false) :
    voe.New.replaceJunk (flatten segs) = flatten (segs.map (Seg.resolve 7)) := by
  have h0 := replaceAll_resolve_step 0 0 rfl segs hch
  have h1 := replaceAll_resolve_step 1 1 rfl segs hch
  have h2 := replaceAll_resolve_step 2 2 rfl segs hch
  have h3 := replaceAll_resolve_step 3 3 rfl segs hch
  have h4 := replaceAll_resolve_step 4 4 rfl segs hch
  have h5 := replaceAll_resolve_step 5 5 rfl segs hch
  have h6 := replaceAll_resolve_step 6 6 rfl segs hch
  rw [resolve_zero] at h0
  simp only [voe.Extractor.replaceJunk, voe.New, List.foldl_cons, List.foldl_nil]
  exact (congrArg (fun t => replaceAll (replaceAll (replaceAll (replaceAll (replaceAll
      (replaceAll t (junkToken 1) (lit "_")) (junkToken 2) (lit "_")) (junkToken 3) (lit "_"))
      (junkToken 4) (lit "_")) (junkToken 5) (lit "_")) (junkToken 6) (lit "_")) h0).trans
    ((congrArg (fun t => replaceAll (replaceAll (replaceAll (replaceAll
      (replaceAll t (junkToken 2) (lit "_")) (junkToken 3) (lit "_"))
      (junkToken 4) (lit "_")) (junkToken 5) (lit "_")) (junkToken 6) (lit "_")) h1).trans
    ((congrArg (fun t => replaceAll (replaceAll (replaceAll
      (replaceAll t (junkToken 3) (lit "_"))
      (junkToken 4) (lit "_")) (junkToken 5) (lit "_")) (junkToken 6) (lit "_")) h2).trans
    ((congrArg (fun t => replaceAll (replaceAll
      (replaceAll t (junkToken 4) (lit "_")) (junkToken 5) (lit "_"))
      (junkToken 6) (lit "_")) h3).trans
    ((congrArg (fun t => replaceAll (replaceAll t (junkToken 5) (lit "_"))
      (junkToken 6) (lit "_")) h4).trans
    ((congrArg (fun t => replaceAll t (junkToken 6) (lit "_")) h5).trans h6)))))

theorem replaceAll_underscore (s : GoString) :
    replaceAll s (lit "_") (lit "") = s.filter (fun c => c != 95) := by
  unfold replaceAll
  induction s with
  | nil => rfl
  | cons c cs ih =>
    by_cases h : c = 95
    · subst h
      have hp : hasPrefix (95 :: cs) (lit "_") = true := by
        show hasPrefix (95 :: cs) [95] = true
        simp [hasPrefix]
      rw [replaceAllAux_cons_yes _ _ _ _ hp]
      simpa using ih
    · have hp : hasPrefix (c :: cs) (lit "_") = false := by
        show hasPrefix (c :: cs) [95] = false
        simp [hasPrefix, h]
      rw [replaceAllAux_cons_no _ _ _ _ hp, ih]
      simp [List.filter_cons, h]

theorem filter_flatten_resolved (segs : List Seg) :
    (flatten (segs.map (Seg.resolve 7))).filter (fun c => c != 95) =
      (chars segs).filter (fun c => c != 95) := by
  induction segs with
  | nil => rfl
  | cons s segs ih =>
    cases s with
    | ch c =>
      rw [List.map_cons]
      simp only [Seg.resolve]
      rw [flatten_ch]
      simp only [chars, List.filter_cons, ih]
    | tok m =>
      have hm : m.val < 7 := m.isLt
      rw [List.map_cons]
      simp only [Seg.resolve, hm, if_true]
      rw [flatten_ch]
      simp only [chars, List.filter_cons, ih]
      simp

theorem flatten_append (a b : List Seg) : flatten (a ++ b) = flatten a ++ flatten b := by
  simp [flatten]

theorem flatten_map_tok (g : List (Fin 7)) : flatten (g.map Seg.tok) = g.flatMap junkToken := by
  induction g with
  | nil => rfl
  | cons k g ih =>
    rw [List.map_cons, flatten_cons, ih]
    simp [Seg.bytes]

theorem flatten_map_ch (w : GoString) : flatten (w.map Seg.ch) = w := by
  induction w with
  | nil => rfl
  | cons c w ih => rw [List.map_cons, flatten_ch, ih]

theorem chars_append (a b : List Seg) : chars (a ++ b) = chars a ++ chars b := by
  induction a with
  | nil => rfl
  | cons s a ih =>
    cases s <;> simp [chars, ih]

theorem chars_map_tok (g : List (Fin 7)) : chars (g.map Seg.tok) = [] := by
  induction g with
  | nil => rfl
  | cons k g ih => simp [chars, ih]

theorem chars_map_ch (w : GoString) : chars (w.map Seg.ch) = w := by
  induction w with
  | nil => rfl
  | cons c w ih => simp [chars, ih]

theorem junkSegs_nil (w : GoString) : junkSegs w [] = w.map Seg.ch := by
  cases w <;> rfl

theorem insertJunk_nil (w : GoString) : insertJunk w [] = w := by
  cases w <;> rfl

theorem flatten_junkSegs (w : GoString) (gaps : List (List (Fin 7))) :
    flatten (junkSegs w gaps) = insertJunk w gaps := by
  induction gaps generalizing w with
  | nil => rw [junkSegs_nil, insertJunk_nil, flatten_map_ch]
  | cons g gaps ih =>
    cases w with
    | nil => simp [junkSegs, insertJunk, flatten_map_tok]
    | cons c cs =>
      simp only [junkSegs, insertJunk]
      rw [flatten_append, flatten_map_tok, flatten_ch, ih]

theorem chars_junkSegs (w : GoString) (gaps : List (List (Fin 7))) :
    chars (junkSegs w gaps) = w := by
  induction gaps generalizing w with
  | nil => rw [junkSegs_nil, chars_map_ch]
  | cons g gaps ih =>
    cases w with
    | nil => simp [junkSegs, chars_map_tok]
    | cons c cs =>
      simp only [junkSegs]
      rw [chars_append, chars_map_tok]
      simp [chars, ih]

/-- Junk removal undoes junk insertion on a text free of junk bytes and underscores. -/
theorem removeJunk_insertJunk (w : GoString) (gaps : List (List (Fin 7)))
    (hw : ∀ c ∈ w, isJunkByte c = false ∧ c ≠ 95) :
    replaceAll (voe.New.replaceJunk (insertJunk w gaps)) (lit "_") (lit "") = w := by
  rw [← flatten_junkSegs, replaceJunk_flatten _ (by
    rw [chars_junkSegs]
    exact fun c hc => (hw c hc).1), replaceAll_underscore, filter_flatten_resolved,
    chars_junkSegs]
  rw [List.filter_eq_self]
  intro c hc
  simpa using (hw c hc).2

end fixture

theorem mem_base64Encode (bs : GoString) :
    ∀ c ∈ base64Encode bs, c = 61 ∨ ∃ v, v < 64 ∧ c = b64Char v := by
  induction bs using base64Encode.induct with
  | case1 b0 b1 b2 rest ih =>
    intro c hc
    simp only [base64Encode, List.mem_cons] at hc
    rcases hc with rfl | rfl | rfl | rfl | hc
    · exact Or.inr ⟨_, Nat.mod_lt _ (by decide), rfl⟩
    · exact Or.inr ⟨_, Nat.mod_lt _ (by decide), rfl⟩
    · exact Or.inr ⟨_, Nat.mod_lt _ (by decide), rfl⟩
    · exact Or.inr ⟨_, Nat.mod_lt _ (by decide), rfl⟩
    · exact ih c hc
  | case2 b0 b1 =>
    intro c hc
    simp only [base64Encode, List.mem_cons, List.mem_singleton, List.not_mem_nil, or_false] at hc
    rcases hc with rfl | rfl | rfl | rfl
    · exact Or.inr ⟨_, Nat.mod_lt _ (by decide), rfl⟩
    · exact Or.inr ⟨_, Nat.mod_lt _ (by decide), rfl⟩
    · exact Or.inr ⟨_, Nat.mod_lt _ (by decide), rfl⟩
    · exact Or.inl rfl
  | case3 b0 =>
    intro c hc
    simp only [base64Encode, List.mem_cons, List.mem_singleton, List.not_mem_nil, or_false] at hc
    rcases hc with rfl | rfl | rfl | rfl
    · exact Or.inr ⟨_, Nat.mod_lt _ (by decide), rfl⟩
    · exact Or.inr ⟨_, Nat.mod_lt _ (by decide), rfl⟩
    · exact Or.inl rfl
    · exact Or.inl rfl
  | case4 => intro c hc; simp [base64Encode] at hc

theorem b64Char_props : ∀ v, v < 64 →
    b64Char v < 128 ∧ fixture.isJunkByte (b64Char v) = false ∧ b64Char v ≠ 95 := by
  decide

theorem base64Encode_ascii (bs : GoString) : ∀ c ∈ base64Encode bs, c < 128 := by
  intro c hc
  rcases mem_base64Encode bs c hc with rfl | ⟨v, hv, rfl⟩
  · decide
  · exact (b64Char_props v hv).1

theorem base64Encode_clean (bs : GoString) :
    ∀ c ∈ base64Encode bs, fixture.isJunkByte c = false ∧ c ≠ 95 := by
  intro c hc
  rcases mem_base64Encode bs c hc with rfl | ⟨v, hv, rfl⟩
  · decide
  · exact (b64Char_props v hv).2

theorem toRunes_ascii (s : GoString) (h : ∀ c ∈ s, c < 128) : toRunes s = s := by
  unfold toRunes
  induction s with
  | nil => rfl
  | cons c cs ih =>
    have hc : c < 128 := h c (by simp)
    rw [toRunesAux]
    simp only [decodeRune, hc, if_true]
    rw [show (1 : Nat) - 1 = 0 from rfl, ih (fun x hx => h x (by simp [hx]))]

theorem fromRunes_ascii (s : List Nat) (h : ∀ c ∈ s, c < 128) : fromRunes s = s := by
  unfold fromRunes
  induction s with
  | nil => rfl
  | cons c cs ih =>
    have hc : c < 128 := h c (by simp)
    rw [List.flatMap_cons, ih (fun x hx => h x (by simp [hx]))]
    simp [utf8Encode, hc]

theorem reverseString_ascii (s : GoString) (h : ∀ c ∈ s, c < 128) :
    voe.reverseString s = s.reverse := by
  unfold voe.reverseString
  rw [toRunes_ascii s h, fromRunes_ascii]
  intro c hc
  exact h c (List.mem_reverse.mp hc)

theorem shiftLetters_involutive (e : voe.Extractor) (s : GoString) :
    e.shiftLetters (e.shiftLetters s) = s := by
  unfold voe.Extractor.shiftLetters
  rw [List.map_map]
  conv_rhs => rw [← List.map_id s]
  apply List.map_congr_left
  intro c _
  simp only [Function.comp, id]
  split_ifs <;> omega

theorem shiftBack_add3 (e : voe.Extractor) (s : GoString) (h : ∀ c ∈ s, c < 256) :
    e.shiftBack (fixture.add3 s) 3 = s := by
  unfold voe.Extractor.shiftBack fixture.add3
  rw [List.map_map]
  conv_rhs => rw [← List.map_id s]
  apply List.map_congr_left
  intro c hc
  have := h c hc
  have h3 : ((3 : Int) % 256).toNat = 3 := by decide
  simp only [Function.comp, id, h3]
  omega

theorem add3_lt (s : GoString) : ∀ c ∈ fixture.add3 s, c < 256 := by
  intro c hc
  simp only [fixture.add3, List.mem_map] at hc
  obtain ⟨x, _, rfl⟩ := hc
  exact Nat.mod_lt _ (by decide)

namespace voe

/-- The decoding of a fixture built with the stages inverted one by one. -/
theorem decodeVOEString_inverseOrder (unmarshal : GoString → Option JsonMap)
    (j : GoString) (gaps : List (List (Fin 7))) (hj : ∀ b ∈ j, b < 256) :
    New.decodeVOEString unmarshal (fixture.inverseOrder j gaps) =
      match unmarshal j with
      | none => .error .parseJSON
      | some result => .ok result := by
  unfold Extractor.decodeVOEString fixture.inverseOrder
  simp only
  rw [shiftLetters_involutive, fixture.removeJunk_insertJunk _ _ (base64Encode_clean _),
    base64Decode_encode _ (add3_lt _)]
  simp only
  have hrev : ∀ c ∈ (base64Encode j).reverse, c < 128 := by
    intro c hc
    exact base64Encode_ascii j c (List.mem_reverse.mp hc)
  rw [shiftBack_add3 _ _ (fun c hc => Nat.lt_trans (hrev c hc) (by decide)),
    reverseString_ascii _ hrev, List.reverse_reverse, base64Decode_encode _ hj]

end voe

namespace voe

/-- C9 (as stated, refuted): for the media URL `https://cdn.example/video_720.m3u8`,
whose object text the JSON reader accepts, the fixture built in the order the
specification lists (reverse, base64-encode, add 3, base64-encode, junk, rotate) is
rejected by `decodeVOEString` at its second base64 decoding, with or without junk. -/
theorem decodeVOEString_rejects_specOrder :
    (fixture.unmarshalOnly fixture.sampleMedia (fixture.sourceJSON fixture.sampleMedia)).isSome
        = true ∧
      fixture.failure (New.decodeVOEString (fixture.unmarshalOnly fixture.sampleMedia)
        (fixture.specOrder (fixture.sourceJSON fixture.sampleMedia) fixture.sampleGaps)) =
          some DecodeError.step5 ∧
      fixture.failure (New.decodeVOEString (fixture.unmarshalOnly fixture.sampleMedia)
        (fixture.specOrder (fixture.sourceJSON fixture.sampleMedia) [])) =
          some DecodeError.step5 := by
  decide

/-- C9 (amended): for every media URL `u` and every JSON text `j` that `json.Unmarshal`
reads as an object whose `source` is the string `u`, the fixture built from `j` by
base64-encode, reverse, add 3 to each byte, base64-encode, reinsert junk tokens (any
tokens at any positions), rotate letters by 13 is decoded by `decodeVOEString` without
error into that object, whose `source` field equals `u`. -/
theorem decodeVOEString_recovers_source (unmarshal : GoString → Option JsonMap)
    (u j : GoString) (gaps : List (List (Fin 7))) (hj : ∀ b ∈ j, b < 256)
    (hjson : ∃ obj, unmarshal j = some obj ∧ obj.stringAt (lit "source") = some u) :
    ∃ result, New.decodeVOEString unmarshal (fixture.inverseOrder j gaps) = .ok result ∧
      unmarshal j = some result ∧ result.stringAt (lit "source") = some u := by
  obtain ⟨obj, hobj, hsrc⟩ := hjson
  refine ⟨obj, ?_, hobj, hsrc⟩
  rw [decodeVOEString_inverseOrder unmarshal j gaps hj, hobj]

theorem decodeVOEString_recovers_source_witness :
    ∃ result, New.decodeVOEString (fixture.unmarshalOnly fixture.sampleMedia)
        (fixture.inverseOrder (fixture.sourceJSON fixture.sampleMedia) fixture.sampleGaps) =
          .ok result ∧
      fixture.unmarshalOnly fixture.sampleMedia (fixture.sourceJSON fixture.sampleMedia) =
        some result ∧
      result.stringAt (lit "source") = some (lit "https://cdn.example/video_720.m3u8") :=
  decodeVOEString_recovers_source (fixture.unmarshalOnly fixture.sampleMedia)
    fixture.sampleMedia (fixture.sourceJSON fixture.sampleMedia) fixture.sampleGaps
    (by decide) ⟨_, if_pos rfl, by decide⟩

end voe

/-! ## Lifetime of a link built by `createStreamURL` -/

namespace voe

/-- C13: for every media URL and every creation instant `now`, the link built by
`createStreamURL` has `ExpiresAt` equal to `now` plus exactly two hours (7 200 000 000 000
nanoseconds) and `URL` equal to the given media URL, unchanged. -/
theorem createStreamURL_expires_in_two_hours (e : Extractor) (now : Int)
    (url : GoString) :
    (e.createStreamURL now url).ExpiresAt = now + 7200000000000 ∧
      (e.createStreamURL now url).ExpiresAt = now + 2 * timeHour ∧
      (e.createStreamURL now url).URL = url :=
  ⟨by simp only [Extractor.createStreamURL, timeHour]; norm_num, rfl, rfl⟩

/-- C14: for every creation instant `t` and every check instant `t'` with
`t ≤ t' ≤ t + 2 hours`, `IsExpired` evaluated at `t'` on a link created by
`createStreamURL` at `t` is false, so the acceptance test of `System.Extract` passes on
it and the loop returns it; the comparison is strict, the link being still valid at
exactly `t + 2 hours`. -/
theorem createStreamURL_live_within_two_hours (e : Extractor) (t t' : Int)
    (url : GoString) (_h1 : t ≤ t') (h2 : t' ≤ t + 2 * timeHour) :
    (e.createStreamURL t url).IsExpired t' = false ∧
      (∀ (clock : Nat → Int) (i : Nat), clock i = t' →
        extractors.accepted clock i (some (e.createStreamURL t url), none) = true) ∧
      (∀ (x : models.Extractor) (embedURL : GoString) (clock : Nat → Int) (i : Nat)
          (rest invoked : List models.Extractor) (lastErr : Option GoError),
        x.Extract embedURL = (some (e.createStreamURL t url), none) → clock i = t' →
          extractors.extractLoop embedURL clock (x :: rest) i lastErr invoked =
            ⟨some (e.createStreamURL t url), none, invoked ++ [x]⟩) := by
  have hlive : (e.createStreamURL t url).IsExpired t' = false := by
    simp only [models.StreamURL.IsExpired, Extractor.createStreamURL, gt_iff_lt,
      decide_eq_false_iff_not, not_lt]
    exact h2
  refine ⟨hlive, ?_, ?_⟩
  · intro clock i hc
    simp only [extractors.accepted, hc, hlive, Bool.not_false]
  · intro x embedURL clock i rest invoked lastErr hx hc
    exact extractors.extractLoop_cons_live embedURL clock x rest i lastErr invoked _ hx
      (by rw [hc]; exact hlive)

/-- The witness of C14: creation at instant 0, check at exactly two hours. -/
theorem createStreamURL_live_within_two_hours_witness :
    (0 : Int) ≤ 2 * timeHour ∧ 2 * timeHour ≤ 0 + 2 * timeHour ∧
      (New.createStreamURL 0 fixture.sampleMedia).IsExpired (2 * timeHour) = false :=
  ⟨by decide, by decide,
    (createStreamURL_live_within_two_hours New 0 (2 * timeHour) fixture.sampleMedia
      (by decide) (by decide)).1⟩

/-- One nanosecond after the two hours the link is expired. -/
theorem createStreamURL_expired_after (e : Extractor) (t : Int) (url : GoString) :
    (e.createStreamURL t url).IsExpired (t + 2 * timeHour + 1) = true := by
  simp only [models.StreamURL.IsExpired, Extractor.createStreamURL, gt_iff_lt,
    decide_eq_true_eq]
  omega

/-- C19: for every byte string `s`, `shiftLetters s` has the length of `s`; at every
position a byte in `A..M` or `a..m` becomes the byte 13 above, a byte in `N..Z` or
`n..z` the byte 13 below (the letter 13 places later in the same case, wrapping round),
every other byte stays; and `shiftLetters (shiftLetters s) = s`. -/
theorem shiftLetters_rot13 (e : Extractor) (s : GoString) :
    (e.shiftLetters s).length = s.length ∧
      (∀ (i c : Nat), s[i]? = some c →
        ((65 ≤ c ∧ c ≤ 77) ∨ (97 ≤ c ∧ c ≤ 109) →
          (e.shiftLetters s)[i]? = some (c + 13)) ∧
        ((78 ≤ c ∧ c ≤ 90) ∨ (110 ≤ c ∧ c ≤ 122) →
          (e.shiftLetters s)[i]? = some (c - 13)) ∧
        (¬ (65 ≤ c ∧ c ≤ 90) → ¬ (97 ≤ c ∧ c ≤ 122) →
          (e.shiftLetters s)[i]? = some c)) ∧
      e.shiftLetters (e.shiftLetters s) = s := by
  refine ⟨?_, ?_, shiftLetters_involutive e s⟩
  · simp only [Extractor.shiftLetters, List.length_map]
  · intro i c hc
    simp only [Extractor.shiftLetters, List.getElem?_map, hc, Option.map_some',
      Option.some.injEq]
    refine ⟨?_, ?_, ?_⟩
    · intro h
      split_ifs <;> omega
    · intro h
      split_ifs <;> omega
    · intro h1 h2
      rw [if_neg h1, if_neg h2]

end voe

/-! ## One call of `System.Extract`: calls made and registry state -/

namespace extractors

open models

/-- C16: within one call of `System.Extract` the calls of `Extract` are made on the first
`k` candidates, one call each and in candidate order, for some `k` at most the number of
candidates: no candidate is called a second time, the number of calls is at most the
size of the candidate set, and if no capability is registered twice none is called
twice. -/
theorem Extract_calls_each_candidate_once (s : System) (clock : Nat → Int)
    (url : GoString) :
    (∃ k, k ≤ (candidatesOf s url).length ∧
        (s.Extract clock url).invoked = (candidatesOf s url).take k ∧
        (s.Extract clock url).invoked.length = k) ∧
      (s.Extract clock url).invoked.length ≤ (candidatesOf s url).length ∧
      (s.extractors.Nodup → (s.Extract clock url).invoked.Nodup) := by
  have hp := Extract_invoked_prefix s clock url
  refine ⟨?_, hp.length_le, ?_⟩
  · refine ⟨(s.Extract clock url).invoked.length, hp.length_le, ?_, rfl⟩
    exact (List.prefix_iff_eq_take.mp hp)
  · intro hnd
    exact (hnd.sublist (List.filter_sublist _)).sublist hp.sublist

end extractors

namespace extractors

open models

theorem collectStep_frame (url : GoString) (st : ExtractState) (x : Extractor) :
    (collectStep url st x).s = st.s ∧ (collectStep url st x).lastErr = st.lastErr ∧
      (collectStep url st x).invoked = st.invoked ∧
      (collectStep url st x).candidates =
        st.candidates ++ [x].filter (fun extractor => extractor.CanHandle url) := by
  unfold collectStep
  by_cases h : x.CanHandle url = true
  · simp [h]
  · simp [h]

theorem foldl_collectStep (url : GoString) (xs : List Extractor) :
    ∀ st : ExtractState,
      (xs.foldl (collectStep url) st).s = st.s ∧
        (xs.foldl (collectStep url) st).lastErr = st.lastErr ∧
        (xs.foldl (collectStep url) st).invoked = st.invoked ∧
        (xs.foldl (collectStep url) st).candidates =
          st.candidates ++ xs.filter (fun extractor => extractor.CanHandle url) := by
  induction xs with
  | nil => intro st; simp
  | cons x xs ih =>
    intro st
    obtain ⟨h1, h2, h3, h4⟩ := collectStep_frame url st x
    obtain ⟨i1, i2, i3, i4⟩ := ih (collectStep url st x)
    rw [List.foldl_cons]
    refine ⟨i1.trans h1, i2.trans h2, i3.trans h3, ?_⟩
    rw [i4, h4, List.append_assoc, ← List.filter_append]
    rfl

theorem tryStep_frame (url : GoString) (clock : Nat → Int) (i : Nat) (st : ExtractState)
    (x : Extractor) :
    (tryStep url clock i st x).1.s = st.s ∧
      (tryStep url clock i st x).1.candidates = st.candidates ∧
      (tryStep url clock i st x).1.invoked = st.invoked ++ [x] := by
  unfold tryStep
  rcases hx : x.Extract url with ⟨l, err⟩
  cases err with
  | some err => cases l <;> simp
  | none =>
    cases l with
    | none => simp
    | some link =>
      by_cases hexp : link.IsExpired (clock i) = true
      · simp [hexp]
      · simp [hexp]

/-- The run of the second loop on the state agrees with `extractLoop`, and leaves the
receiver and the candidate list as they were. -/
theorem tryLoop_spec (url : GoString) (clock : Nat → Int) :
    ∀ (cands : List Extractor) (i : Nat) (st : ExtractState),
      (tryLoop url clock cands i st).1.s = st.s ∧
        (tryLoop url clock cands i st).1.candidates = st.candidates ∧
        extractLoop url clock cands i st.lastErr st.invoked =
          match (tryLoop url clock cands i st).2 with
          | some r => ⟨r.1, r.2, (tryLoop url clock cands i st).1.invoked⟩
          | none =>
            extractLoop url clock [] 0 (tryLoop url clock cands i st).1.lastErr
              (tryLoop url clock cands i st).1.invoked := by
  intro cands
  induction cands with
  | nil =>
    intro i st
    refine ⟨rfl, rfl, ?_⟩
    simp only [tryLoop]
    cases st.lastErr <;> rfl
  | cons x rest ih =>
    intro i st
    obtain ⟨f1, f2, f3⟩ := tryStep_frame url clock i st x
    rcases hx : x.Extract url with ⟨l, err⟩
    cases err with
    | some err =>
      have hstep : tryStep url clock i st x =
          ({ st with invoked := st.invoked ++ [x], lastErr := some err }, none) := by
        unfold tryStep
        rw [hx]
        cases l <;> rfl
      have hloop : tryLoop url clock (x :: rest) i st =
          tryLoop url clock rest (i + 1)
            { st with invoked := st.invoked ++ [x], lastErr := some err } := by
        rw [tryLoop, hstep]
      rw [hloop, extractLoop_cons_err url clock x rest i st.lastErr st.invoked l err hx]
      exact ih (i + 1) _
    | none =>
      cases l with
      | none =>
        have hstep : tryStep url clock i st x =
            ({ st with invoked := st.invoked ++ [x] }, none) := by
          unfold tryStep
          rw [hx]
        have hloop : tryLoop url clock (x :: rest) i st =
            tryLoop url clock rest (i + 1) { st with invoked := st.invoked ++ [x] } := by
          rw [tryLoop, hstep]
        rw [hloop, extractLoop_cons_nil url clock x rest i st.lastErr st.invoked hx]
        exact ih (i + 1) _
      | some link =>
        by_cases hexp : link.IsExpired (clock i) = true
        · have hstep : tryStep url clock i st x =
              ({ st with invoked := st.invoked ++ [x] }, none) := by
            unfold tryStep
            rw [hx]
            simp [hexp]
          have hloop : tryLoop url clock (x :: rest) i st =
              tryLoop url clock rest (i + 1) { st with invoked := st.invoked ++ [x] } := by
            rw [tryLoop, hstep]
          rw [hloop,
            extractLoop_cons_expired url clock x rest i st.lastErr st.invoked link hx hexp]
          exact ih (i + 1) _
        · have hlive : link.IsExpired (clock i) = false := by
            cases h : link.IsExpired (clock i)
            · rfl
            · exact absurd h hexp
          have hstep : tryStep url clock i st x =
              ({ st with invoked := st.invoked ++ [x] }, some (some link, none)) := by
            unfold tryStep
            rw [hx]
            simp [hlive]
          have hloop : tryLoop url clock (x :: rest) i st =
              ({ st with invoked := st.invoked ++ [x] }, some (some link, none)) := by
            rw [tryLoop, hstep]
          rw [hloop,
            extractLoop_cons_live url clock x rest i st.lastErr st.invoked link hx hlive]
          exact ⟨rfl, rfl, rfl⟩

/-- The run of `System.Extract` on the state returns what `System.Extract` returns, makes
the same calls, and ends with the receiver it started with. -/
theorem ExtractRun_spec (s : System) (clock : Nat → Int) (url : GoString) :
    (s.ExtractRun clock url).1.s = s ∧
      (s.ExtractRun clock url).2 = ((s.Extract clock url).link, (s.Extract clock url).err) ∧
      (s.ExtractRun clock url).1.invoked = (s.Extract clock url).invoked := by
  obtain ⟨c1, c2, c3, c4⟩ := foldl_collectStep url s.extractors
    { s := s, candidates := [], lastErr := none, invoked := [] }
  simp only [List.nil_append] at c1 c2 c3 c4
  unfold System.ExtractRun System.Extract
  simp only
  generalize hst : (List.foldl (collectStep url)
    { s := s, candidates := [], lastErr := none, invoked := [] } s.extractors) = st0
      at c1 c2 c3 c4
  have hc : candidatesOf s url = st0.candidates := by
    rw [c4]
    rfl
  rw [hc]
  by_cases hlen : st0.candidates.length = 0
  · rw [if_pos hlen, if_pos hlen]
    exact ⟨c1, rfl, c3⟩
  · rw [if_neg hlen, if_neg hlen]
    obtain ⟨t1, _, t3⟩ := tryLoop_spec url clock st0.candidates 0 st0
    rw [c2, c3] at t3
    rw [t3]
    rcases hr : tryLoop url clock st0.candidates 0 st0 with ⟨st1, r⟩
    rw [hr] at t1
    simp only at t1
    cases r with
    | some r => exact ⟨t1.trans c1, rfl, rfl⟩
    | none =>
      simp only
      cases hle : st1.lastErr with
      | some e => exact ⟨t1.trans c1, by simp [extractLoop], by simp [extractLoop]⟩
      | none => exact ⟨t1.trans c1, by simp [extractLoop], by simp [extractLoop]⟩

/-- C17: `System.Extract` leaves the registry unchanged. For every registry, clock and
URL, whatever the call returns, the receiver at the end of the call is the receiver at
its start: its capability sequence is the same element by element, and `GetExtractors`
returns the same sequence before and after, so the order computed at construction stays
as it was. -/
theorem Extract_leaves_registry_unchanged (s : System) (clock : Nat → Int)
    (url : GoString) :
    (s.ExtractRun clock url).1.s = s ∧
      (s.ExtractRun clock url).1.s.extractors = s.extractors ∧
      (∀ i : Nat, (s.ExtractRun clock url).1.s.extractors[i]? = s.extractors[i]?) ∧
      (s.ExtractRun clock url).1.s.GetExtractors = s.GetExtractors ∧
      (s.ExtractRun clock url).2 =
        ((s.Extract clock url).link, (s.Extract clock url).err) := by
  obtain ⟨h1, h2, _⟩ := ExtractRun_spec s clock url
  refine ⟨h1, by rw [h1], fun i => by rw [h1], by rw [h1], h2⟩

end extractors

/-! ## `replaceJunk`: no junk token is left -/

/-- The replacement of a two-byte token at the head of the text. -/
theorem replaceAll_pair_yes (a b : Nat) (new rest : GoString) :
    replaceAll (a :: b :: rest) [a, b] new = new ++ replaceAll rest [a, b] new := by
  unfold replaceAll
  have hp : hasPrefix (a :: b :: rest) [a, b] = true := by
    simp [hasPrefix]
  rw [fixture.replaceAllAux_cons_yes _ _ _ _ hp]
  show new ++ replaceAllAux [a, b] new 1 (b :: rest) = _
  rw [fixture.replaceAllAux_skip]

/-- No replacement at the head of the text. -/
theorem replaceAll_pair_no (a b c : Nat) (new cs : GoString)
    (h : ¬ [a, b] <+: c :: cs) :
    replaceAll (c :: cs) [a, b] new = c :: replaceAll cs [a, b] new := by
  unfold replaceAll
  have hp : hasPrefix (c :: cs) [a, b] = false := by
    cases hh : hasPrefix (c :: cs) [a, b]
    · rfl
    · exact absurd ((hasPrefix_iff _ _).mp hh) h
  rw [fixture.replaceAllAux_cons_no _ _ _ _ hp]

/-- The first byte of the result of replacing a two-byte token by `_` is `_` or the
first byte of the text. -/
theorem replaceAll_pair_head (a b : Nat) (s : GoString) (x : Nat)
    (hx : (replaceAll s [a, b] [95]).head? = some x) : x = 95 ∨ s.head? = some x := by
  cases s with
  | nil => simp [replaceAll, replaceAllAux] at hx
  | cons c cs =>
    by_cases hp : [a, b] <+: c :: cs
    · obtain ⟨t, ht⟩ := hp
      simp only [List.cons_append, List.nil_append, List.cons.injEq] at ht
      obtain ⟨rfl, rfl⟩ := ht
      rw [replaceAll_pair_yes] at hx
      simp only [List.singleton_append, List.head?_cons, Option.some.injEq] at hx
      exact Or.inl hx.symm
    · rw [replaceAll_pair_no _ _ _ _ _ hp] at hx
      exact Or.inr hx

/-- An occurrence of a two-byte token without `_` in the result of replacing a two-byte
token by `_` is an occurrence in the text, and of another token than the replaced one. -/
theorem replaceAll_pair_occurs (a b p q : Nat) (hp95 : p ≠ 95) (hq95 : q ≠ 95) :
    ∀ (n : Nat) (s : GoString), s.length ≤ n → [p, q] <:+: replaceAll s [a, b] [95] →
      [p, q] <:+: s ∧ [p, q] ≠ [a, b] := by
  intro n
  induction n with
  | zero =>
    intro s hn h
    have hs : s = [] := List.length_eq_zero.mp (Nat.le_zero.mp hn)
    subst hs
    simp [replaceAll, replaceAllAux] at h
  | succ n ih =>
    intro s hn h
    cases s with
    | nil => simp [replaceAll, replaceAllAux] at h
    | cons c cs =>
      by_cases hpre : [a, b] <+: c :: cs
      · obtain ⟨t, ht⟩ := hpre
        simp only [List.cons_append, List.nil_append, List.cons.injEq] at ht
        obtain ⟨rfl, rfl⟩ := ht
        rw [replaceAll_pair_yes, List.singleton_append, List.infix_cons_iff] at h
        rcases h with h | h
        · obtain ⟨t2, ht2⟩ := h
          simp only [List.cons_append, List.cons.injEq] at ht2
          exact absurd ht2.1 hp95
        · have hlen : t.length ≤ n := by
            simp only [List.length_cons] at hn
            omega
          obtain ⟨h1, h2⟩ := ih t hlen h
          refine ⟨?_, h2⟩
          exact List.infix_cons (List.infix_cons h1)
      · rw [replaceAll_pair_no _ _ _ _ _ hpre, List.infix_cons_iff] at h
        have hlen : cs.length ≤ n := by
          simp only [List.length_cons] at hn
          omega
        rcases h with h | h
        · obtain ⟨t2, ht2⟩ := h
          simp only [List.cons_append, List.nil_append, List.cons.injEq] at ht2
          obtain ⟨hpc, ht2⟩ := ht2
          have hhead : (replaceAll cs [a, b] [95]).head? = some q := by
            rw [← ht2]
            rfl
          rcases replaceAll_pair_head a b cs q hhead with h95 | hcs
          · exact absurd h95 hq95
          · cases cs with
            | nil => simp at hcs
            | cons d ds =>
              simp only [List.head?_cons, Option.some.injEq] at hcs
              subst hcs
              subst hpc
              have hpq : [p, d] <+: p :: d :: ds := ⟨ds, rfl⟩
              refine ⟨hpq.isInfix, ?_⟩
              intro heq
              rw [heq] at hpq
              exact hpre hpq
        · obtain ⟨h1, h2⟩ := ih cs hlen h
          exact ⟨List.infix_cons h1, h2⟩

/-- A two-byte token without `_`. -/
theorem junkParts_pairs :
    ∀ t ∈ voe.New.junkParts, ∃ p q, t = [p, q] ∧ p ≠ 95 ∧ q ≠ 95 := by
  intro t ht
  simp only [voe.New, List.mem_cons, List.mem_singleton, List.not_mem_nil, or_false] at ht
  rcases ht with h | h | h | h | h | h | h <;> subst h
  · exact ⟨64, 36, by decide, by decide, by decide⟩
  · exact ⟨94, 94, by decide, by decide, by decide⟩
  · exact ⟨126, 64, by decide, by decide, by decide⟩
  · exact ⟨37, 63, by decide, by decide, by decide⟩
  · exact ⟨42, 126, by decide, by decide, by decide⟩
  · exact ⟨33, 33, by decide, by decide, by decide⟩
  · exact ⟨35, 38, by decide, by decide, by decide⟩

/-- Later replacements do not bring back a token that does not occur. -/
theorem foldl_replaceAll_no_create (p q : Nat) (hp95 : p ≠ 95) (hq95 : q ≠ 95)
    (parts : List GoString) (hparts : ∀ t ∈ parts, ∃ a b, t = [a, b] ∧ a ≠ 95 ∧ b ≠ 95) :
    ∀ r : GoString, ¬ [p, q] <:+: r →
      ¬ [p, q] <:+: parts.foldl (fun result part => replaceAll result part (lit "_")) r := by
  induction parts with
  | nil => intro r hr; exact hr
  | cons part parts ih =>
    intro r hr
    rw [List.foldl_cons]
    apply ih (fun t ht => hparts t (List.mem_cons_of_mem _ ht))
    obtain ⟨a, b, hab, _, _⟩ := hparts part (List.mem_cons_self _ _)
    subst hab
    intro h
    exact hr (replaceAll_pair_occurs a b p q hp95 hq95 r.length r (le_refl _) h).1

/-- After the replacement of every token of a list of two-byte tokens without `_`, none
of them occurs. -/
theorem foldl_replaceAll_clean (parts : List GoString)
    (hparts : ∀ t ∈ parts, ∃ a b, t = [a, b] ∧ a ≠ 95 ∧ b ≠ 95) :
    ∀ (r : GoString), ∀ t ∈ parts,
      ¬ t <:+: parts.foldl (fun result part => replaceAll result part (lit "_")) r := by
  induction parts with
  | nil => intro r t ht; simp at ht
  | cons part parts ih =>
    intro r t ht
    rw [List.foldl_cons]
    by_cases hmem : t ∈ parts
    · exact ih (fun t ht => hparts t (List.mem_cons_of_mem _ ht)) _ t hmem
    · have hte : t = part := by
        rcases List.mem_cons.mp ht with h | h
        · exact h
        · exact absurd h hmem
      subst hte
      obtain ⟨a, b, hab, ha, hb⟩ := hparts t (List.mem_cons_self _ _)
      subst hab
      apply foldl_replaceAll_no_create a b ha hb parts
        (fun t ht => hparts t (List.mem_cons_of_mem _ ht))
      intro h
      exact (replaceAll_pair_occurs a b a b ha hb r.length r (le_refl _) h).2 rfl

namespace fixture

theorem replaceAll_token_segs (k : Fin 7) :
    ∀ (n : Nat) (s : GoString), s.length ≤ n →
      ∃ segs : List Seg, flatten segs = s ∧
        segs.map Seg.replaced = replaceAll s (junkToken k) (lit "_") := by
  intro n
  induction n with
  | zero =>
    intro s hs
    have : s = [] := List.length_eq_zero.mp (Nat.le_zero.mp hs)
    subst this
    exact ⟨[], rfl, rfl⟩
  | succ n ih =>
    intro s hs
    cases s with
    | nil => exact ⟨[], rfl, rfl⟩
    | cons c cs =>
      rw [junkToken_eq k]
      by_cases hpre : [junkFst k, junkSnd k] <+: c :: cs
      · obtain ⟨t, ht⟩ := hpre
        simp only [List.cons_append, List.nil_append, List.cons.injEq] at ht
        obtain ⟨rfl, rfl⟩ := ht
        obtain ⟨segs, h1, h2⟩ := ih t (by simp only [List.length_cons] at hs; omega)
        refine ⟨.tok k :: segs, ?_, ?_⟩
        · simp only [flatten, List.flatMap_cons, Seg.bytes, junkToken_eq k] at h1 ⊢
          rw [h1]
          rfl
        · rw [replaceAll_pair_yes, List.map_cons, h2, junkToken_eq k]
          rfl
      · obtain ⟨segs, h1, h2⟩ := ih cs (by simp only [List.length_cons] at hs; omega)
        refine ⟨.ch c :: segs, ?_, ?_⟩
        · simp only [flatten, List.flatMap_cons, Seg.bytes] at h1 ⊢
          rw [h1]
          rfl
        · rw [replaceAll_pair_no _ _ _ _ _ hpre, List.map_cons, h2, junkToken_eq k]
          rfl

/-- A reading of the result of one replacement as pieces gives a reading of the text
before it. -/
theorem segs_compose :
    ∀ (segs2 segs1 : List Seg), segs1.map Seg.replaced = flatten segs2 →
      ∃ segs : List Seg, flatten segs = flatten segs1 ∧
        segs.map Seg.replaced = segs2.map Seg.replaced := by
  intro segs2
  induction segs2 with
  | nil =>
    intro segs1 h
    have : segs1 = [] := by
      cases segs1 with
      | nil => rfl
      | cons x xs => simp [flatten] at h
    subst this
    exact ⟨[], rfl, rfl⟩
  | cons y segs2 ih =>
    intro segs1 h
    cases y with
    | ch c =>
      cases segs1 with
      | nil => simp [flatten, Seg.bytes] at h
      | cons x xs =>
        simp only [List.map_cons, flatten, List.flatMap_cons, Seg.bytes,
          List.singleton_append, List.cons.injEq] at h
        obtain ⟨hx, hxs⟩ := h
        obtain ⟨segs, h1, h2⟩ := ih xs hxs
        refine ⟨x :: segs, ?_, ?_⟩
        · simp only [flatten, List.flatMap_cons] at h1 ⊢
          rw [h1]
        · rw [List.map_cons, List.map_cons, h2, hx]
          rfl
    | tok k =>
      have hk := junkToken_eq k
      have hf := junkFst_isJunk k
      have hs := junkSnd_isJunk k
      cases segs1 with
      | nil => simp [flatten, Seg.bytes, hk] at h
      | cons x xs =>
        cases xs with
        | nil => simp [flatten, Seg.bytes, hk] at h
        | cons x2 xs =>
          simp only [List.map_cons, flatten, List.flatMap_cons, Seg.bytes, hk,
            List.cons_append, List.nil_append, List.cons.injEq] at h
          obtain ⟨hx, hx2, hxs⟩ := h
          have hx' : x = .ch (junkFst k) := by
            cases x with
            | ch c => simp only [Seg.replaced] at hx; rw [hx]
            | tok m =>
              simp only [Seg.replaced] at hx
              rw [← hx] at hf
              exact absurd hf (by decide)
          have hx2' : x2 = .ch (junkSnd k) := by
            cases x2 with
            | ch c => simp only [Seg.replaced] at hx2; rw [hx2]
            | tok m =>
              simp only [Seg.replaced] at hx2
              rw [← hx2] at hs
              exact absurd hs (by decide)
          obtain ⟨segs, h1, h2⟩ := ih xs hxs
          refine ⟨.tok k :: segs, ?_, ?_⟩
          · simp only [flatten, List.flatMap_cons, Seg.bytes, hk, hx', hx2'] at h1 ⊢
            rw [h1]
            rfl
          · simp only [List.map_cons, h2, Seg.replaced]

/-- The successive replacement of tokens reads the text as pieces: bytes that stay, and
whole tokens that become one underscore each. -/
theorem foldl_replaceAll_segs (ks : List (Fin 7)) :
    ∀ s : GoString, ∃ segs : List Seg, flatten segs = s ∧
      segs.map Seg.replaced =
        (ks.map junkToken).foldl (fun result part => replaceAll result part (lit "_")) s := by
  induction ks with
  | nil =>
    intro s
    refine ⟨s.map Seg.ch, flatten_map_ch s, ?_⟩
    simp only [List.map_map, List.map_nil, List.foldl_nil]
    conv_rhs => rw [← List.map_id s]
    apply List.map_congr_left
    intro c _
    rfl
  | cons k ks ih =>
    intro s
    rw [List.map_cons, List.foldl_cons]
    obtain ⟨segs2, h21, h22⟩ := ih (replaceAll s (junkToken k) (lit "_"))
    obtain ⟨segs1, h11, h12⟩ := replaceAll_token_segs k s.length s (le_refl _)
    obtain ⟨segs, h1, h2⟩ := segs_compose segs2 segs1 (by rw [h12, h21])
    exact ⟨segs, by rw [h1, h11], by rw [h2, h22]⟩

theorem replaceJunk_segs (s : GoString) :
    ∃ segs : List Seg, flatten segs = s ∧ voe.New.replaceJunk s = segs.map Seg.replaced := by
  obtain ⟨segs, h1, h2⟩ := foldl_replaceAll_segs [0, 1, 2, 3, 4, 5, 6] s
  exact ⟨segs, h1, h2.symm⟩

end fixture

namespace voe

/-- C20 (as stated, refuted): in `~@$` the token `~@` occurs at offset 0 and the token
`@$` at offset 1; `replaceJunk` gives `~_`: the occurrence of `@$` has become an
underscore, the occurrence of `~@` has not, its first byte `~` is still there, and
there is one underscore for two occurrences. Likewise `^^^`, in which `^^` occurs at
offsets 0 and 1, gives `_^`. -/
theorem replaceJunk_overlap_not_replaced :
    lit "~@" ∈ New.junkParts ∧ lit "@$" ∈ New.junkParts ∧
      hasPrefix ((lit "~@$").drop 0) (lit "~@") = true ∧
      hasPrefix ((lit "~@$").drop 1) (lit "@$") = true ∧
      New.replaceJunk (lit "~@$") = lit "~_" ∧
      (New.replaceJunk (lit "~@$")).count 95 = 1 ∧
      (New.replaceJunk (lit "~@$")).head? = some 126 ∧
      hasPrefix ((lit "^^^").drop 0) (lit "^^") = true ∧
      hasPrefix ((lit "^^^").drop 1) (lit "^^") = true ∧
      New.replaceJunk (lit "^^^") = lit "_^" := by
  decide

/-- C20 (amended): for every input string `s`, `replaceJunk s` is `s` read as a sequence
of pieces, single bytes and whole junk tokens, in which every byte piece is kept and
every token piece is replaced by one underscore; it contains no occurrence of any of
the seven junk tokens `@$`, `^^`, `~@`, `%?`, `*~`, `!!`, `#&`; the replacement of one
token by an underscore never creates an occurrence of another token; and the
underscore-removal stage of `decodeVOEString` drops exactly the underscores, so that
the string then contains no underscore. -/
theorem replaceJunk_leaves_no_token (s : GoString) :
    New.junkParts =
        [lit "@$", lit "^^", lit "~@", lit "%?", lit "*~", lit "!!", lit "#&"] ∧
      (∃ pieces : List fixture.Seg, fixture.flatten pieces = s ∧
        New.replaceJunk s = pieces.map fixture.Seg.replaced) ∧
      (∀ t ∈ New.junkParts, ¬ t <:+: New.replaceJunk s) ∧
      (∀ t ∈ New.junkParts, stringsContains (New.replaceJunk s) t = false) ∧
      (∀ t ∈ New.junkParts, ∀ part ∈ New.junkParts, ∀ r : GoString,
        ¬ t <:+: r → ¬ t <:+: replaceAll r part (lit "_")) ∧
      replaceAll (New.replaceJunk s) (lit "_") (lit "") =
        (New.replaceJunk s).filter (fun c => c != 95) ∧
      95 ∉ replaceAll (New.replaceJunk s) (lit "_") (lit "") ∧
      stringsContains (replaceAll (New.replaceJunk s) (lit "_") (lit "")) (lit "_") =
        false := by
  have hclean : ∀ t ∈ New.junkParts, ¬ t <:+: New.replaceJunk s :=
    foldl_replaceAll_clean New.junkParts junkParts_pairs s
  have h95 : 95 ∉ replaceAll (New.replaceJunk s) (lit "_") (lit "") := by
    rw [fixture.replaceAll_underscore]
    intro h
    have := (List.mem_filter.mp h).2
    simp at this
  refine ⟨rfl, fixture.replaceJunk_segs s, hclean, ?_, ?_, fixture.replaceAll_underscore _,
    h95, ?_⟩
  · intro t ht
    cases hc : stringsContains (New.replaceJunk s) t
    · rfl
    · exact absurd ((stringsContains_iff _ _).mp hc) (hclean t ht)
  · intro t ht part hpart r hr h
    obtain ⟨p, q, hpq, hp, hq⟩ := junkParts_pairs t ht
    obtain ⟨a, b, hab, _, _⟩ := junkParts_pairs part hpart
    subst hpq
    subst hab
    exact hr (replaceAll_pair_occurs a b p q hp hq r.length r (le_refl _) h).1
  · cases hc : stringsContains (replaceAll (New.replaceJunk s) (lit "_") (lit "")) (lit "_")
    · rfl
    · have hin := (stringsContains_iff _ _).mp hc
      have hmem : 95 ∈ replaceAll (New.replaceJunk s) (lit "_") (lit "") :=
        hin.subset (by decide)
      exact absurd hmem h95

end voe

/-! ## The page-level decoding of `voe.Extractor.Extract` -/

namespace voe

/-- A page that goquery cannot parse yields nothing by Method A. -/
theorem extractFromScript_parse_error (scripts : GoString → Option (List GoString))
    (unmarshal : GoString → Option JsonMap) (e : Extractor) (html : GoString)
    (h : scripts html = none) : e.extractFromScript scripts unmarshal html = lit "" := by
  unfold Extractor.extractFromScript
  rw [h]

/-- A capture that is not valid base64 yields nothing by Method B. -/
theorem extractFromB64Variable_bad_base64 (unmarshal : GoString → Option JsonMap)
    (e : Extractor) (html blob : GoString)
    (hm : e.b64Pattern.FindStringSubmatch html = some blob)
    (hd : base64Decode blob = none) : e.extractFromB64Variable unmarshal html = lit "" := by
  unfold Extractor.extractFromB64Variable
  rw [hm]
  simp only
  rw [hd]

/-- A page without a match of the variable pattern yields nothing by Method B. -/
theorem extractFromB64Variable_no_match (unmarshal : GoString → Option JsonMap)
    (e : Extractor) (html : GoString)
    (hm : e.b64Pattern.FindStringSubmatch html = none) :
    e.extractFromB64Variable unmarshal html = lit "" := by
  unfold Extractor.extractFromB64Variable
  rw [hm]

/-- C11: for every page, the decoding calls Method A (script payload), then Method B
(inline variable), then Method C (hls key), and builds the link from the first result
that is non-empty, without calling the later methods; it returns the error
`failed to extract stream URL using all methods` if and only if all three results are
empty, and a method that yields nothing is always followed by a call of the next one. -/
theorem decodePage_uses_first_method (scripts : GoString → Option (List GoString))
    (unmarshal : GoString → Option JsonMap) (e : Extractor) (now : Int)
    (html : GoString) :
    (e.extractFromScript scripts unmarshal html ≠ lit "" →
        e.decodePage scripts unmarshal now html =
          ⟨some (e.createStreamURL now (e.extractFromScript scripts unmarshal html)), none,
            [.scriptTag]⟩) ∧
      (e.extractFromScript scripts unmarshal html = lit "" →
        e.extractFromB64Variable unmarshal html ≠ lit "" →
        e.decodePage scripts unmarshal now html =
          ⟨some (e.createStreamURL now (e.extractFromB64Variable unmarshal html)), none,
            [.scriptTag, .b64Variable]⟩) ∧
      (e.extractFromScript scripts unmarshal html = lit "" →
        e.extractFromB64Variable unmarshal html = lit "" →
        e.extractHLSSource html ≠ lit "" →
        e.decodePage scripts unmarshal now html =
          ⟨some (e.createStreamURL now (e.extractHLSSource html)), none,
            [.scriptTag, .b64Variable, .hlsPattern]⟩) ∧
      (e.extractFromScript scripts unmarshal html = lit "" →
        e.extractFromB64Variable unmarshal html = lit "" →
        e.extractHLSSource html = lit "" →
        e.decodePage scripts unmarshal now html =
          ⟨none, some (.errorf (lit "failed to extract stream URL using all methods")),
            [.scriptTag, .b64Variable, .hlsPattern]⟩) ∧
      ((e.decodePage scripts unmarshal now html).err =
          some (.errorf (lit "failed to extract stream URL using all methods")) ↔
        e.extractFromScript scripts unmarshal html = lit "" ∧
          e.extractFromB64Variable unmarshal html = lit "" ∧
          e.extractHLSSource html = lit "") ∧
      ((e.decodePage scripts unmarshal now html).err ≠ none ↔
        e.extractFromScript scripts unmarshal html = lit "" ∧
          e.extractFromB64Variable unmarshal html = lit "" ∧
          e.extractHLSSource html = lit "") ∧
      (e.extractFromScript scripts unmarshal html = lit "" →
        Method.b64Variable ∈ (e.decodePage scripts unmarshal now html).tried) ∧
      (e.extractFromScript scripts unmarshal html = lit "" →
        e.extractFromB64Variable unmarshal html = lit "" →
        Method.hlsPattern ∈ (e.decodePage scripts unmarshal now html).tried) := by
  unfold Extractor.decodePage
  simp only
  by_cases ha : e.extractFromScript scripts unmarshal html = lit ""
  · by_cases hb : e.extractFromB64Variable unmarshal html = lit ""
    · by_cases hc : e.extractHLSSource html = lit ""
      · simp [ha, hb, hc]
      · simp [ha, hb, hc]
    · simp [ha, hb]
  · simp [ha]

/-- The three outcomes of C11 on sample pages: Method A succeeds and is the only method
called; Method A finds a script element whose text does not decode and Method C, called
third, gives the link; no method yields anything. -/
theorem decodePage_samples :
    (New.decodePage fixture.scriptElements fixture.unmarshalSource 0
        fixture.twoScriptPage).tried = [.scriptTag] ∧
      (New.decodePage fixture.scriptElements fixture.unmarshalSource 0
        fixture.hlsPage).tried = [.scriptTag, .b64Variable, .hlsPattern] ∧
      ((New.decodePage fixture.scriptElements fixture.unmarshalSource 0
        fixture.hlsPage).link.map (fun link => link.URL)) = some fixture.sampleMedia ∧
      (New.decodePage fixture.scriptElements fixture.unmarshalSource 0
        fixture.emptyPage).err =
          some (.errorf (lit "failed to extract stream URL using all methods")) := by
  decide

/-- C15: whenever the page-level decoding returns no error, it returns a link, and the
link is fully populated: its `URL` is non-empty, its quality is one of 720p, 1080p,
1440p, 2160p, its provider is the decoder's `Name()`, and its expiry is two hours after
`now`; so a nil link never comes with a nil error. -/
theorem decodePage_link_populated (scripts : GoString → Option (List GoString))
    (unmarshal : GoString → Option JsonMap) (e : Extractor) (now : Int)
    (html : GoString) (h : (e.decodePage scripts unmarshal now html).err = none) :
    ∃ link, (e.decodePage scripts unmarshal now html).link = some link ∧
      link.URL ≠ lit "" ∧
      (link.Quality = models.Quality.Quality720p ∨
        link.Quality = models.Quality.Quality1080p ∨
        link.Quality = models.Quality.Quality1440p ∨
        link.Quality = models.Quality.Quality2160p) ∧
      link.Provider = e.Name ∧
      link.ExpiresAt = now + 2 * timeHour := by
  have hq : ∀ url, (e.createStreamURL now url).Quality = models.Quality.Quality720p ∨
      (e.createStreamURL now url).Quality = models.Quality.Quality1080p ∨
      (e.createStreamURL now url).Quality = models.Quality.Quality1440p ∨
      (e.createStreamURL now url).Quality = models.Quality.Quality2160p := by
    intro url
    cases (e.createStreamURL now url).Quality <;> simp
  revert h
  unfold Extractor.decodePage
  simp only
  split_ifs with ha hb hc
  · intro _
    exact ⟨_, rfl, ha, hq _, rfl, rfl⟩
  · intro _
    exact ⟨_, rfl, hb, hq _, rfl, rfl⟩
  · intro _
    exact ⟨_, rfl, hc, hq _, rfl, rfl⟩
  · intro h
    simp at h

/-- The witness of C15: the sample page with two script payloads, decoded by the
capability built by `New`, whose `Name()` is `VOE`. -/
theorem decodePage_link_populated_witness :
    ∃ link,
      (New.decodePage fixture.scriptElements fixture.unmarshalSource 0
        fixture.twoScriptPage).link = some link ∧
      link.URL ≠ lit "" ∧
      (link.Quality = models.Quality.Quality720p ∨
        link.Quality = models.Quality.Quality1080p ∨
        link.Quality = models.Quality.Quality1440p ∨
        link.Quality = models.Quality.Quality2160p) ∧
      link.Provider = lit "VOE" ∧
      link.ExpiresAt = 0 + 2 * timeHour :=
  decodePage_link_populated fixture.scriptElements fixture.unmarshalSource New 0
    fixture.twoScriptPage (by decide)

/-- The result of Method A when the last JSON script element decodes to a non-empty
source: that source, whatever the elements before it give. -/
theorem extractFromScript_last_wins (scripts : GoString → Option (List GoString))
    (unmarshal : GoString → Option JsonMap) (e : Extractor) (html : GoString)
    (before : List GoString) (text : GoString) (decoded : JsonMap) (source : GoString)
    (hs : scripts html = some (before ++ [text])) (hlen : text.length > 4)
    (hd : e.decodeVOEString unmarshal ((text.take (text.length - 2)).drop 2) = .ok decoded)
    (hsrc : decoded.stringAt (lit "source") = some source) (hne : source ≠ lit "") :
    e.extractFromScript scripts unmarshal html = source := by
  unfold Extractor.extractFromScript
  rw [hs]
  simp only [List.foldl_append, List.foldl_cons, List.foldl_nil]
  rw [if_pos hlen, hd]
  simp only
  rw [hsrc]
  simp only
  rw [if_pos hne]

/-- C18 (the code on a page with two decodable script elements): each of the two JSON
script elements of the sample page, alone on a page, gives its own source; on the page
holding both, in this order, `extractFromScript` returns the source of the second
element, not that of the first. -/
theorem extractFromScript_returns_last_source :
    (fixture.scriptElements fixture.twoScriptPage).map List.length = some 2 ∧
      New.extractFromScript fixture.scriptElements fixture.unmarshalSource
        (fixture.scriptElement (fixture.scriptText
          (fixture.inverseOrder (fixture.sourceJSON fixture.firstMedia) []))) =
        fixture.firstMedia ∧
      New.extractFromScript fixture.scriptElements fixture.unmarshalSource
        (fixture.scriptElement (fixture.scriptText
          (fixture.inverseOrder (fixture.sourceJSON fixture.secondMedia) []))) =
        fixture.secondMedia ∧
      New.extractFromScript fixture.scriptElements fixture.unmarshalSource
        fixture.twoScriptPage = fixture.secondMedia ∧
      fixture.secondMedia ≠ fixture.firstMedia := by
  decide

end voe

/-! ## The quoted-capture patterns -/

/-- The pattern matches at its literal text followed by a non-empty text without `'`
and a closing `'`, and captures that text. -/
theorem matchAt_lead (p : QuotedPattern) (blob post : GoString) (hne : blob ≠ [])
    (hq : 39 ∉ blob) : p.matchAt (p.lead ++ blob ++ 39 :: post) = some blob := by
  unfold QuotedPattern.matchAt
  have hp : hasPrefix (p.lead ++ blob ++ 39 :: post) p.lead = true := by
    rw [hasPrefix_iff, List.append_assoc]
    exact List.prefix_append _ _
  have hdrop : (p.lead ++ blob ++ 39 :: post).drop p.lead.length = blob ++ 39 :: post := by
    rw [List.append_assoc, List.drop_left]
  have htake : (blob ++ 39 :: post).takeWhile (fun c => c != 39) = blob := by
    rw [List.takeWhile_append_of_pos]
    · simp
    · intro a ha
      have : a ≠ 39 := fun h => hq (h ▸ ha)
      simpa using this
  rw [if_pos hp]
  simp only [hdrop, htake, List.drop_left, List.head?_cons]
  cases blob with
  | nil => exact absurd rfl hne
  | cons b bs => simp

/-- The leftmost match: when the literal text of the pattern occurs at no offset before
`pre.length`, the submatch found in `pre ++ lead ++ blob ++ "'" ++ post` is `blob`. -/
theorem FindStringSubmatch_first (p : QuotedPattern) (blob post : GoString)
    (hne : blob ≠ []) (hq : 39 ∉ blob) :
    ∀ pre : GoString,
      (∀ k, k < pre.length →
        hasPrefix ((pre ++ (p.lead ++ blob ++ 39 :: post)).drop k) p.lead = false) →
      p.FindStringSubmatch (pre ++ (p.lead ++ blob ++ 39 :: post)) = some blob := by
  intro pre
  induction pre with
  | nil =>
    intro _
    rw [List.nil_append]
    have hm := matchAt_lead p blob post hne hq
    cases hl : p.lead ++ blob ++ 39 :: post with
    | nil =>
      rw [hl] at hm
      rw [QuotedPattern.FindStringSubmatch]
      exact hm
    | cons c cs =>
      rw [hl] at hm
      rw [QuotedPattern.FindStringSubmatch, hm]
  | cons c pre ih =>
    intro hpre
    have h0 := hpre 0 (by simp)
    rw [List.drop_zero] at h0
    have hnone : p.matchAt (c :: pre ++ (p.lead ++ blob ++ 39 :: post)) = none := by
      unfold QuotedPattern.matchAt
      rw [h0]
      simp
    rw [List.cons_append] at hnone ⊢
    rw [QuotedPattern.FindStringSubmatch, hnone]
    simp only
    apply ih
    intro k hk
    have := hpre (k + 1) (by simp; omega)
    simpa using this

/-! ## `shiftBack`, `reverseString` and the exact inverse of the pipeline -/

namespace voe

/-- C21: for every byte string `s`, `shiftBack s 3` has the length of `s`, its byte at
position `i` is `(s[i] - 3) mod 256` (`0, 1, 2` become `253, 254, 255`), and adding 3
modulo 256 to every byte of the result gives `s` back. -/
theorem shiftBack_three (e : Extractor) (s : GoString) (h : ∀ c ∈ s, c < 256) :
    (e.shiftBack s 3).length = s.length ∧
      (∀ (i c : Nat), s[i]? = some c →
        ∃ d, (e.shiftBack s 3)[i]? = some d ∧ (d : Int) = ((c : Int) - 3) % 256 ∧
          d = (if 3 ≤ c then c - 3 else c + 253)) ∧
      (e.shiftBack s 3).map (fun d => (d + 3) % 256) = s ∧
      e.shiftBack [0, 1, 2] 3 = [253, 254, 255] := by
  have h3 : ((3 : Int) % 256).toNat = 3 := by decide
  refine ⟨?_, ?_, ?_, ?_⟩
  · simp only [Extractor.shiftBack, List.length_map]
  · intro i c hc
    have hlt : c < 256 := h c (List.mem_iff_getElem?.mpr ⟨i, hc⟩)
    refine ⟨(c + 256 - 3) % 256, ?_, ?_, ?_⟩
    · simp only [Extractor.shiftBack, List.getElem?_map, hc, Option.map_some', h3]
    · omega
    · split_ifs <;> omega
  · unfold Extractor.shiftBack
    rw [List.map_map]
    conv_rhs => rw [← List.map_id s]
    apply List.map_congr_left
    intro c hc
    have := h c hc
    simp only [Function.comp, id, h3]
    omega
  · rfl

/-- The witness of C21: a string holding the bytes 0, 1, 2, a letter and 255. -/
theorem shiftBack_three_witness :
    (New.shiftBack [0, 1, 2, 65, 255] 3).length = 5 ∧
      (New.shiftBack [0, 1, 2, 65, 255] 3).map (fun d => (d + 3) % 256) =
        [0, 1, 2, 65, 255] :=
  ⟨(shiftBack_three New [0, 1, 2, 65, 255] (by decide)).1,
    (shiftBack_three New [0, 1, 2, 65, 255] (by decide)).2.2.1⟩

/-- C25: for every text `j` that `json.Unmarshal` reads as an object, with `b` the
base64 text of `j` and `e = shiftLetters (base64 (add3 (reverse b)))`, where `add3` adds
3 to every byte, `decodeVOEString e` succeeds and returns the object read from `j`; so
for a `j` whose object has the string `u` as `source`, it recovers `u`. -/
theorem decodeVOEString_exact_inverse (unmarshal : GoString → Option JsonMap)
    (j : GoString) (obj : JsonMap) (hj : ∀ b ∈ j, b < 256)
    (hjson : unmarshal j = some obj) :
    New.decodeVOEString unmarshal
        (New.shiftLetters (base64Encode (fixture.add3 (base64Encode j).reverse))) =
        .ok obj ∧
      (∀ u, obj.stringAt (lit "source") = some u →
        ∃ decoded, New.decodeVOEString unmarshal
            (New.shiftLetters (base64Encode (fixture.add3 (base64Encode j).reverse))) =
            .ok decoded ∧ decoded.stringAt (lit "source") = some u) := by
  have hdec := decodeVOEString_inverseOrder unmarshal j [] hj
  rw [fixture.inverseOrder, fixture.insertJunk_nil, hjson] at hdec
  exact ⟨hdec, fun u hu => ⟨obj, hdec, hu⟩⟩

/-- The witness of C25: the object text of the first sample media URL. -/
theorem decodeVOEString_exact_inverse_witness :
    ∃ decoded, New.decodeVOEString (fixture.unmarshalOnly fixture.firstMedia)
        (New.shiftLetters (base64Encode (fixture.add3
          (base64Encode (fixture.sourceJSON fixture.firstMedia)).reverse))) = .ok decoded ∧
      decoded.stringAt (lit "source") = some (lit "https://cdn.example/first_720.m3u8") :=
  (decodeVOEString_exact_inverse (fixture.unmarshalOnly fixture.firstMedia)
    (fixture.sourceJSON fixture.firstMedia) _ (by decide) (if_pos rfl)).2 _ (by decide)

/-- C26: for every string `w` over the standard base64 alphabet (`A-Z`, `a-z`, `0-9`,
`+`, `/`, `=`) and every string obtained from `w` by putting whole junk tokens, any of
the seven, any number of them, before, between and after the bytes of `w`,
`replaceJunk` followed by the removal of all underscores gives `w` back. -/
theorem replaceJunk_undoes_insertion (w : GoString) (gaps : List (List (Fin 7)))
    (hw : ∀ c ∈ w, (65 ≤ c ∧ c ≤ 90) ∨ (97 ≤ c ∧ c ≤ 122) ∨ (48 ≤ c ∧ c ≤ 57) ∨
      c = 43 ∨ c = 47 ∨ c = 61) :
    replaceAll (New.replaceJunk (fixture.insertJunk w gaps)) (lit "_") (lit "") = w := by
  apply fixture.removeJunk_insertJunk
  intro c hc
  have hc2 := hw c hc
  refine ⟨?_, by omega⟩
  simp only [fixture.isJunkByte, Bool.or_eq_false_iff, decide_eq_false_iff_not]
  omega

/-- The witness of C26: the text `aGVsbG8=` with two tokens in front, `~@` after its
third byte and `^^^^` after its fifth; the junked text is spelled out. -/
theorem replaceJunk_undoes_insertion_witness :
    fixture.insertJunk (lit "aGVsbG8=") fixture.sampleGaps = lit "@$*~aGV~@sb^^^^G8=" ∧
      replaceAll (New.replaceJunk (lit "@$*~aGV~@sb^^^^G8=")) (lit "_") (lit "") =
        lit "aGVsbG8=" :=
  ⟨by decide,
    replaceJunk_undoes_insertion (lit "aGVsbG8=") fixture.sampleGaps (by decide)⟩

/-- C27 (as stated, refuted): the byte `0x80`, which `shiftBack` produces from `0x83`,
is not valid UTF-8; `reverseString` turns it into the three bytes of `U+FFFD`, so the
length changes and a second reversal does not give the input back. On the valid text
`é a` (bytes `C3 A9 20 61`) the runes are reversed, not the bytes: byte 0 of the result
is `61` but byte 1 is `20` and byte 2 is `C3`. -/
theorem reverseString_not_bytewise :
    New.shiftBack [0x83] 3 = [0x80] ∧
      reverseString [0x80] = [0xEF, 0xBF, 0xBD] ∧
      (reverseString [0x80]).length ≠ [0x80].length ∧
      reverseString (reverseString [0x80]) ≠ [0x80] ∧
      reverseString [0xC3, 0xA9, 0x20, 0x61] = [0x61, 0x20, 0xC3, 0xA9] ∧
      reverseString [0xC3, 0xA9, 0x20, 0x61] ≠ [0xC3, 0xA9, 0x20, 0x61].reverse := by
  decide

/-- C27 (amended): for every string `s` of ASCII bytes (bytes below `0x80`, as in the
base64 text that `decodeVOEString` reverses when its input is well formed),
`reverseString s` has the byte length of `s`, its byte at position `i` is the byte of
`s` at position `n - 1 - i`, and `reverseString (reverseString s) = s`. -/
theorem reverseString_ascii_involution (s : GoString) (h : ∀ c ∈ s, c < 128) :
    (reverseString s).length = s.length ∧
      (∀ i, i < s.length → (reverseString s)[i]? = s[s.length - 1 - i]?) ∧
      reverseString (reverseString s) = s := by
  have hrev := reverseString_ascii s h
  have hrr : ∀ c ∈ s.reverse, c < 128 := fun c hc => h c (List.mem_reverse.mp hc)
  refine ⟨?_, ?_, ?_⟩
  · rw [hrev, List.length_reverse]
  · intro i hi
    rw [hrev, List.getElem?_reverse hi]
  · rw [hrev, reverseString_ascii _ hrr, List.reverse_reverse]

/-- The witness of C27 (amended): the base64 text `aGVsbG8=`. -/
theorem reverseString_ascii_involution_witness :
    (reverseString (lit "aGVsbG8=")).length = 8 ∧
      reverseString (reverseString (lit "aGVsbG8=")) = lit "aGVsbG8=" :=
  ⟨(reverseString_ascii_involution (lit "aGVsbG8=") (by decide)).1,
    (reverseString_ascii_involution (lit "aGVsbG8=") (by decide)).2.2⟩

end voe

/-! ## `runWatch`: the flags and the TUI -/

namespace cmd

/-- For a season and an episode number that are not negative, exactly one of `needsTUI`
and the direct-play condition holds. -/
theorem needsTUI_xor_directPlay (animeName : GoString) (seasonNum episodeNum : Int)
    (hs : 0 ≤ seasonNum) (he : 0 ≤ episodeNum) :
    needsTUI animeName seasonNum episodeNum = !directPlay animeName seasonNum episodeNum := by
  unfold needsTUI directPlay
  rw [Bool.eq_iff_iff]
  simp only [Bool.or_eq_true, Bool.and_eq_true, beq_iff_eq, bne_iff_ne, ne_eq,
    decide_eq_true_eq, Bool.not_eq_true', Bool.and_eq_false_iff, decide_eq_false_iff_not]
  by_cases hn : animeName = lit ""
  · simp [hn]
  · simp only [hn, not_false_eq_true, true_and, false_or]
    have hb : (animeName != lit "") = true := bne_iff_ne.mpr hn
    constructor
    · rintro (h | ⟨h1, h2⟩)
      · exact Or.inl (Or.inr (by omega))
      · exact Or.inr (by omega)
    · rintro ((h | h) | h)
      · rw [hb] at h
        exact absurd h (by decide)
      · left
        omega
      · by_cases h0 : seasonNum = 0
        · exact Or.inl h0
        · right
          omega

/-- The two conditions never hold together. -/
theorem needsTUI_directPlay_exclusive (animeName : GoString) (seasonNum episodeNum : Int) :
    ¬ (needsTUI animeName seasonNum episodeNum = true ∧
      directPlay animeName seasonNum episodeNum = true) := by
  unfold needsTUI directPlay
  simp only [Bool.or_eq_true, Bool.and_eq_true, beq_iff_eq, bne_iff_ne, ne_eq,
    decide_eq_true_eq]
  rintro ⟨(h1 | ⟨_, h1⟩) | ⟨⟨_, h1⟩, h2⟩, ⟨hA, h3⟩, h4⟩
  · exact hA h1
  · omega
  · omega

/-- When neither number is negative, the TUI is started only after `canAccessTTY()` was
called and returned true. -/
theorem runWatch_tui_checked (env : Env) (animeName : GoString) (seasonNum episodeNum : Int)
    (hs : 0 ≤ seasonNum) (he : 0 ≤ episodeNum)
    (h : (runWatch env animeName seasonNum episodeNum).outcome = .tui) :
    (runWatch env animeName seasonNum episodeNum).ttyChecked = true ∧
      needsTUI animeName seasonNum episodeNum = true ∧ env.canAccessTTY = true := by
  have hx := needsTUI_xor_directPlay animeName seasonNum episodeNum hs he
  revert h
  unfold runWatch
  simp only
  cases hn : needsTUI animeName seasonNum episodeNum <;>
    cases hd : directPlay animeName seasonNum episodeNum <;>
    cases htty : env.canAccessTTY <;>
    cases env.configErr <;> cases env.providerErr <;> cases env.playerErr <;>
    simp_all

/-- C28 (the code on a negative season): with `--anime Naruto --season -1`, neither
`needsTUI` nor the direct-play condition holds; whatever `canAccessTTY()` would return,
it is not called, and when configuration, provider and player are available `runWatch`
starts the TUI. The same happens with `--season 1 --episode -1`. -/
theorem runWatch_negative_season_starts_tui :
    needsTUI (lit "Naruto") (-1) 0 = false ∧
      directPlay (lit "Naruto") (-1) 0 = false ∧
      (∀ tty : Bool,
        runWatch { canAccessTTY := tty, configErr := none, providerErr := none,
                   playerErr := none } (lit "Naruto") (-1) 0 = ⟨.tui, false⟩) ∧
      (∀ tty : Bool,
        runWatch { canAccessTTY := tty, configErr := none, providerErr := none,
                   playerErr := none } (lit "Naruto") 1 (-1) = ⟨.tui, false⟩) := by
  refine ⟨by decide, by decide, ?_, ?_⟩ <;> intro tty <;> cases tty <;> decide

end cmd

/-! ## The navigation state -/

namespace navigation

/-- The views reached from a named view by navigation calls are named views. -/
theorem moves_current_named (calls : List Move) :
    ∀ s : State,
      (s.current = AnimeView ∨ s.current = SeasonView ∨ s.current = EpisodeView ∨
        s.current = PlayerView) →
      ((s.moves calls).current = AnimeView ∨ (s.moves calls).current = SeasonView ∨
        (s.moves calls).current = EpisodeView ∨ (s.moves calls).current = PlayerView) := by
  induction calls with
  | nil => intro s hs; exact hs
  | cons m calls ih =>
    intro s hs
    show ((s.move m).moves calls).current = AnimeView ∨ _
    apply ih
    obtain ⟨cur, sel, w, h, q⟩ := s
    simp only at hs
    cases m <;> rcases hs with rfl | rfl | rfl | rfl <;>
      simp [State.move, State.NavigateForward, State.NavigateBack, AnimeView, SeasonView,
        EpisodeView, PlayerView]

/-- A navigation call changes no field other than `current`. -/
theorem move_frame (s : State) (m : Move) :
    (s.move m).selection = s.selection ∧ (s.move m).width = s.width ∧
      (s.move m).height = s.height ∧ (s.move m).quitting = s.quitting := by
  cases m
  · simp only [State.move, State.NavigateForward]
    split_ifs <;> exact ⟨rfl, rfl, rfl, rfl⟩
  · simp only [State.move, State.NavigateBack]
    split_ifs <;> exact ⟨rfl, rfl, rfl, rfl⟩

/-- A sequence of navigation calls changes no field other than `current`. -/
theorem moves_frame (calls : List Move) :
    ∀ s : State, (s.moves calls).selection = s.selection ∧
      (s.moves calls).width = s.width ∧ (s.moves calls).height = s.height ∧
      (s.moves calls).quitting = s.quitting := by
  induction calls with
  | nil => intro s; exact ⟨rfl, rfl, rfl, rfl⟩
  | cons m calls ih =>
    intro s
    obtain ⟨h1, h2, h3, h4⟩ := ih (s.move m)
    obtain ⟨f1, f2, f3, f4⟩ := move_frame s m
    exact ⟨h1.trans f1, h2.trans f2, h3.trans f3, h4.trans f4⟩

/-- C29: starting from `NewState` (whose view is `AnimeView`) and applying any sequence
of `NavigateForward` / `NavigateBack`, the current view is one of `AnimeView`,
`SeasonView`, `EpisodeView`, `PlayerView` (0 to 3) and each call moves it by at most one
step; `NavigateBack` after `NavigateForward` restores the state at every view except
`PlayerView`, where `NavigateForward` changes nothing; `NavigateForward` after
`NavigateBack` restores it at every view except `AnimeView`, where `NavigateBack`
changes nothing; and the selected anime, season and episode, the dimensions and the
quitting flag stay as they were. -/
theorem navigation_stays_in_range (calls : List Move) :
    NewState.current = AnimeView ∧
      (0 ≤ (NewState.moves calls).current ∧ (NewState.moves calls).current ≤ 3) ∧
      (∀ m : Move,
        |((NewState.moves calls).move m).current - (NewState.moves calls).current| ≤ 1) ∧
      ((NewState.moves calls).current ≠ PlayerView →
        (NewState.moves calls).NavigateForward.NavigateBack = NewState.moves calls) ∧
      ((NewState.moves calls).current = PlayerView →
        (NewState.moves calls).NavigateForward = NewState.moves calls ∧
        (NewState.moves calls).NavigateForward.NavigateBack ≠ NewState.moves calls) ∧
      ((NewState.moves calls).current ≠ AnimeView →
        (NewState.moves calls).NavigateBack.NavigateForward = NewState.moves calls) ∧
      ((NewState.moves calls).current = AnimeView →
        (NewState.moves calls).NavigateBack = NewState.moves calls ∧
        (NewState.moves calls).NavigateBack.NavigateForward ≠ NewState.moves calls) ∧
      ((NewState.moves calls).selection = NewState.selection ∧
        (NewState.moves calls).width = NewState.width ∧
        (NewState.moves calls).height = NewState.height ∧
        (NewState.moves calls).quitting = NewState.quitting) ∧
      (∀ (s : State) (m : Move), (s.move m).selection = s.selection ∧
        (s.move m).width = s.width ∧ (s.move m).height = s.height ∧
        (s.move m).quitting = s.quitting) := by
  have hcases := moves_current_named calls NewState (Or.inl rfl)
  have hf := moves_frame calls NewState
  generalize NewState.moves calls = s at hcases hf ⊢
  obtain ⟨cur, sel, w, h, q⟩ := s
  simp only at hcases hf
  have hr : (0 : Int) ≤ cur ∧ cur ≤ (3 : Int) := by
    rcases hcases with rfl | rfl | rfl | rfl <;> decide
  refine ⟨rfl, hr, ?_, ?_, ?_, ?_, ?_, hf, move_frame⟩
  · intro m
    cases m <;> rcases hcases with rfl | rfl | rfl | rfl <;>
      norm_num [State.move, State.NavigateForward, State.NavigateBack, AnimeView,
        SeasonView, EpisodeView, PlayerView]
  · intro hne
    rcases hcases with rfl | rfl | rfl | rfl <;>
      simp_all [State.NavigateForward, State.NavigateBack, AnimeView, SeasonView,
        EpisodeView, PlayerView]
  · intro heq
    rcases hcases with rfl | rfl | rfl | rfl <;>
      simp_all [State.NavigateForward, State.NavigateBack, AnimeView, SeasonView,
        EpisodeView, PlayerView]
  · intro hne
    rcases hcases with rfl | rfl | rfl | rfl <;>
      simp_all [State.NavigateForward, State.NavigateBack, AnimeView, SeasonView,
        EpisodeView, PlayerView]
  · intro heq
    rcases hcases with rfl | rfl | rfl | rfl <;>
      simp_all [State.NavigateForward, State.NavigateBack, AnimeView, SeasonView,
        EpisodeView, PlayerView]

end navigation

/-! ## Method A: the slice of the script text -/

namespace voe

/-- The checked callback agrees with the step of `extractFromScript` whenever it does
not panic, and it never panics. -/
theorem scriptCallback_eq (unmarshal : GoString → Option JsonMap) (e : Extractor)
    (result text : GoString) :
    e.scriptCallback unmarshal result text =
      some (if text.length > 4 then
        match e.decodeVOEString unmarshal ((text.take (text.length - 2)).drop 2) with
        | .ok decoded =>
          match decoded.stringAt (lit "source") with
          | some source => if source ≠ lit "" then source else result
          | none => result
        | .error _ => result
      else result) := by
  unfold Extractor.scriptCallback
  by_cases hlen : text.length > 4
  · have hs : sliceString text 2 ((text.length : Int) - 2) =
        some ((text.take (text.length - 2)).drop 2) := by
      unfold sliceString
      have h2 : ((text.length : Int) - 2).toNat = text.length - 2 := by omega
      rw [if_pos (by omega), h2]
      rfl
    rw [if_pos hlen, if_pos hlen, hs]
    simp only
    cases e.decodeVOEString unmarshal ((text.take (text.length - 2)).drop 2) with
    | error _ => rfl
    | ok decoded =>
      simp only
      cases decoded.stringAt (lit "source") with
      | none => rfl
      | some source =>
        simp only
        split_ifs <;> rfl
  · rw [if_neg hlen, if_neg hlen]

/-- Method A with the slice checked returns what `extractFromScript` returns. -/
theorem extractFromScriptChecked_eq (scripts : GoString → Option (List GoString))
    (unmarshal : GoString → Option JsonMap) (e : Extractor) (html : GoString) :
    e.extractFromScriptChecked scripts unmarshal html =
      some (e.extractFromScript scripts unmarshal html) := by
  unfold Extractor.extractFromScriptChecked Extractor.extractFromScript
  cases scripts html with
  | none => rfl
  | some texts =>
    simp only
    suffices h : ∀ init : GoString,
        List.foldl (e.scriptStep unmarshal) (some init) texts =
          some (List.foldl (fun result text =>
            if text.length > 4 then
              match e.decodeVOEString unmarshal ((text.take (text.length - 2)).drop 2) with
              | .ok decoded =>
                match decoded.stringAt (lit "source") with
                | some source => if source ≠ lit "" then source else result
                | none => result
              | .error _ => result
            else result) init texts) from h _
    induction texts with
    | nil => intro init; rfl
    | cons text texts ih =>
      intro init
      rw [List.foldl_cons, List.foldl_cons]
      have hstep : e.scriptStep unmarshal (some init) text =
          e.scriptCallback unmarshal init text := rfl
      rw [hstep, scriptCallback_eq]
      exact ih _

/-- C23: for every script text `t` of more than 4 bytes, the bounds of `t[2 : len(t)-2]`
are in range and the string handed to `decodeVOEString` is `t` without its first 2 and
its last 2 bytes; a text of 4 bytes or fewer is skipped, the result staying as it was;
so no call of the callback panics and Method A returns a string on every page. -/
theorem scriptCallback_slice_in_range (unmarshal : GoString → Option JsonMap)
    (e : Extractor) (result text : GoString) :
    (text.length > 4 →
        ∃ front middle back, text = front ++ middle ++ back ∧ front.length = 2 ∧
          back.length = 2 ∧
          sliceString text 2 ((text.length : Int) - 2) = some middle ∧
          e.scriptCallback unmarshal result text =
            some (match e.decodeVOEString unmarshal middle with
              | .ok decoded =>
                match decoded.stringAt (lit "source") with
                | some source => if source ≠ lit "" then source else result
                | none => result
              | .error _ => result)) ∧
      (text.length ≤ 4 → e.scriptCallback unmarshal result text = some result) ∧
      e.scriptCallback unmarshal result text ≠ none ∧
      (∀ (scripts : GoString → Option (List GoString)) (html : GoString),
        e.extractFromScriptChecked scripts unmarshal html =
          some (e.extractFromScript scripts unmarshal html)) := by
  refine ⟨?_, ?_, ?_, fun scripts html => extractFromScriptChecked_eq scripts unmarshal e html⟩
  · intro hlen
    refine ⟨text.take 2, (text.take (text.length - 2)).drop 2, text.drop (text.length - 2),
      ?_, ?_, ?_, ?_, ?_⟩
    · have h1 : text.take 2 = (text.take (text.length - 2)).take 2 := by
        rw [List.take_take]
        congr 1
        omega
      rw [h1, List.take_append_drop, List.take_append_drop]
    · rw [List.length_take]
      omega
    · rw [List.length_drop]
      omega
    · unfold sliceString
      have h2 : ((text.length : Int) - 2).toNat = text.length - 2 := by omega
      rw [if_pos (by omega), h2]
      rfl
    · rw [scriptCallback_eq, if_pos hlen]
  · intro hlen
    rw [scriptCallback_eq, if_neg (by omega)]
  · rw [scriptCallback_eq]
    exact Option.some_ne_none _

/-- Without the length test the slice would panic on a text of 3 bytes; on a text of 4
bytes it is the empty string. -/
theorem sliceString_short :
    sliceString (lit "abc") 2 ((3 : Int) - 2) = none ∧
      sliceString (lit "abcd") 2 ((4 : Int) - 2) = some (lit "") ∧
      sliceString (lit "[\"xy\"]") 2 ((6 : Int) - 2) = some (lit "xy") := by
  decide

/-! ## Method B -/

/-- The cases of `extractFromB64Variable`, in terms of the submatch found by its
pattern. -/
theorem extractFromB64Variable_cases (unmarshal : GoString → Option JsonMap)
    (e : Extractor) (html : GoString) :
    New.b64Pattern.lead = lit "var a168c='" ∧
      (∀ v, v ≠ lit "" →
        (e.extractFromB64Variable unmarshal html = v ↔
          ∃ blob decoded data, e.b64Pattern.FindStringSubmatch html = some blob ∧
            base64Decode blob = some decoded ∧
            unmarshal (reverseString decoded) = some data ∧
            data (lit "source") = some (JsonValue.string v))) ∧
      (e.b64Pattern.FindStringSubmatch html = none →
        e.extractFromB64Variable unmarshal html = lit "") ∧
      (∀ blob, e.b64Pattern.FindStringSubmatch html = some blob →
        base64Decode blob = none → e.extractFromB64Variable unmarshal html = lit "") ∧
      (∀ blob decoded, e.b64Pattern.FindStringSubmatch html = some blob →
        base64Decode blob = some decoded → unmarshal (reverseString decoded) = none →
        e.extractFromB64Variable unmarshal html = lit "") ∧
      (∀ blob decoded data, e.b64Pattern.FindStringSubmatch html = some blob →
        base64Decode blob = some decoded →
        unmarshal (reverseString decoded) = some data →
        (data (lit "source") = some (JsonValue.string (lit "")) ∨
          ∀ s, data (lit "source") ≠ some (JsonValue.string s)) →
        e.extractFromB64Variable unmarshal html = lit "") ∧
      (∀ decoded : GoString, (∀ c ∈ decoded, c < 128) →
        reverseString decoded = decoded.reverse) := by
  have hstr : ∀ (data : JsonMap) (v : GoString),
      data.stringAt (lit "source") = some v ↔
        data (lit "source") = some (JsonValue.string v) := by
    intro data v
    unfold JsonMap.stringAt
    cases hd : data (lit "source") with
    | none => simp
    | some x => cases x <;> simp
  refine ⟨rfl, ?_, ?_, ?_, ?_, ?_, reverseString_ascii⟩
  · intro v hv
    unfold Extractor.extractFromB64Variable
    cases hm : e.b64Pattern.FindStringSubmatch html with
    | none =>
      simp only
      constructor
      · intro h
        exact absurd h.symm hv
      · rintro ⟨blob2, decoded2, data2, h1, _⟩
        cases h1
    | some blob =>
      simp only
      cases hd : base64Decode blob with
      | none =>
        simp only
        constructor
        · intro h
          exact absurd h.symm hv
        · rintro ⟨blob2, decoded2, data2, h1, h2, _⟩
          cases h1
          rw [hd] at h2
          cases h2
      | some decoded =>
        simp only
        cases hu : unmarshal (reverseString decoded) with
        | none =>
          simp only
          constructor
          · intro h
            exact absurd h.symm hv
          · rintro ⟨blob2, decoded2, data2, h1, h2, h3, _⟩
            cases h1
            rw [hd] at h2
            cases h2
            rw [hu] at h3
            cases h3
        | some data =>
          simp only
          cases hs : data.stringAt (lit "source") with
          | none =>
            simp only
            constructor
            · intro h
              exact absurd h.symm hv
            · rintro ⟨blob2, decoded2, data2, h1, h2, h3, h4⟩
              cases h1
              rw [hd] at h2
              cases h2
              rw [hu] at h3
              cases h3
              rw [← hstr, hs] at h4
              cases h4
          | some source =>
            simp only
            constructor
            · intro h
              by_cases hne : source = lit ""
              · rw [if_neg (by simpa using hne)] at h
                exact absurd h.symm hv
              · rw [if_pos hne] at h
                subst h
                exact ⟨blob, decoded, data, rfl, hd, hu, (hstr _ _).mp hs⟩
            · rintro ⟨blob2, decoded2, data2, h1, h2, h3, h4⟩
              cases h1
              rw [hd] at h2
              cases h2
              rw [hu] at h3
              cases h3
              rw [← hstr, hs] at h4
              cases h4
              rw [if_pos hv]
  · intro hm
    exact extractFromB64Variable_no_match unmarshal e html hm
  · intro blob hm hd
    exact extractFromB64Variable_bad_base64 unmarshal e html blob hm hd
  · intro blob decoded hm hd hu
    unfold Extractor.extractFromB64Variable
    rw [hm]
    simp only
    rw [hd]
    simp only
    rw [hu]
  · intro blob decoded data hm hd hu hsrc
    unfold Extractor.extractFromB64Variable
    rw [hm]
    simp only
    rw [hd]
    simp only
    rw [hu]
    simp only
    rcases hsrc with h | h
    · rw [(hstr _ _).mpr h]
      simp
    · cases hs : data.stringAt (lit "source") with
      | none => rfl
      | some s => exact absurd ((hstr _ _).mp hs) (h s)

/-- Method B on sample pages: the page whose variable holds the base64 text of a
reversed object text gives the source of the object; the page without the variable
gives nothing. -/
theorem extractFromB64Variable_samples :
    New.extractFromB64Variable fixture.unmarshalSource fixture.b64Page =
        fixture.secondMedia ∧
      New.extractFromB64Variable fixture.unmarshalSource fixture.hlsPage = lit "" := by
  decide

end voe

/-! ## The redirect pattern -/

theorem head_dropWhile_false {α : Type} (f : α → Bool) :
    ∀ (l : List α) (c : α), (l.dropWhile f).head? = some c → f c = false := by
  intro l
  induction l with
  | nil => intro c h; simp at h
  | cons a l ih =>
    intro c h
    by_cases ha : f a = true
    · rw [List.dropWhile_cons_of_pos ha] at h
      exact ih c h
    · rw [List.dropWhile_cons_of_neg ha] at h
      simp only [List.head?_cons, Option.some.injEq] at h
      subst h
      simpa using ha

theorem drop_of_hasPrefix (s lead : GoString) (h : hasPrefix s lead = true) :
    s = lead ++ s.drop lead.length := by
  obtain ⟨t, ht⟩ := (hasPrefix_iff s lead).mp h
  rw [← ht, List.drop_left]

/-- A match of the URL pattern at the start of `s`: a scheme, then the longest run of
bytes outside the class, which is not empty. -/
theorem URLPattern.matchAt_some (p : URLPattern) (s m : GoString)
    (h : p.matchAt s = some m) :
    ∃ scheme run post, (scheme = lit "http://" ∨ scheme = lit "https://") ∧
      m = scheme ++ run ∧ s = scheme ++ run ++ post ∧ run ≠ [] ∧
      (∀ c ∈ run, c ∉ p.excluded) ∧ (∀ c, post.head? = some c → c ∈ p.excluded) := by
  have key : ∀ (scheme : GoString) (n : Nat), scheme.length = n →
      hasPrefix s scheme = true →
      (!((s.drop n).takeWhile (fun c => !p.excluded.contains c)).isEmpty) = true →
      m = scheme ++ (s.drop n).takeWhile (fun c => !p.excluded.contains c) →
      ∃ run post, m = scheme ++ run ∧ s = scheme ++ run ++ post ∧ run ≠ [] ∧
        (∀ c ∈ run, c ∉ p.excluded) ∧ (∀ c, post.head? = some c → c ∈ p.excluded) := by
    intro scheme n hn hp hne hm
    refine ⟨(s.drop n).takeWhile (fun c => !p.excluded.contains c),
      (s.drop n).dropWhile (fun c => !p.excluded.contains c), hm, ?_, ?_, ?_, ?_⟩
    · rw [List.append_assoc, List.takeWhile_append_dropWhile, ← hn]
      exact drop_of_hasPrefix s scheme hp
    · intro hnil
      rw [hnil] at hne
      simp at hne
    · intro c hc
      have := List.mem_takeWhile_imp hc
      simpa using this
    · intro c hc
      have := head_dropWhile_false _ _ c hc
      simpa using this
  unfold URLPattern.matchAt at h
  simp only at h
  split_ifs at h with h1 h2
  · rw [Bool.and_eq_true] at h1
    obtain ⟨run, post, hr⟩ := key (lit "https://") 8 rfl h1.1 h1.2 (Option.some.inj h).symm
    exact ⟨_, run, post, Or.inr rfl, hr⟩
  · rw [Bool.and_eq_true] at h2
    obtain ⟨run, post, hr⟩ := key (lit "http://") 7 rfl h2.1 h2.2 (Option.some.inj h).symm
    exact ⟨_, run, post, Or.inl rfl, hr⟩

/-- The pattern matches at the start of a text made of a scheme, a non-empty run of
bytes outside the class, and a rest that is empty or starts with a byte of the class;
the match is the scheme and the run. -/
theorem URLPattern.matchAt_of_parts (p : URLPattern) (scheme run post : GoString)
    (hs : scheme = lit "http://" ∨ scheme = lit "https://") (hne : run ≠ [])
    (hrun : ∀ c ∈ run, c ∉ p.excluded) (hpost : ∀ c, post.head? = some c → c ∈ p.excluded) :
    p.matchAt (scheme ++ run ++ post) = some (scheme ++ run) := by
  have htake : (run ++ post).takeWhile (fun c => !p.excluded.contains c) = run := by
    rw [List.takeWhile_append_of_pos]
    · cases post with
      | nil => simp
      | cons d ds =>
        have hd : d ∈ p.excluded := hpost d rfl
        rw [List.takeWhile_cons_of_neg (by simpa using hd), List.append_nil]
    · intro c hc
      simpa using hrun c hc
  have hrunne : (!run.isEmpty) = true := by
    cases run with
    | nil => exact absurd rfl hne
    | cons c cs => rfl
  unfold URLPattern.matchAt
  simp only
  rcases hs with rfl | rfl
  · have h1 : hasPrefix (lit "http://" ++ run ++ post) (lit "https://") = false := by
      cases run with
      | nil => exact absurd rfl hne
      | cons c cs => simp [hasPrefix, show lit "http://" = [104, 116, 116, 112, 58, 47, 47]
          from rfl, show lit "https://" = [104, 116, 116, 112, 115, 58, 47, 47] from rfl]
    have h2 : hasPrefix (lit "http://" ++ run ++ post) (lit "http://") = true := by
      rw [hasPrefix_iff, List.append_assoc]
      exact List.prefix_append _ _
    have hd : (lit "http://" ++ run ++ post).drop 7 = run ++ post := by
      rw [List.append_assoc]
      exact List.drop_left' rfl
    rw [h1, h2, hd, htake, hrunne]
    simp
  · have h1 : hasPrefix (lit "https://" ++ run ++ post) (lit "https://") = true := by
      rw [hasPrefix_iff, List.append_assoc]
      exact List.prefix_append _ _
    have hd : (lit "https://" ++ run ++ post).drop 8 = run ++ post := by
      rw [List.append_assoc]
      exact List.drop_left' rfl
    rw [h1, hd, htake, hrunne]
    simp

/-- The leftmost match: the first offset at which the pattern matches. -/
theorem URLPattern.search_some (p : URLPattern) :
    ∀ (s m : GoString), p.search s = some m →
      ∃ k, p.matchAt (s.drop k) = some m ∧ ∀ j, j < k → p.matchAt (s.drop j) = none := by
  intro s
  induction s with
  | nil =>
    intro m h
    exact ⟨0, h, fun j hj => absurd hj (Nat.not_lt_zero _)⟩
  | cons c cs ih =>
    intro m h
    rw [URLPattern.search] at h
    cases hm : p.matchAt (c :: cs) with
    | some m2 =>
      rw [hm] at h
      exact ⟨0, by rw [List.drop_zero, hm]; exact h,
        fun j hj => absurd hj (Nat.not_lt_zero _)⟩
    | none =>
      rw [hm] at h
      obtain ⟨k, hk, hlt⟩ := ih m h
      refine ⟨k + 1, hk, ?_⟩
      intro j hj
      cases j with
      | zero => exact hm
      | succ j => exact hlt j (by omega)

/-- No match anywhere when the search finds none. -/
theorem URLPattern.search_none (p : URLPattern) :
    ∀ (s : GoString), p.search s = none → ∀ k, p.matchAt (s.drop k) = none := by
  intro s
  induction s with
  | nil =>
    intro h k
    rw [List.drop_nil]
    exact h
  | cons c cs ih =>
    intro h k
    rw [URLPattern.search] at h
    cases hm : p.matchAt (c :: cs) with
    | some m2 =>
      rw [hm] at h
      cases h
    | none =>
      rw [hm] at h
      cases k with
      | zero => exact hm
      | succ k => exact ih h k

namespace voe

/-- The condition of the specification holds at an offset exactly when the pattern
matches there. -/
theorem redirectStartsAt_iff (body : GoString) (k : Nat) :
    redirectStartsAt body k ↔ New.redirectPattern.matchAt (body.drop k) ≠ none := by
  constructor
  · rintro ⟨scheme, c, hs, ⟨rest, hrest⟩, hc⟩
    have hdecomp : body.drop k =
        scheme ++ (c :: rest).takeWhile (fun x => !New.redirectPattern.excluded.contains x) ++
          (c :: rest).dropWhile (fun x => !New.redirectPattern.excluded.contains x) := by
      rw [List.append_assoc, List.takeWhile_append_dropWhile, ← hrest]
      simp
    have hpc : (!New.redirectPattern.excluded.contains c) = true := by
      simpa [New] using hc
    rw [hdecomp, URLPattern.matchAt_of_parts New.redirectPattern scheme _ _ hs]
    · exact Option.some_ne_none _
    · have hcons : (c :: rest).takeWhile
          (fun x => !New.redirectPattern.excluded.contains x) =
          c :: rest.takeWhile (fun x => !New.redirectPattern.excluded.contains x) :=
        List.takeWhile_cons_of_pos hpc
      rw [hcons]
      exact List.cons_ne_nil _ _
    · intro x hx
      simpa using List.mem_takeWhile_imp hx
    · intro x hx
      simpa using head_dropWhile_false _ _ x hx
  · intro h
    cases hm : New.redirectPattern.matchAt (body.drop k) with
    | none => exact absurd hm h
    | some m =>
      obtain ⟨scheme, run, post, hs, _, hd, hne, hrun, _⟩ :=
        URLPattern.matchAt_some _ _ _ hm
      cases run with
      | nil => exact absurd rfl hne
      | cons c cs =>
        refine ⟨scheme, c, hs, ⟨cs ++ post, ?_⟩, ?_⟩
        · rw [hd]
          simp
        · exact hrun c (List.mem_cons_self _ _)

/-- The text found by `FindString` with the redirect pattern, in terms of the search. -/
theorem FindString_eq_empty_iff (body : GoString) :
    New.redirectPattern.FindString body = lit "" ↔ New.redirectPattern.search body = none := by
  unfold URLPattern.FindString
  cases hs : New.redirectPattern.search body with
  | none => simp
  | some m =>
    obtain ⟨k, hk, _⟩ := URLPattern.search_some _ _ _ hs
    obtain ⟨scheme, run, post, hsch, hm, _, hne, _, _⟩ := URLPattern.matchAt_some _ _ _ hk
    simp only [reduceCtorEq, iff_false]
    intro h
    rw [hm] at h
    have : run = [] := (List.append_eq_nil.mp h).2
    exact hne this

/-- C24: for every response body, the text found by the redirect pattern
`https?://[^'"<>]+` is empty exactly when at no offset of the body a text `http://` or
`https://` is followed by a byte outside `'`, `"`, `<`, `>`; otherwise it is the scheme
and the longest run of such bytes (up to the next `'`, `"`, `<`, `>` or the end of the
body) at the leftmost such offset. When the embed page is fetched with status 200,
`Extract` fails with `no redirect URL found` exactly in the first case, and in the
second its next request is made for the text found. -/
theorem FindString_leftmost_url (body : GoString) :
    (New.redirectPattern.FindString body = lit "" ↔ ∀ k, ¬ redirectStartsAt body k) ∧
      (∀ m, m ≠ lit "" →
        (New.redirectPattern.FindString body = m ↔
          ∃ k scheme run post, body.drop k = scheme ++ run ++ post ∧
            (scheme = lit "http://" ∨ scheme = lit "https://") ∧ run ≠ [] ∧
            (∀ c ∈ run, c ∉ lit "'\"<>") ∧ (∀ c, post.head? = some c → c ∈ lit "'\"<>") ∧
            m = scheme ++ run ∧ ∀ j, j < k → ¬ redirectStartsAt body j)) ∧
      (∀ (t : Transport) (scripts : GoString → Option (List GoString))
          (unmarshal : GoString → Option JsonMap) (now : Int) (url : GoString)
          (resp : Response),
        t.newRequest url = none →
        t.Do 0 url (lit "Mozilla/5.0 (Windows NT 10.0; Win64; x64) AppleWebKit/537.36") =
          .ok resp →
        resp.StatusCode = 200 → resp.body = .ok body →
        (((New.Extract t scripts unmarshal now url).err =
            some (.errorf (lit "no redirect URL found")) ↔
          ∀ k, ¬ redirectStartsAt body k) ∧
        (New.redirectPattern.FindString body ≠ lit "" →
          t.newRequest (New.redirectPattern.FindString body) = none →
          (New.Extract t scripts unmarshal now url).requests =
            [(url, lit "Mozilla/5.0 (Windows NT 10.0; Win64; x64) AppleWebKit/537.36"),
              (New.redirectPattern.FindString body, lit "Mozilla/5.0")]))) := by
  have hA : New.redirectPattern.FindString body = lit "" ↔ ∀ k, ¬ redirectStartsAt body k := by
    rw [FindString_eq_empty_iff]
    constructor
    · intro h k hk
      exact (redirectStartsAt_iff body k).mp hk (URLPattern.search_none _ _ h k)
    · intro h
      cases hs : New.redirectPattern.search body with
      | none => rfl
      | some m =>
        obtain ⟨k, hk, _⟩ := URLPattern.search_some _ _ _ hs
        exact absurd ((redirectStartsAt_iff body k).mpr (by rw [hk]; exact Option.some_ne_none _))
          (h k)
  refine ⟨hA, ?_, ?_⟩
  · intro m hm
    constructor
    · intro hf
      cases hs : New.redirectPattern.search body with
      | none =>
        rw [URLPattern.FindString, hs] at hf
        exact absurd hf.symm hm
      | some m2 =>
        rw [URLPattern.FindString, hs] at hf
        simp only at hf
        subst hf
        obtain ⟨k, hk, hlt⟩ := URLPattern.search_some _ _ _ hs
        obtain ⟨scheme, run, post, hsch, hm2, hd, hne, hrun, hpost⟩ :=
          URLPattern.matchAt_some _ _ _ hk
        refine ⟨k, scheme, run, post, hd, hsch, hne, hrun, hpost, hm2, ?_⟩
        intro j hj hstart
        exact (redirectStartsAt_iff body j).mp hstart (hlt j hj)
    · rintro ⟨k, scheme, run, post, hd, hsch, hne, hrun, hpost, rfl, hlt⟩
      have hk : New.redirectPattern.matchAt (body.drop k) = some (scheme ++ run) := by
        rw [hd]
        exact URLPattern.matchAt_of_parts _ scheme run post hsch hne hrun hpost
      cases hs : New.redirectPattern.search body with
      | none =>
        have := URLPattern.search_none _ _ hs k
        rw [hk] at this
        cases this
      | some m2 =>
        rw [URLPattern.FindString, hs]
        simp only
        obtain ⟨k2, hk2, hlt2⟩ := URLPattern.search_some _ _ _ hs
        rcases Nat.lt_trichotomy k2 k with h | h | h
        · exact absurd ((redirectStartsAt_iff body k2).mpr
            (by rw [hk2]; exact Option.some_ne_none _)) (hlt k2 h)
        · subst h
          rw [hk] at hk2
          exact (Option.some.inj hk2).symm
        · have := hlt2 k h
          rw [hk] at this
          cases this
  · intro t scripts unmarshal now url resp hreq hdo hstatus hbody
    constructor
    · rw [← hA]
      unfold Extractor.Extract
      simp only [hreq, hdo, hstatus, hbody, ne_eq, not_true_eq_false, if_false]
      by_cases hf : New.redirectPattern.FindString body = lit ""
      · simp [hf]
      · simp only [hf, if_false, iff_false]
        cases t.newRequest (New.redirectPattern.FindString body) with
        | some err => simp
        | none =>
          simp only
          cases t.Do 1 (New.redirectPattern.FindString body) (lit "Mozilla/5.0") with
          | error err => simp
          | ok finalResp =>
            simp only
            cases finalResp.body with
            | error err => simp
            | ok finalBody =>
              simp only
              unfold Extractor.decodePage
              simp only
              split_ifs <;> first | (simp; done) | (simp; decide)
    · intro hf hreq2
      unfold Extractor.Extract
      simp only [hreq, hdo, hstatus, hbody, ne_eq, not_true_eq_false, if_false, hf, hreq2]
      cases t.Do 1 (New.redirectPattern.FindString body) (lit "Mozilla/5.0") with
      | error err => rfl
      | ok finalResp =>
        simp only
        cases finalResp.body with
        | error err => rfl
        | ok finalBody => rfl

/-- The redirect step on sample bodies: the URL stops at the closing quote; `https://`
followed at once by a quote is passed over for a later URL; a body with a bare scheme
has no redirect URL. -/
theorem FindString_samples :
    New.redirectPattern.FindString (lit "<a href='https://voe.example/e/abc1'>go</a>") =
        lit "https://voe.example/e/abc1" ∧
      New.redirectPattern.FindString (lit "x='https://' y=\"http://cdn.example/v\" z") =
        lit "http://cdn.example/v" ∧
      New.redirectPattern.FindString (lit "see http://<b>") = lit "" := by
  decide

end voe

/-! ## `calculateMatchScore` -/

theorem stringsToLower_ascii (lower : Nat → Nat) (s : GoString) (h : ∀ c ∈ s, c < 128) :
    stringsToLower lower s = s.map asciiLower := by
  unfold stringsToLower
  rw [if_pos]
  simpa using h

theorem utf8Encode_ne_nil (r : Nat) : utf8Encode r ≠ [] := by
  unfold utf8Encode
  split_ifs <;> exact List.cons_ne_nil _ _

theorem stringsToLower_ne_nil (lower : Nat → Nat) (s : GoString) (h : s ≠ []) :
    stringsToLower lower s ≠ [] := by
  cases s with
  | nil => exact absurd rfl h
  | cons c cs =>
    unfold stringsToLower
    split_ifs
    · exact List.cons_ne_nil _ _
    · unfold toRunes
      rw [toRunesAux]
      simp only [List.map_cons, fromRunes, List.flatMap_cons]
      intro hnil
      exact utf8Encode_ne_nil _ (List.append_eq_nil.mp hnil).1

/-- The counting loop of `calculateMatchScore` counts the words that pass the test. -/
theorem foldl_count_eq_countP {α : Type} (f : α → Bool) (l : List α) :
    ∀ n : Nat, l.foldl (fun (count : Nat) x => if f x then count + 1 else count) n =
      n + l.countP f := by
  induction l with
  | nil => intro n; simp
  | cons x l ih =>
    intro n
    rw [List.foldl_cons, ih]
    by_cases hx : f x = true
    · rw [if_pos hx, List.countP_cons_of_pos _ _ hx]
      omega
    · rw [if_neg hx, List.countP_cons_of_neg _ _ hx]


/-! ## The leftmost match of a quoted-capture pattern -/

/-- A match of a quoted-capture pattern at the start of `s`: the literal text, the
capture, which is not empty and holds no `'`, and a closing `'`. -/
theorem QuotedPattern.matchAt_parts (p : QuotedPattern) (s group : GoString)
    (h : p.matchAt s = some group) :
    ∃ rest, s = p.lead ++ group ++ 39 :: rest ∧ group ≠ [] ∧ 39 ∉ group := by
  unfold QuotedPattern.matchAt at h
  by_cases hp : hasPrefix s p.lead = true
  · rw [if_pos hp] at h
    simp only at h
    split_ifs at h with hc
    rw [Bool.and_eq_true] at hc
    have hg := (Option.some.inj h)
    have hs := drop_of_hasPrefix s p.lead hp
    have hsplit := List.takeWhile_append_dropWhile (fun c => c != 39) (s.drop p.lead.length)
    rw [hg] at hc hsplit
    have hdrop : (s.drop p.lead.length).drop group.length =
        (s.drop p.lead.length).dropWhile (fun c => c != 39) := by
      conv_lhs => rw [← hsplit]
      rw [List.drop_left]
    rw [hdrop] at hc
    have hhead : ((s.drop p.lead.length).dropWhile (fun c => c != 39)).head? = some 39 := by
      simpa using hc.2
    cases hdw : (s.drop p.lead.length).dropWhile (fun c => c != 39) with
    | nil => rw [hdw] at hhead; simp at hhead
    | cons d tail =>
      rw [hdw] at hhead hsplit
      simp only [List.head?_cons, Option.some.injEq] at hhead
      subst hhead
      refine ⟨tail, ?_, ?_, ?_⟩
      · rw [List.append_assoc, hsplit]
        exact hs
      · intro hnil
        rw [hnil] at hc
        simp at hc
      · intro hmem
        rw [← hg] at hmem
        have := List.mem_takeWhile_imp hmem
        simp at this
  · rw [if_neg hp] at h
    cases h

/-- The submatch found is the capture of the match at the first offset that has one. -/
theorem QuotedPattern.find_some (p : QuotedPattern) :
    ∀ (s group : GoString), p.FindStringSubmatch s = some group →
      ∃ k, p.matchAt (s.drop k) = some group ∧ ∀ j, j < k → p.matchAt (s.drop j) = none := by
  intro s
  induction s with
  | nil =>
    intro group h
    exact ⟨0, h, fun j hj => absurd hj (Nat.not_lt_zero _)⟩
  | cons c cs ih =>
    intro group h
    rw [QuotedPattern.FindStringSubmatch] at h
    cases hm : p.matchAt (c :: cs) with
    | some m2 =>
      rw [hm] at h
      exact ⟨0, by rw [List.drop_zero, hm]; exact h,
        fun j hj => absurd hj (Nat.not_lt_zero _)⟩
    | none =>
      rw [hm] at h
      obtain ⟨k, hk, hlt⟩ := ih group h
      refine ⟨k + 1, hk, ?_⟩
      intro j hj
      cases j with
      | zero => exact hm
      | succ j => exact hlt j (by omega)

/-- No offset has a match when no submatch is found. -/
theorem QuotedPattern.find_none (p : QuotedPattern) :
    ∀ (s : GoString), p.FindStringSubmatch s = none → ∀ k, p.matchAt (s.drop k) = none := by
  intro s
  induction s with
  | nil =>
    intro h k
    rw [List.drop_nil]
    exact h
  | cons c cs ih =>
    intro h k
    rw [QuotedPattern.FindStringSubmatch] at h
    cases hm : p.matchAt (c :: cs) with
    | some m2 =>
      rw [hm] at h
      cases h
    | none =>
      rw [hm] at h
      cases k with
      | zero => exact hm
      | succ k => exact ih h k

namespace voe

/-- The assignment of the specification starts at an offset exactly when the variable
pattern matches there with that capture. -/
theorem assignmentAt_iff (html : GoString) (k : Nat) (blob : GoString) :
    assignmentAt html k blob ↔ New.b64Pattern.matchAt (html.drop k) = some blob := by
  have hassoc : ∀ rest : GoString, lit "var a168c='" ++ blob ++ lit "'" ++ rest =
      New.b64Pattern.lead ++ blob ++ 39 :: rest := fun rest => List.append_assoc _ _ _
  constructor
  · rintro ⟨rest, hd, hne, hq⟩
    rw [hd, hassoc]
    exact matchAt_lead New.b64Pattern blob rest hne hq
  · intro h
    obtain ⟨rest, hs, hne, hq⟩ := QuotedPattern.matchAt_parts _ _ _ h
    exact ⟨rest, by rw [hassoc]; exact hs, hne, hq⟩

/-- The submatch found by the variable pattern is the text of the leftmost assignment. -/
theorem FindStringSubmatch_assignment (html blob : GoString) :
    New.b64Pattern.FindStringSubmatch html = some blob ↔
      ∃ k, assignmentAt html k blob ∧ ∀ j b, j < k → ¬ assignmentAt html j b := by
  constructor
  · intro h
    obtain ⟨k, hk, hlt⟩ := QuotedPattern.find_some _ _ _ h
    refine ⟨k, (assignmentAt_iff html k blob).mpr hk, ?_⟩
    intro j b hj hb
    have := (assignmentAt_iff html j b).mp hb
    rw [hlt j hj] at this
    cases this
  · rintro ⟨k, hk, hlt⟩
    have hk' := (assignmentAt_iff html k blob).mp hk
    cases hf : New.b64Pattern.FindStringSubmatch html with
    | none =>
      have := QuotedPattern.find_none _ _ hf k
      rw [hk'] at this
      cases this
    | some blob2 =>
      obtain ⟨k2, hk2, hlt2⟩ := QuotedPattern.find_some _ _ _ hf
      rcases Nat.lt_trichotomy k2 k with h | h | h
      · exact absurd ((assignmentAt_iff html k2 blob2).mpr hk2) (hlt k2 blob2 h)
      · subst h
        rw [hk'] at hk2
        exact hk2.symm
      · have := hlt2 k h
        rw [hk'] at this
        cases this

/-- No submatch is found exactly when the page has no assignment. -/
theorem FindStringSubmatch_no_assignment (html : GoString) :
    New.b64Pattern.FindStringSubmatch html = none ↔ ∀ k b, ¬ assignmentAt html k b := by
  constructor
  · intro h k b hb
    have := (assignmentAt_iff html k b).mp hb
    rw [QuotedPattern.find_none _ _ h k] at this
    cases this
  · intro h
    cases hf : New.b64Pattern.FindStringSubmatch html with
    | none => rfl
    | some blob =>
      obtain ⟨k, hk, _⟩ := QuotedPattern.find_some _ _ _ hf
      exact absurd ((assignmentAt_iff html k blob).mpr hk) (h k blob)

/-- C22: for every page text, Method B looks at the leftmost assignment
`var a168c='<blob>'` (the first offset at which `var a168c='` is followed by a non-empty
text without `'` and a closing `'`), and returns a non-empty `v` exactly when `blob` is
valid standard base64 whose decoding, reversed by `reverseString`, is read by
`json.Unmarshal` as an object with the string `v` as `source`; it returns the empty
string when the page has no such assignment, when the base64 is invalid, when the
reversed text is not read as an object, and when `source` is missing, not a string, or
empty. In particular a page whose leftmost assignment holds the base64 text of bytes
that, reversed, are read as an object with the non-empty string `v` as `source` gives
`v`. -/
theorem extractFromB64Variable_spec (unmarshal : GoString → Option JsonMap)
    (html : GoString) :
    (∀ v, v ≠ lit "" →
        (New.extractFromB64Variable unmarshal html = v ↔
          ∃ k blob decoded data, assignmentAt html k blob ∧
            (∀ j b, j < k → ¬ assignmentAt html j b) ∧
            base64Decode blob = some decoded ∧
            unmarshal (reverseString decoded) = some data ∧
            data (lit "source") = some (JsonValue.string v))) ∧
      ((∀ k b, ¬ assignmentAt html k b) →
        New.extractFromB64Variable unmarshal html = lit "") ∧
      (∀ k blob, assignmentAt html k blob → (∀ j b, j < k → ¬ assignmentAt html j b) →
        (base64Decode blob = none → New.extractFromB64Variable unmarshal html = lit "") ∧
        (∀ decoded, base64Decode blob = some decoded →
          unmarshal (reverseString decoded) = none →
          New.extractFromB64Variable unmarshal html = lit "") ∧
        (∀ decoded data, base64Decode blob = some decoded →
          unmarshal (reverseString decoded) = some data →
          (data (lit "source") = some (JsonValue.string (lit "")) ∨
            ∀ s, data (lit "source") ≠ some (JsonValue.string s)) →
          New.extractFromB64Variable unmarshal html = lit "")) ∧
      (∀ k decoded data v, assignmentAt html k (base64Encode decoded) →
        (∀ j b, j < k → ¬ assignmentAt html j b) → (∀ b ∈ decoded, b < 256) →
        unmarshal (reverseString decoded) = some data →
        data (lit "source") = some (JsonValue.string v) → v ≠ lit "" →
        New.extractFromB64Variable unmarshal html = v) ∧
      (∀ decoded : GoString, (∀ c ∈ decoded, c < 128) →
        reverseString decoded = decoded.reverse) := by
  obtain ⟨_, hiff, hnone, hbad, hjson, hsrc, hrev⟩ :=
    extractFromB64Variable_cases unmarshal New html
  have hmain : ∀ v, v ≠ lit "" →
      (New.extractFromB64Variable unmarshal html = v ↔
        ∃ k blob decoded data, assignmentAt html k blob ∧
          (∀ j b, j < k → ¬ assignmentAt html j b) ∧
          base64Decode blob = some decoded ∧
          unmarshal (reverseString decoded) = some data ∧
          data (lit "source") = some (JsonValue.string v)) := by
    intro v hv
    rw [hiff v hv]
    constructor
    · rintro ⟨blob, decoded, data, h1, h2, h3, h4⟩
      obtain ⟨k, hk, hlt⟩ := (FindStringSubmatch_assignment html blob).mp h1
      exact ⟨k, blob, decoded, data, hk, hlt, h2, h3, h4⟩
    · rintro ⟨k, blob, decoded, data, hk, hlt, h2, h3, h4⟩
      exact ⟨blob, decoded, data, (FindStringSubmatch_assignment html blob).mpr ⟨k, hk, hlt⟩,
        h2, h3, h4⟩
  refine ⟨hmain, ?_, ?_, ?_, hrev⟩
  · intro h
    exact hnone ((FindStringSubmatch_no_assignment html).mpr h)
  · intro k blob hk hlt
    have hf := (FindStringSubmatch_assignment html blob).mpr ⟨k, hk, hlt⟩
    exact ⟨fun h => hbad blob hf h, fun decoded h1 h2 => hjson blob decoded hf h1 h2,
      fun decoded data h1 h2 h3 => hsrc blob decoded data hf h1 h2 h3⟩
  · intro k decoded data v hk hlt hbytes hu hs hv
    exact (hmain v hv).mpr ⟨k, _, decoded, data, hk, hlt, base64Decode_encode decoded hbytes,
      hu, hs⟩

end voe
/-! ## `float64` rounding -/

theorem bitLengthAux_zero (fuel : Nat) : bitLengthAux fuel 0 = 0 := by
  cases fuel <;> simp [bitLengthAux]

theorem bitLengthAux_spec : ∀ (fuel n : Nat), n < 2 ^ fuel → 0 < n →
    2 ^ (bitLengthAux fuel n - 1) ≤ n ∧ n < 2 ^ bitLengthAux fuel n ∧
      0 < bitLengthAux fuel n := by
  intro fuel
  induction fuel with
  | zero =>
    intro n hn hpos
    simp at hn
    omega
  | succ fuel ih =>
    intro n hn hpos
    have hn0 : ¬ n = 0 := by omega
    simp only [bitLengthAux, hn0, if_false, Nat.add_sub_cancel]
    by_cases h2 : n / 2 = 0
    · rw [h2, bitLengthAux_zero]
      simp only [pow_zero, zero_add, pow_one]
      omega
    · have hlt : n / 2 < 2 ^ fuel := by
        rw [pow_succ] at hn
        omega
      obtain ⟨h1, h3, h4⟩ := ih (n / 2) hlt (by omega)
      have hk : 2 ^ bitLengthAux fuel (n / 2) = 2 * 2 ^ (bitLengthAux fuel (n / 2) - 1) := by
        rw [← pow_succ']
        congr 1
        omega
      rw [pow_succ]
      omega

theorem bitLength_spec (n : Nat) (hpos : 0 < n) :
    2 ^ (bitLength n - 1) ≤ n ∧ n < 2 ^ bitLength n ∧ 0 < bitLength n :=
  bitLengthAux_spec n n (Nat.lt_two_pow n) hpos

/-- The two scaled integers have the quotient `a / b * 2 ^ (-e)`. -/
theorem scaled_quotient (a b : Nat) (e : Int) (hb : 0 < b) :
    ((a * 2 ^ (-e).toNat : Nat) : ℚ) / ((b * 2 ^ e.toNat : Nat) : ℚ) =
      (a : ℚ) / (b : ℚ) * (2 : ℚ) ^ (-e) := by
  have hb' : (b : ℚ) ≠ 0 := by exact_mod_cast (Nat.pos_iff_ne_zero.mp hb)
  have h2 : (2 : ℚ) ≠ 0 := by norm_num
  rcases le_or_lt 0 e with he | he
  · have h1 : (-e).toNat = 0 := by omega
    have h3 : (e.toNat : Int) = e := Int.toNat_of_nonneg he
    rw [h1, pow_zero, mul_one, Nat.cast_mul, Nat.cast_pow, Nat.cast_ofNat, zpow_neg,
      ← h3, zpow_natCast, Int.toNat_natCast]
    field_simp
  · have h1 : e.toNat = 0 := by omega
    have h3 : ((-e).toNat : Int) = -e := Int.toNat_of_nonneg (by omega)
    rw [h1, pow_zero, mul_one, Nat.cast_mul, Nat.cast_pow, Nat.cast_ofNat, ← h3,
      zpow_natCast, Int.toNat_natCast]
    field_simp

theorem scaled_den_pos (b : Nat) (e : Int) (hb : 0 < b) : 0 < b * 2 ^ e.toNat :=
  Nat.mul_pos hb (by positivity)

theorem floorLog2_spec (a b : Nat) (ha : 0 < a) (hb : 0 < b) :
    (2 : ℚ) ^ floorLog2 a b ≤ (a : ℚ) / (b : ℚ) ∧
      (a : ℚ) / (b : ℚ) < (2 : ℚ) ^ (floorLog2 a b + 1) := by
  obtain ⟨a1, a2, a3⟩ := bitLength_spec a ha
  obtain ⟨b1, b2, b3⟩ := bitLength_spec b hb
  have hbq : (0 : ℚ) < (b : ℚ) := by exact_mod_cast hb
  have haq : (0 : ℚ) < (a : ℚ) := by exact_mod_cast ha
  have h2 : (2 : ℚ) ≠ 0 := by norm_num
  have ha1 : (2 : ℚ) ^ ((bitLength a : Int) - 1) ≤ (a : ℚ) := by
    have : ((2 ^ (bitLength a - 1) : Nat) : ℚ) ≤ (a : ℚ) := by exact_mod_cast a1
    rw [Nat.cast_pow, Nat.cast_ofNat, ← zpow_natCast] at this
    rwa [Nat.cast_sub (by omega), Nat.cast_one] at this
  have ha2 : (a : ℚ) < (2 : ℚ) ^ (bitLength a : Int) := by
    have : (a : ℚ) < ((2 ^ bitLength a : Nat) : ℚ) := by exact_mod_cast a2
    rwa [Nat.cast_pow, Nat.cast_ofNat, ← zpow_natCast] at this
  have hb1 : (2 : ℚ) ^ ((bitLength b : Int) - 1) ≤ (b : ℚ) := by
    have : ((2 ^ (bitLength b - 1) : Nat) : ℚ) ≤ (b : ℚ) := by exact_mod_cast b1
    rw [Nat.cast_pow, Nat.cast_ofNat, ← zpow_natCast] at this
    rwa [Nat.cast_sub (by omega), Nat.cast_one] at this
  have hb2 : (b : ℚ) < (2 : ℚ) ^ (bitLength b : Int) := by
    have : (b : ℚ) < ((2 ^ bitLength b : Nat) : ℚ) := by exact_mod_cast b2
    rwa [Nat.cast_pow, Nat.cast_ofNat, ← zpow_natCast] at this
  -- bounds on the quotient
  have hlow : (2 : ℚ) ^ ((bitLength a : Int) - (bitLength b : Int) - 1) ≤ (a : ℚ) / (b : ℚ) := by
    rw [le_div_iff₀ hbq]
    calc (2 : ℚ) ^ ((bitLength a : Int) - (bitLength b : Int) - 1) * (b : ℚ)
        ≤ (2 : ℚ) ^ ((bitLength a : Int) - (bitLength b : Int) - 1) *
            (2 : ℚ) ^ (bitLength b : Int) :=
          mul_le_mul_of_nonneg_left (le_of_lt hb2) (by positivity)
      _ = (2 : ℚ) ^ ((bitLength a : Int) - 1) := by
          rw [← zpow_add₀ h2]
          congr 1
          ring
      _ ≤ (a : ℚ) := ha1
  have hhigh : (a : ℚ) / (b : ℚ) < (2 : ℚ) ^ ((bitLength a : Int) - (bitLength b : Int) + 1) := by
    rw [div_lt_iff₀ hbq]
    calc (a : ℚ) < (2 : ℚ) ^ (bitLength a : Int) := ha2
      _ = (2 : ℚ) ^ ((bitLength a : Int) - (bitLength b : Int) + 1) *
            (2 : ℚ) ^ ((bitLength b : Int) - 1) := by
          rw [← zpow_add₀ h2]
          congr 1
          ring
      _ ≤ (2 : ℚ) ^ ((bitLength a : Int) - (bitLength b : Int) + 1) * (b : ℚ) :=
          mul_le_mul_of_nonneg_left hb1 (by positivity)
  -- the test
  have htest : b * 2 ^ ((bitLength a : Int) - (bitLength b : Int)).toNat ≤
        a * 2 ^ (-((bitLength a : Int) - (bitLength b : Int))).toNat ↔
      (2 : ℚ) ^ ((bitLength a : Int) - (bitLength b : Int)) ≤ (a : ℚ) / (b : ℚ) := by
    have hq := scaled_quotient a b ((bitLength a : Int) - (bitLength b : Int)) hb
    have hdpos : (0 : ℚ) <
        ((b * 2 ^ ((bitLength a : Int) - (bitLength b : Int)).toNat : Nat) : ℚ) := by
      exact_mod_cast scaled_den_pos b _ hb
    constructor
    · intro h
      have h' : ((b * 2 ^ ((bitLength a : Int) - (bitLength b : Int)).toNat : Nat) : ℚ) ≤
          ((a * 2 ^ (-((bitLength a : Int) - (bitLength b : Int))).toNat : Nat) : ℚ) := by
        exact_mod_cast h
      have h1 : (1 : ℚ) ≤ (a : ℚ) / (b : ℚ) *
          (2 : ℚ) ^ (-((bitLength a : Int) - (bitLength b : Int))) := by
        rw [← hq, le_div_iff₀ hdpos, one_mul]
        exact h'
      rw [zpow_neg] at h1
      have hp : (0 : ℚ) < (2 : ℚ) ^ ((bitLength a : Int) - (bitLength b : Int)) := by
        positivity
      rw [← div_eq_mul_inv, le_div_iff₀ hp, one_mul] at h1
      exact h1
    · intro h
      have hp : (0 : ℚ) < (2 : ℚ) ^ ((bitLength a : Int) - (bitLength b : Int)) := by
        positivity
      have h1 : (1 : ℚ) ≤ (a : ℚ) / (b : ℚ) *
          (2 : ℚ) ^ (-((bitLength a : Int) - (bitLength b : Int))) := by
        rw [zpow_neg, ← div_eq_mul_inv, le_div_iff₀ hp, one_mul]
        exact h
      rw [← hq, le_div_iff₀ hdpos, one_mul] at h1
      exact_mod_cast h1
  unfold floorLog2
  simp only
  by_cases ht : b * 2 ^ ((bitLength a : Int) - (bitLength b : Int)).toNat ≤
      a * 2 ^ (-((bitLength a : Int) - (bitLength b : Int))).toNat
  · rw [if_pos ht]
    exact ⟨htest.mp ht, hhigh⟩
  · rw [if_neg ht]
    refine ⟨hlow, ?_⟩
    have := lt_of_not_le (fun h => ht (htest.mpr h))
    rwa [sub_add_cancel]

/-- The two candidates of the rounding. -/
theorem roundHalfEven_cases (n d : Nat) :
    (roundHalfEven n d = n / d ∧ 2 * (n % d) ≤ d) ∨
      (roundHalfEven n d = n / d + 1 ∧ d ≤ 2 * (n % d)) := by
  unfold roundHalfEven
  simp only
  split_ifs with h1 h2 h3
  · exact Or.inl ⟨rfl, by omega⟩
  · exact Or.inr ⟨rfl, by omega⟩
  · exact Or.inl ⟨rfl, by omega⟩
  · exact Or.inr ⟨rfl, by omega⟩

theorem roundHalfEven_ge (n d k : Nat) (hd : 0 < d) (h : k * d ≤ n) :
    k ≤ roundHalfEven n d := by
  have hq : k ≤ n / d := (Nat.le_div_iff_mul_le hd).mpr h
  rcases roundHalfEven_cases n d with ⟨h1, _⟩ | ⟨h1, _⟩ <;> omega

theorem roundHalfEven_le (n d k : Nat) (hd : 0 < d) (h : n ≤ k * d) :
    roundHalfEven n d ≤ k := by
  have hdm := Nat.div_add_mod n d
  have hq : n / d ≤ k := by
    apply Nat.le_of_mul_le_mul_right _ hd
    calc n / d * d = d * (n / d) := Nat.mul_comm _ _
      _ ≤ n := by omega
      _ ≤ k * d := h
  rcases roundHalfEven_cases n d with ⟨h1, _⟩ | ⟨h1, h2⟩
  · omega
  · have hr : 0 < n % d := by omega
    have hlt : n / d * d < k * d := by
      calc n / d * d = d * (n / d) := Nat.mul_comm _ _
        _ < n := by omega
        _ ≤ k * d := h
    have := Nat.lt_of_mul_lt_mul_right hlt
    omega

theorem roundHalfEven_mono (n n' d : Nat) (h : n ≤ n') :
    roundHalfEven n d ≤ roundHalfEven n' d := by
  have hq : n / d ≤ n' / d := Nat.div_le_div_right h
  rcases Nat.lt_or_ge (n / d) (n' / d) with hlt | hge
  · have h1 : roundHalfEven n d ≤ n / d + 1 := by
      rcases roundHalfEven_cases n d with ⟨h, _⟩ | ⟨h, _⟩ <;> omega
    have h2 : n' / d ≤ roundHalfEven n' d := by
      rcases roundHalfEven_cases n' d with ⟨h, _⟩ | ⟨h, _⟩ <;> omega
    omega
  · have heq : n / d = n' / d := by omega
    have hm : n % d ≤ n' % d := by
      have e1 := Nat.div_add_mod n d
      have e2 := Nat.div_add_mod n' d
      rw [heq] at e1
      omega
    unfold roundHalfEven
    simp only
    rw [heq]
    split_ifs <;> omega

/-- The rounded integer is within one half of the quotient. -/
theorem roundHalfEven_err (n d : Nat) (hd : 0 < d) :
    |(roundHalfEven n d : ℚ) - (n : ℚ) / (d : ℚ)| ≤ 1 / 2 := by
  have hdq : (0 : ℚ) < (d : ℚ) := by exact_mod_cast hd
  have hdm : (n : ℚ) = (d : ℚ) * ((n / d : Nat) : ℚ) + ((n % d : Nat) : ℚ) := by
    exact_mod_cast (Nat.div_add_mod n d).symm
  have hquot : (n : ℚ) / (d : ℚ) = ((n / d : Nat) : ℚ) + ((n % d : Nat) : ℚ) / (d : ℚ) := by
    rw [hdm]
    field_simp
    ring
  rw [abs_le]
  rcases roundHalfEven_cases n d with ⟨h1, h2⟩ | ⟨h1, h2⟩
  · have h2q : 2 * ((n % d : Nat) : ℚ) ≤ (d : ℚ) := by exact_mod_cast h2
    have hr : ((n % d : Nat) : ℚ) / (d : ℚ) ≤ 1 / 2 := by
      rw [div_le_iff₀ hdq]
      linarith
    have hr0 : (0 : ℚ) ≤ ((n % d : Nat) : ℚ) / (d : ℚ) := by positivity
    rw [h1, hquot]
    constructor <;> linarith
  · have h2q : (d : ℚ) ≤ 2 * ((n % d : Nat) : ℚ) := by exact_mod_cast h2
    have hlt : ((n % d : Nat) : ℚ) < (d : ℚ) := by exact_mod_cast Nat.mod_lt n hd
    have hr : 1 / 2 ≤ ((n % d : Nat) : ℚ) / (d : ℚ) := by
      rw [le_div_iff₀ hdq]
      linarith
    have hr1 : ((n % d : Nat) : ℚ) / (d : ℚ) < 1 := by
      rw [div_lt_iff₀ hdq]
      linarith
    rw [h1, hquot, Nat.cast_add, Nat.cast_one]
    constructor <;> linarith

/-- The value of a rounded quotient: an integer of 53 binary digits, within one half of
the scaled quotient, times a power of two. -/
theorem Float64.round_spec (a b : Nat) (ha : 0 < a) (hb : 0 < b) :
    (Float64.round a b).toRat =
        (roundHalfEven (a * 2 ^ (-(floorLog2 a b - 52)).toNat)
          (b * 2 ^ (floorLog2 a b - 52).toNat) : ℚ) * (2 : ℚ) ^ (floorLog2 a b - 52) ∧
      2 ^ 52 ≤ roundHalfEven (a * 2 ^ (-(floorLog2 a b - 52)).toNat)
          (b * 2 ^ (floorLog2 a b - 52).toNat) ∧
      roundHalfEven (a * 2 ^ (-(floorLog2 a b - 52)).toNat)
          (b * 2 ^ (floorLog2 a b - 52).toNat) ≤ 2 ^ 53 ∧
      |(roundHalfEven (a * 2 ^ (-(floorLog2 a b - 52)).toNat)
          (b * 2 ^ (floorLog2 a b - 52).toNat) : ℚ) -
        (a : ℚ) / (b : ℚ) * (2 : ℚ) ^ (-(floorLog2 a b - 52))| ≤ 1 / 2 := by
  obtain ⟨hlo, hhi⟩ := floorLog2_spec a b ha hb
  generalize hf : floorLog2 a b = f at hlo hhi ⊢
  have h2 : (2 : ℚ) ≠ 0 := by norm_num
  have hD : 0 < b * 2 ^ (f - 52).toNat := scaled_den_pos b _ hb
  have hDq : (0 : ℚ) < ((b * 2 ^ (f - 52).toNat : Nat) : ℚ) := by exact_mod_cast hD
  have hq := scaled_quotient a b (f - 52) hb
  have hpos : (0 : ℚ) < (2 : ℚ) ^ (-(f - 52)) := by positivity
  -- the scaled quotient lies between 2^52 and 2^53
  have hlo' : ((2 ^ 52 : Nat) : ℚ) ≤ (a : ℚ) / (b : ℚ) * (2 : ℚ) ^ (-(f - 52)) := by
    have h1 : (2 : ℚ) ^ f * (2 : ℚ) ^ (-(f - 52)) = ((2 ^ 52 : Nat) : ℚ) := by
      rw [← zpow_add₀ h2]
      have : f + -(f - 52) = ((52 : Nat) : Int) := by
        push_cast
        ring
      rw [this, zpow_natCast]
      norm_num
    rw [← h1]
    exact mul_le_mul_of_nonneg_right hlo (le_of_lt hpos)
  have hhi' : (a : ℚ) / (b : ℚ) * (2 : ℚ) ^ (-(f - 52)) < ((2 ^ 53 : Nat) : ℚ) := by
    have h1 : (2 : ℚ) ^ (f + 1) * (2 : ℚ) ^ (-(f - 52)) = ((2 ^ 53 : Nat) : ℚ) := by
      rw [← zpow_add₀ h2]
      have : f + 1 + -(f - 52) = ((53 : Nat) : Int) := by
        push_cast
        ring
      rw [this, zpow_natCast]
      norm_num
    rw [← h1]
    exact mul_lt_mul_of_pos_right hhi hpos
  have hNlo : 2 ^ 52 * (b * 2 ^ (f - 52).toNat) ≤ a * 2 ^ (-(f - 52)).toNat := by
    rw [← hq, le_div_iff₀ hDq] at hlo'
    exact_mod_cast hlo'
  have hNhi : a * 2 ^ (-(f - 52)).toNat ≤ 2 ^ 53 * (b * 2 ^ (f - 52).toNat) := by
    rw [← hq, div_lt_iff₀ hDq] at hhi'
    have : a * 2 ^ (-(f - 52)).toNat < 2 ^ 53 * (b * 2 ^ (f - 52).toNat) := by
      exact_mod_cast hhi'
    exact le_of_lt this
  have hm1 := roundHalfEven_ge _ _ _ hD hNlo
  have hm2 := roundHalfEven_le _ _ _ hD hNhi
  have herr := roundHalfEven_err (a * 2 ^ (-(f - 52)).toNat) (b * 2 ^ (f - 52).toNat) hD
  rw [hq] at herr
  refine ⟨?_, hm1, hm2, herr⟩
  unfold Float64.round
  rw [if_neg (by omega), hf]
  simp only
  by_cases hm : roundHalfEven (a * 2 ^ (-(f - 52)).toNat) (b * 2 ^ (f - 52).toNat) = 2 ^ 53
  · rw [if_pos hm, hm]
    simp only [Float64.toRat]
    rw [zpow_add₀ h2]
    push_cast
    ring
  · rw [if_neg hm]
    rfl

theorem Float64.toRat_nonneg (x : Float64) : 0 ≤ x.toRat := by
  unfold Float64.toRat
  positivity

/-- The relative error of a rounding is at most `2 ^ -53`. -/
theorem Float64.round_err (a b : Nat) (ha : 0 < a) (hb : 0 < b) :
    |(Float64.round a b).toRat - (a : ℚ) / (b : ℚ)| ≤
      (a : ℚ) / (b : ℚ) * (2 : ℚ) ^ (-53 : Int) := by
  obtain ⟨hv, _, _, herr⟩ := Float64.round_spec a b ha hb
  obtain ⟨hlo, _⟩ := floorLog2_spec a b ha hb
  generalize floorLog2 a b = f at hv herr hlo
  generalize roundHalfEven (a * 2 ^ (-(f - 52)).toNat) (b * 2 ^ (f - 52).toNat) = m
    at hv herr
  have h2 : (2 : ℚ) ≠ 0 := by norm_num
  have hp : (0 : ℚ) < (2 : ℚ) ^ (f - 52) := by positivity
  have hx : (a : ℚ) / (b : ℚ) =
      (a : ℚ) / (b : ℚ) * (2 : ℚ) ^ (-(f - 52)) * (2 : ℚ) ^ (f - 52) := by
    rw [mul_assoc, ← zpow_add₀ h2, neg_add_cancel, zpow_zero, mul_one]
  have h1 : (Float64.round a b).toRat - (a : ℚ) / (b : ℚ) =
      ((m : ℚ) - (a : ℚ) / (b : ℚ) * (2 : ℚ) ^ (-(f - 52))) * (2 : ℚ) ^ (f - 52) := by
    rw [hv]
    conv_lhs => rw [hx]
    ring
  rw [h1, abs_mul, abs_of_pos hp]
  have h3 : (2 : ℚ) ^ (f - 52) * (1 / 2) ≤ (a : ℚ) / (b : ℚ) * (2 : ℚ) ^ (-53 : Int) := by
    have h4 : (2 : ℚ) ^ (f - 52) * (1 / 2) = (2 : ℚ) ^ f * (2 : ℚ) ^ (-53 : Int) := by
      have : (1 / 2 : ℚ) = (2 : ℚ) ^ (-1 : Int) := by norm_num
      rw [this, ← zpow_add₀ h2, ← zpow_add₀ h2]
      congr 1
      ring
    rw [h4]
    exact mul_le_mul_of_nonneg_right hlo (by positivity)
  calc |(m : ℚ) - (a : ℚ) / (b : ℚ) * (2 : ℚ) ^ (-(f - 52))| * (2 : ℚ) ^ (f - 52)
      ≤ 1 / 2 * (2 : ℚ) ^ (f - 52) := mul_le_mul_of_nonneg_right herr (le_of_lt hp)
    _ = (2 : ℚ) ^ (f - 52) * (1 / 2) := mul_comm _ _
    _ ≤ (a : ℚ) / (b : ℚ) * (2 : ℚ) ^ (-53 : Int) := h3

/-- Rounding does not pass a `float64` value: a quotient that is at most a value
`mc * 2 ^ ec` with `mc` of at most 53 binary digits rounds to at most that value. -/
theorem Float64.round_le (a b mc : Nat) (ec : Int) (ha : 0 < a) (hb : 0 < b)
    (hmc1 : 2 ^ 52 ≤ mc) (hmc2 : mc < 2 ^ 53)
    (h : (a : ℚ) / (b : ℚ) ≤ (mc : ℚ) * (2 : ℚ) ^ ec) :
    (Float64.round a b).toRat ≤ (mc : ℚ) * (2 : ℚ) ^ ec := by
  obtain ⟨hv, _, hm2, _⟩ := Float64.round_spec a b ha hb
  obtain ⟨hlo, _⟩ := floorLog2_spec a b ha hb
  generalize floorLog2 a b = f at hv hm2 hlo
  have h2 : (2 : ℚ) ≠ 0 := by norm_num
  have h21 : (1 : ℚ) < 2 := by norm_num
  have e52 : (2 : ℚ) ^ (52 : Int) = ((2 ^ 52 : Nat) : ℚ) := by norm_num
  have e53 : (2 : ℚ) ^ (53 : Int) = ((2 ^ 53 : Nat) : ℚ) := by norm_num
  have hmc1q : ((2 : ℚ) ^ (52 : Int)) ≤ (mc : ℚ) := by
    rw [e52]
    exact_mod_cast hmc1
  have hmc2q : (mc : ℚ) < ((2 : ℚ) ^ (53 : Int)) := by
    rw [e53]
    exact_mod_cast hmc2
  -- the exponents
  have hfe : f - 52 ≤ ec := by
    have h1 : (2 : ℚ) ^ f < (2 : ℚ) ^ (ec + 53) := by
      calc (2 : ℚ) ^ f ≤ (a : ℚ) / (b : ℚ) := hlo
        _ ≤ (mc : ℚ) * (2 : ℚ) ^ ec := h
        _ < (2 : ℚ) ^ (53 : Int) * (2 : ℚ) ^ ec :=
            mul_lt_mul_of_pos_right hmc2q (by positivity)
        _ = (2 : ℚ) ^ (ec + 53) := by
            rw [← zpow_add₀ h2]
            congr 1
            ring
    have := (zpow_lt_zpow_iff_right₀ h21).mp h1
    omega
  rw [hv]
  rcases lt_or_eq_of_le hfe with hlt | heq
  · have hmq : ((roundHalfEven (a * 2 ^ (-(f - 52)).toNat) (b * 2 ^ (f - 52).toNat) : Nat) : ℚ) ≤
        (2 : ℚ) ^ (53 : Int) := by
      rw [e53]
      exact_mod_cast hm2
    calc ((roundHalfEven (a * 2 ^ (-(f - 52)).toNat) (b * 2 ^ (f - 52).toNat) : Nat) : ℚ) *
          (2 : ℚ) ^ (f - 52)
        ≤ (2 : ℚ) ^ (53 : Int) * (2 : ℚ) ^ (f - 52) :=
          mul_le_mul_of_nonneg_right hmq (by positivity)
      _ = (2 : ℚ) ^ (f + 1) := by
          rw [← zpow_add₀ h2]
          congr 1
          ring
      _ ≤ (2 : ℚ) ^ (ec + 52) := zpow_le_zpow_right₀ (le_of_lt h21) (by omega)
      _ = (2 : ℚ) ^ (52 : Int) * (2 : ℚ) ^ ec := by
          rw [← zpow_add₀ h2]
          congr 1
          ring
      _ ≤ (mc : ℚ) * (2 : ℚ) ^ ec := mul_le_mul_of_nonneg_right hmc1q (by positivity)
  · rw [heq] at hm2 ⊢
    have hD : 0 < b * 2 ^ ec.toNat := scaled_den_pos b _ hb
    have hDq : (0 : ℚ) < ((b * 2 ^ ec.toNat : Nat) : ℚ) := by exact_mod_cast hD
    have hq := scaled_quotient a b ec hb
    have hN : a * 2 ^ (-ec).toNat ≤ mc * (b * 2 ^ ec.toNat) := by
      have h1 : (a : ℚ) / (b : ℚ) * (2 : ℚ) ^ (-ec) ≤ (mc : ℚ) := by
        have hp : (0 : ℚ) < (2 : ℚ) ^ ec := by positivity
        rw [zpow_neg, ← div_eq_mul_inv, div_le_iff₀ hp]
        exact h
      rw [← hq, div_le_iff₀ hDq] at h1
      exact_mod_cast h1
    have := roundHalfEven_le _ _ _ hD hN
    exact mul_le_mul_of_nonneg_right (by exact_mod_cast this) (by positivity)

/-- The value of a `Float64` as the quotient of its numerator and denominator. -/
theorem Float64.num_div_den (x : Float64) :
    (x.num : ℚ) / (x.den : ℚ) = x.toRat ∧ 0 < x.den := by
  have h := scaled_quotient x.mant 1 (-x.exp) (by decide)
  simp only [neg_neg, one_mul, Nat.cast_one, div_one] at h
  refine ⟨?_, ?_⟩
  · unfold Float64.num Float64.den Float64.toRat
    exact h
  · unfold Float64.den
    positivity

theorem roundHalfEven_one (n : Nat) : roundHalfEven n 1 = n := by
  unfold roundHalfEven
  simp only [Nat.mod_one, Nat.div_one]
  rw [if_pos (by decide)]

theorem Float64.round_zero (b : Nat) : Float64.round 0 b = ⟨0, 0⟩ := by
  simp [Float64.round]

theorem Float64.toRat_zero : (⟨0, 0⟩ : Float64).toRat = 0 := by
  simp [Float64.toRat]

/-- A rounded positive quotient has a mantissa of exactly 53 binary digits. -/
theorem Float64.round_mant (a b : Nat) (ha : 0 < a) (hb : 0 < b) :
    2 ^ 52 ≤ (Float64.round a b).mant ∧ (Float64.round a b).mant < 2 ^ 53 := by
  obtain ⟨_, hm1, hm2, _⟩ := Float64.round_spec a b ha hb
  unfold Float64.round
  rw [if_neg (by omega)]
  simp only
  split_ifs with hm
  · exact ⟨le_refl _, by norm_num⟩
  · exact ⟨hm1, lt_of_le_of_ne hm2 hm⟩

/-- An integer below `2 ^ 53` is converted without rounding. -/
theorem Float64.ofInt_exact (n : Nat) (h : n < 2 ^ 53) :
    (Float64.ofInt n).toRat = (n : ℚ) := by
  rcases Nat.eq_zero_or_pos n with h0 | hpos
  · subst h0
    rw [Float64.ofInt, Float64.round_zero, Float64.toRat_zero]
    simp
  · obtain ⟨hv, _, _, _⟩ := Float64.round_spec n 1 hpos (by decide)
    obtain ⟨hlo, _⟩ := floorLog2_spec n 1 hpos (by decide)
    generalize floorLog2 n 1 = f at hv hlo
    have h2 : (2 : ℚ) ≠ 0 := by norm_num
    have h21 : (1 : ℚ) < 2 := by norm_num
    have hf : f < 53 := by
      have h1 : (2 : ℚ) ^ f < (2 : ℚ) ^ (53 : Int) := by
        have e53 : (2 : ℚ) ^ (53 : Int) = ((2 ^ 53 : Nat) : ℚ) := by norm_num
        rw [e53]
        calc (2 : ℚ) ^ f ≤ (n : ℚ) / ((1 : Nat) : ℚ) := hlo
          _ = (n : ℚ) := by simp
          _ < ((2 ^ 53 : Nat) : ℚ) := by exact_mod_cast h
      exact (zpow_lt_zpow_iff_right₀ h21).mp h1
    have hD : (f - 52).toNat = 0 := by omega
    have hk : ((-(f - 52)).toNat : Int) = -(f - 52) := Int.toNat_of_nonneg (by omega)
    rw [Float64.ofInt, hv, hD, pow_zero, mul_one, roundHalfEven_one, Nat.cast_mul,
      Nat.cast_pow, Nat.cast_ofNat, ← zpow_natCast, hk, mul_assoc, ← zpow_add₀ h2,
      neg_add_cancel, zpow_zero, mul_one]

/-- The conversion of integers is monotone. -/
theorem Float64.ofInt_mono (n n' : Nat) (h : n ≤ n') :
    (Float64.ofInt n).toRat ≤ (Float64.ofInt n').toRat := by
  rcases Nat.eq_zero_or_pos n with h0 | hpos
  · subst h0
    rw [Float64.ofInt, Float64.round_zero, Float64.toRat_zero]
    exact Float64.toRat_nonneg _
  · have hpos' : 0 < n' := lt_of_lt_of_le hpos h
    obtain ⟨hv, _, hm2, _⟩ := Float64.round_spec n 1 hpos (by decide)
    obtain ⟨hv', hm1', _, _⟩ := Float64.round_spec n' 1 hpos' (by decide)
    obtain ⟨hlo, _⟩ := floorLog2_spec n 1 hpos (by decide)
    obtain ⟨_, hhi'⟩ := floorLog2_spec n' 1 hpos' (by decide)
    generalize floorLog2 n 1 = f at hv hm2 hlo
    generalize floorLog2 n' 1 = f' at hv' hm1' hhi'
    have h2 : (2 : ℚ) ≠ 0 := by norm_num
    have h21 : (1 : ℚ) < 2 := by norm_num
    have e52 : (2 : ℚ) ^ (52 : Int) = ((2 ^ 52 : Nat) : ℚ) := by norm_num
    have e53 : (2 : ℚ) ^ (53 : Int) = ((2 ^ 53 : Nat) : ℚ) := by norm_num
    have hff : f ≤ f' := by
      have h1 : (2 : ℚ) ^ f < (2 : ℚ) ^ (f' + 1) := by
        calc (2 : ℚ) ^ f ≤ (n : ℚ) / ((1 : Nat) : ℚ) := hlo
          _ ≤ (n' : ℚ) / ((1 : Nat) : ℚ) := by
              simp only [Nat.cast_one, div_one]
              exact_mod_cast h
          _ < (2 : ℚ) ^ (f' + 1) := hhi'
      have := (zpow_lt_zpow_iff_right₀ h21).mp h1
      omega
    rw [Float64.ofInt, Float64.ofInt, hv, hv']
    rcases lt_or_eq_of_le hff with hlt | heq
    · calc ((roundHalfEven (n * 2 ^ (-(f - 52)).toNat) (1 * 2 ^ (f - 52).toNat) : Nat) : ℚ) *
            (2 : ℚ) ^ (f - 52)
          ≤ (2 : ℚ) ^ (53 : Int) * (2 : ℚ) ^ (f - 52) := by
            apply mul_le_mul_of_nonneg_right _ (by positivity)
            rw [e53]
            exact_mod_cast hm2
        _ = (2 : ℚ) ^ (f + 1) := by
            rw [← zpow_add₀ h2]
            congr 1
            ring
        _ ≤ (2 : ℚ) ^ f' := zpow_le_zpow_right₀ (le_of_lt h21) (by omega)
        _ = (2 : ℚ) ^ (52 : Int) * (2 : ℚ) ^ (f' - 52) := by
            rw [← zpow_add₀ h2]
            congr 1
            ring
        _ ≤ ((roundHalfEven (n' * 2 ^ (-(f' - 52)).toNat) (1 * 2 ^ (f' - 52).toNat) : Nat) : ℚ) *
            (2 : ℚ) ^ (f' - 52) := by
            apply mul_le_mul_of_nonneg_right _ (by positivity)
            rw [e52]
            exact_mod_cast hm1'
    · subst heq
      apply mul_le_mul_of_nonneg_right _ (by positivity)
      have := roundHalfEven_mono (n * 2 ^ (-(f - 52)).toNat) (n' * 2 ^ (-(f - 52)).toNat)
        (1 * 2 ^ (f - 52).toNat) (Nat.mul_le_mul_right _ h)
      exact_mod_cast this

/-- The exact value that `Float64.div` rounds. -/
theorem Float64.div_exact (x y : Float64) (hy : 0 < y.mant) :
    ((x.num * y.den : Nat) : ℚ) / ((x.den * y.num : Nat) : ℚ) = x.toRat / y.toRat ∧
      0 < x.den * y.num := by
  obtain ⟨hx1, hx2⟩ := Float64.num_div_den x
  obtain ⟨hy1, hy2⟩ := Float64.num_div_den y
  have hynum : 0 < y.num := by
    unfold Float64.num
    positivity
  have hxd : (x.den : ℚ) ≠ 0 := by exact_mod_cast (Nat.pos_iff_ne_zero.mp hx2)
  have hyd : (y.den : ℚ) ≠ 0 := by exact_mod_cast (Nat.pos_iff_ne_zero.mp hy2)
  have hyn : (y.num : ℚ) ≠ 0 := by exact_mod_cast (Nat.pos_iff_ne_zero.mp hynum)
  refine ⟨?_, Nat.mul_pos hx2 hynum⟩
  rw [← hx1, ← hy1]
  push_cast
  field_simp

/-- The exact value that `Float64.mul` rounds. -/
theorem Float64.mul_exact (x y : Float64) :
    ((x.num * y.num : Nat) : ℚ) / ((x.den * y.den : Nat) : ℚ) = x.toRat * y.toRat ∧
      0 < x.den * y.den := by
  obtain ⟨hx1, hx2⟩ := Float64.num_div_den x
  obtain ⟨hy1, hy2⟩ := Float64.num_div_den y
  have hxd : (x.den : ℚ) ≠ 0 := by exact_mod_cast (Nat.pos_iff_ne_zero.mp hx2)
  have hyd : (y.den : ℚ) ≠ 0 := by exact_mod_cast (Nat.pos_iff_ne_zero.mp hy2)
  refine ⟨?_, Nat.mul_pos hx2 hy2⟩
  rw [← hx1, ← hy1]
  push_cast
  field_simp

theorem Float64.num_pos (x : Float64) (hx : 0 < x.mant) : 0 < x.num := by
  unfold Float64.num
  positivity

theorem Float64.toRat_pos (x : Float64) (hx : 0 < x.mant) : 0 < x.toRat := by
  unfold Float64.toRat
  have : (0 : ℚ) < (x.mant : ℚ) := by exact_mod_cast hx
  positivity

/-- A quotient of a value by one that is not smaller is at most 1. -/
theorem Float64.quotient_le_one (x y : Float64) (hy : 0 < y.mant)
    (h : x.toRat ≤ y.toRat) :
    (x.div y).toRat ≤ 1 := by
  obtain ⟨hq, hb⟩ := Float64.div_exact x y hy
  unfold Float64.div
  rcases Nat.eq_zero_or_pos (x.num * y.den) with h0 | hpos
  · rw [h0, Float64.round_zero, Float64.toRat_zero]
    norm_num
  · have hle := Float64.round_le (x.num * y.den) (x.den * y.num) (2 ^ 52) (-52) hpos hb
      (le_refl _) (by norm_num) (by
        rw [hq]
        have hypos := Float64.toRat_pos y hy
        have : x.toRat / y.toRat ≤ 1 := (div_le_one hypos).mpr h
        calc x.toRat / y.toRat ≤ 1 := this
          _ = ((2 ^ 52 : Nat) : ℚ) * (2 : ℚ) ^ (-52 : Int) := by norm_num)
    calc (Float64.round (x.num * y.den) (x.den * y.num)).toRat
        ≤ ((2 ^ 52 : Nat) : ℚ) * (2 : ℚ) ^ (-52 : Int) := hle
      _ = 1 := by norm_num

theorem Float64.ofInt_fifty : Float64.ofInt 50 = ⟨7036874417766400, -47⟩ := by decide

/-- A product of a value that is at most 1 by `50.0` is at most 50. -/
theorem Float64.mul_fifty_le (x : Float64) (h : x.toRat ≤ 1) :
    (x.mul (Float64.ofInt 50)).toRat ≤ 50 := by
  obtain ⟨hq, hb⟩ := Float64.mul_exact x (Float64.ofInt 50)
  have h50 : (Float64.ofInt 50).toRat = 50 := by
    rw [Float64.ofInt_exact 50 (by norm_num)]
    norm_num
  unfold Float64.mul
  rcases Nat.eq_zero_or_pos (x.num * (Float64.ofInt 50).num) with h0 | hpos
  · rw [h0, Float64.round_zero, Float64.toRat_zero]
    norm_num
  · have hle := Float64.round_le (x.num * (Float64.ofInt 50).num)
      (x.den * (Float64.ofInt 50).den) 7036874417766400 (-47) hpos hb
      (by norm_num) (by norm_num) (by
        rw [hq, h50]
        have : x.toRat * 50 ≤ 1 * 50 := mul_le_mul_of_nonneg_right h (by norm_num)
        calc x.toRat * 50 ≤ 1 * 50 := this
          _ = ((7036874417766400 : Nat) : ℚ) * (2 : ℚ) ^ (-47 : Int) := by norm_num)
    calc (Float64.round (x.num * (Float64.ofInt 50).num)
          (x.den * (Float64.ofInt 50).den)).toRat
        ≤ ((7036874417766400 : Nat) : ℚ) * (2 : ℚ) ^ (-47 : Int) := hle
      _ = 50 := by norm_num

/-- The value computed for `n` of `m` words, `float64(n) / float64(m) * 50.0`: it is
between 0 and 50. -/
theorem Float64.ratio_fifty_bounds (n m : Nat) (hm : 0 < m) (h : n ≤ m) :
    0 ≤ (((Float64.ofInt n).div (Float64.ofInt m)).mul (Float64.ofInt 50)).toRat ∧
      (((Float64.ofInt n).div (Float64.ofInt m)).mul (Float64.ofInt 50)).toRat ≤ 50 := by
  refine ⟨Float64.toRat_nonneg _, ?_⟩
  apply Float64.mul_fifty_le
  apply Float64.quotient_le_one
  · have := (Float64.round_mant m 1 hm (by decide)).1
    unfold Float64.ofInt
    omega
  · exact Float64.ofInt_mono n m h

/-- The value computed for `n` of `m` words differs from `50 * n / m` by at most the
relative error `2 ^ -51`, the word counts being below `2 ^ 53`. -/
theorem Float64.ratio_fifty_err (n m : Nat) (hm : 0 < m) (h : n ≤ m)
    (hm53 : m < 2 ^ 53) :
    |(((Float64.ofInt n).div (Float64.ofInt m)).mul (Float64.ofInt 50)).toRat -
        50 * (n : ℚ) / (m : ℚ)| ≤ 50 * (n : ℚ) / (m : ℚ) * (2 : ℚ) ^ (-51 : Int) := by
  have hmq : (0 : ℚ) < (m : ℚ) := by exact_mod_cast hm
  rcases Nat.eq_zero_or_pos n with h0 | hn
  · subst h0
    have hz : (Float64.ofInt 0) = ⟨0, 0⟩ := Float64.round_zero 1
    have hd : (Float64.ofInt 0).div (Float64.ofInt m) = ⟨0, 0⟩ := by
      rw [hz]
      unfold Float64.div
      have : (⟨0, 0⟩ : Float64).num = 0 := by simp [Float64.num]
      rw [this, Nat.zero_mul, Float64.round_zero]
    have hmul : (⟨0, 0⟩ : Float64).mul (Float64.ofInt 50) = ⟨0, 0⟩ := by
      unfold Float64.mul
      have : (⟨0, 0⟩ : Float64).num = 0 := by simp [Float64.num]
      rw [this, Nat.zero_mul, Float64.round_zero]
    rw [hd, hmul, Float64.toRat_zero]
    simp
  · have hnq : (0 : ℚ) < (n : ℚ) := by exact_mod_cast hn
    have hX := Float64.ofInt_exact n (by omega)
    have hY := Float64.ofInt_exact m hm53
    have hF : (Float64.ofInt 50).toRat = 50 := by
      rw [Float64.ofInt_exact 50 (by norm_num)]
      norm_num
    have hYm : 0 < (Float64.ofInt m).mant := by
      have := (Float64.round_mant m 1 hm (by decide)).1
      unfold Float64.ofInt
      omega
    have hXm : 0 < (Float64.ofInt n).mant := by
      have := (Float64.round_mant n 1 hn (by decide)).1
      unfold Float64.ofInt
      omega
    -- the quotient
    obtain ⟨hq, hqb⟩ := Float64.div_exact (Float64.ofInt n) (Float64.ofInt m) hYm
    have hqa : 0 < (Float64.ofInt n).num * (Float64.ofInt m).den :=
      Nat.mul_pos (Float64.num_pos _ hXm) (Float64.num_div_den _).2
    have herr1 := Float64.round_err _ _ hqa hqb
    have hqm := (Float64.round_mant _ _ hqa hqb).1
    rw [hq, hX, hY] at herr1
    -- the product
    obtain ⟨hp, hpb⟩ := Float64.mul_exact ((Float64.ofInt n).div (Float64.ofInt m))
      (Float64.ofInt 50)
    have hQm : 0 < ((Float64.ofInt n).div (Float64.ofInt m)).mant := by
      unfold Float64.div
      omega
    have hFm : 0 < (Float64.ofInt 50).mant := by
      rw [Float64.ofInt_fifty]
      norm_num
    have hpa : 0 < ((Float64.ofInt n).div (Float64.ofInt m)).num * (Float64.ofInt 50).num :=
      Nat.mul_pos (Float64.num_pos _ hQm) (Float64.num_pos _ hFm)
    have herr2 := Float64.round_err _ _ hpa hpb
    rw [hp, hF] at herr2
    -- together
    have hu : (2 : ℚ) ^ (-53 : Int) = 1 / 9007199254740992 := by norm_num
    have hu' : (2 : ℚ) ^ (-51 : Int) = 1 / 2251799813685248 := by norm_num
    rw [hu] at herr1 herr2
    rw [hu']
    generalize hQ : (Float64.round ((Float64.ofInt n).num * (Float64.ofInt m).den)
      ((Float64.ofInt n).den * (Float64.ofInt m).num)).toRat = Q at herr1
    have hQ' : ((Float64.ofInt n).div (Float64.ofInt m)).toRat = Q := hQ
    rw [hQ'] at herr2
    have hS : (((Float64.ofInt n).div (Float64.ofInt m)).mul (Float64.ofInt 50)).toRat =
        (Float64.round (((Float64.ofInt n).div (Float64.ofInt m)).num * (Float64.ofInt 50).num)
          (((Float64.ofInt n).div (Float64.ofInt m)).den * (Float64.ofInt 50).den)).toRat := rfl
    rw [hS]
    generalize (Float64.round (((Float64.ofInt n).div (Float64.ofInt m)).num *
      (Float64.ofInt 50).num)
      (((Float64.ofInt n).div (Float64.ofInt m)).den * (Float64.ofInt 50).den)).toRat = S
      at herr2
    have hx : (0 : ℚ) < (n : ℚ) / (m : ℚ) := by positivity
    generalize hxdef : (n : ℚ) / (m : ℚ) = x at herr1 hx
    have hgoal : 50 * (n : ℚ) / (m : ℚ) = 50 * x := by
      rw [← hxdef]
      ring
    rw [hgoal]
    rw [abs_le] at herr1 herr2 ⊢
    obtain ⟨a1, a2⟩ := herr1
    obtain ⟨b1, b2⟩ := herr2
    constructor <;> nlinarith

/-! ## `strings.Fields` on ASCII text -/

theorem unicodeIsSpace_ascii (c : Nat) (h : c < 128) : unicodeIsSpace c = asciiSpace c := by
  unfold unicodeIsSpace asciiSpace
  rw [Bool.eq_iff_iff]
  simp only [Bool.or_eq_true, Bool.and_eq_true, decide_eq_true_eq]
  omega

theorem decodeRune_ascii (c : Nat) (cs : GoString) (h : c < 128) :
    decodeRune (c :: cs) = (c, 1) := by
  simp only [decodeRune]
  rw [if_pos h]

theorem stringsFieldsAux_ascii (s : GoString) (h : ∀ c ∈ s, c < 128) :
    ∀ (keep : Bool) (field : GoString), stringsFieldsAux 0 keep field s =
      ((s.splitOnP asciiSpace).modifyHead (fun p => field ++ p)).filter
        (fun w => !w.isEmpty) := by
  induction s with
  | nil =>
    intro keep field
    cases field <;> simp [stringsFieldsAux, List.splitOnP_nil]
  | cons c cs ih =>
    intro keep field
    have hc : c < 128 := h c (List.mem_cons_self _ _)
    have hcs : ∀ x ∈ cs, x < 128 := fun x hx => h x (List.mem_cons_of_mem _ hx)
    obtain ⟨p0, ps, hps⟩ : ∃ p0 ps, cs.splitOnP asciiSpace = p0 :: ps := by
      cases hsplit : cs.splitOnP asciiSpace with
      | nil => exact absurd hsplit (List.splitOnP_ne_nil _ _)
      | cons p0 ps => exact ⟨p0, ps, rfl⟩
    simp only [stringsFieldsAux, decodeRune_ascii c cs hc]
    rw [unicodeIsSpace_ascii c hc, List.splitOnP_cons]
    by_cases hsp : asciiSpace c = true
    · rw [if_pos hsp, if_pos hsp, ih hcs, hps]
      cases field <;> simp
    · rw [if_neg hsp, if_neg hsp, ih hcs, hps]
      simp

/-- On ASCII text `strings.Fields` gives the pieces between white-space bytes that are
not empty. -/
theorem stringsFields_ascii (s : GoString) (h : ∀ c ∈ s, c < 128) :
    stringsFields s = asciiWords s := by
  unfold stringsFields asciiWords
  rw [stringsFieldsAux_ascii s h]
  cases hsplit : s.splitOnP asciiSpace with
  | nil => rfl
  | cons p0 ps => simp

theorem map_asciiLower_ascii (s : GoString) (h : ∀ c ∈ s, c < 128) :
    ∀ c ∈ s.map asciiLower, c < 128 := by
  intro c hc
  obtain ⟨x, hx, rfl⟩ := List.mem_map.mp hc
  have := h x hx
  unfold asciiLower
  split_ifs <;> omega

/-- The counting loop of `calculateMatchScore` counts the query words that contain or
are contained in some title word. -/
theorem foldl_count_eq_matchingWords (qs ts : List GoString) :
    qs.foldl (fun (count : Nat) qw =>
      if ts.any (fun tw => stringsContains tw qw || stringsContains qw tw) then count + 1
      else count) 0 = matchingWords qs ts := by
  rw [foldl_count_eq_countP, Nat.zero_add]
  unfold matchingWords
  congr 1
  funext qw
  congr 1
  funext tw
  rw [Bool.eq_iff_iff]
  simp only [Bool.or_eq_true, decide_eq_true_eq, stringsContains_iff]

theorem matchingWords_le (qs ts : List GoString) : matchingWords qs ts ≤ qs.length :=
  List.countP_le_length _

namespace aniworld

set_option maxRecDepth 8192

/-- C30 (as stated, refuted): for the query `naruto xx yy` and the title `Naruto` the
first three tiers do not apply and one of the three query words matches. The score is
`float64(1) / float64(3) * 50.0 = 4691249611844266 * 2 ^ -48`, in decimals
16.666666666666664: it is below `50 * 1 / 3`, and it is not the `float64` nearest to
`50 / 3` either, which is `4691249611844267 * 2 ^ -48`. For the query of one blank no
tier of the claim applies, there being no query word, and the score is 0. -/
theorem calculateMatchScore_not_exact :
    asciiWords (lit "naruto xx yy") = [lit "naruto", lit "xx", lit "yy"] ∧
      asciiWords (lit "naruto") = [lit "naruto"] ∧
      matchingWords [lit "naruto", lit "xx", lit "yy"] [lit "naruto"] = 1 ∧
      Float64.round 50 3 = ⟨4691249611844267, -48⟩ ∧
      asciiWords (lit " ") = [] ∧
      ∀ lower : Nat → Nat,
        calculateMatchScore lower (lit "naruto xx yy") (lit "Naruto") =
          ⟨4691249611844266, -48⟩ ∧
        (calculateMatchScore lower (lit "naruto xx yy") (lit "Naruto")).toRat < 50 * 1 / 3 ∧
        (50 : ℚ) * 1 / 3 -
            (calculateMatchScore lower (lit "naruto xx yy") (lit "Naruto")).toRat =
          1 / 422212465065984 ∧
        calculateMatchScore lower (lit "naruto xx yy") (lit "Naruto") ≠ Float64.round 50 3 ∧
        calculateMatchScore lower (lit " ") (lit "Naruto") = ⟨0, 0⟩ := by
  have hround : Float64.round 50 3 = ⟨4691249611844267, -48⟩ := by decide
  refine ⟨by decide, by decide, by decide, hround, by decide, ?_⟩
  intro lower
  have hl : ∀ s : GoString, (s.all (fun c => c < 128)) = true →
      stringsToLower lower s = s.map asciiLower := by
    intro s hs
    unfold stringsToLower
    rw [if_pos hs]
  have hf1 : stringsFields (lit "naruto xx yy") = [lit "naruto", lit "xx", lit "yy"] := by
    decide
  have hf2 : stringsFields (lit "naruto") = [lit "naruto"] := by decide
  have hf3 : stringsFields (lit " ") = [] := by decide
  have hscore : calculateMatchScore lower (lit "naruto xx yy") (lit "Naruto") =
      ⟨4691249611844266, -48⟩ := by
    unfold calculateMatchScore
    simp only
    rw [hl _ (by decide), hl _ (by decide), if_neg (by decide), if_neg (by decide),
      if_neg (by decide)]
    rw [show (lit "naruto xx yy").map asciiLower = lit "naruto xx yy" by decide,
      show (lit "Naruto").map asciiLower = lit "naruto" by decide, hf1, hf2,
      foldl_count_eq_matchingWords]
    rw [show matchingWords [lit "naruto", lit "xx", lit "yy"] [lit "naruto"] = 1 by decide,
      show [lit "naruto", lit "xx", lit "yy"].length = 3 from rfl, if_pos (by decide)]
    decide
  refine ⟨hscore, ?_, ?_, ?_, ?_⟩
  · rw [hscore]
    norm_num [Float64.toRat]
  · rw [hscore]
    norm_num [Float64.toRat]
  · rw [hscore, hround]
    decide
  · unfold calculateMatchScore
    simp only
    rw [hl _ (by decide), hl _ (by decide), if_neg (by decide), if_neg (by decide),
      if_neg (by decide)]
    rw [show (lit " ").map asciiLower = lit " " by decide, hf3]
    decide

/-- C30 (amended): for every query and title, with `q` and `t` their lower-case forms,
`calculateMatchScore` returns a `float64` between 0 and 100 given by the first tier that
applies: `100.0` if `q = t`, else `90.0` if `t` starts with `q`, else `70.0` if `t`
contains `q`, else `0.0` if `q` has no word, else, with `m` the number of words of `q`
and `n` the number of those that contain or are contained in a word of `t`,
`float64(n) / float64(m) * 50.0` with the quotient and the product rounded to `float64`:
a value that is at most 50 and, for `m < 2 ^ 53`, differs from `50 * n / m` by at most
the relative error `2 ^ -51`. An empty query scores `90.0` against every non-empty
title. The constants are the exact values 100, 90, 70, 50 and 0. On ASCII strings the
lower-case form maps `A..Z` to `a..z` byte by byte, and the words are the non-empty
pieces between the white-space bytes tab, line feed, vertical tab, form feed, carriage
return and space. In other strings the words are cut at the white-space runes: the bytes
of `é`, `U+00A0`, `a`, `U+2003`, the ill-formed byte `0xFF`, `U+0085`, `b` make the four
words `é`, `a`, `0xFF`, `b`. -/
theorem calculateMatchScore_tiers (lower : Nat → Nat) (query title : GoString) :
    (0 ≤ (calculateMatchScore lower query title).toRat ∧
        (calculateMatchScore lower query title).toRat ≤ 100) ∧
      (stringsToLower lower query = stringsToLower lower title →
        calculateMatchScore lower query title = Float64.ofInt 100) ∧
      (stringsToLower lower query ≠ stringsToLower lower title →
        stringsToLower lower query <+: stringsToLower lower title →
        calculateMatchScore lower query title = Float64.ofInt 90) ∧
      (stringsToLower lower query ≠ stringsToLower lower title →
        ¬ stringsToLower lower query <+: stringsToLower lower title →
        stringsToLower lower query <:+: stringsToLower lower title →
        calculateMatchScore lower query title = Float64.ofInt 70) ∧
      (stringsToLower lower query ≠ stringsToLower lower title →
        ¬ stringsToLower lower query <+: stringsToLower lower title →
        ¬ stringsToLower lower query <:+: stringsToLower lower title →
        (stringsFields (stringsToLower lower query) = [] →
          calculateMatchScore lower query title = Float64.ofInt 0) ∧
        (stringsFields (stringsToLower lower query) ≠ [] →
          calculateMatchScore lower query title =
            ((Float64.ofInt (matchingWords (stringsFields (stringsToLower lower query))
              (stringsFields (stringsToLower lower title)))).div
              (Float64.ofInt (stringsFields (stringsToLower lower query)).length)).mul
              (Float64.ofInt 50) ∧
          ((stringsFields (stringsToLower lower query)).length < 2 ^ 53 →
            |(calculateMatchScore lower query title).toRat -
                50 * (matchingWords (stringsFields (stringsToLower lower query))
                  (stringsFields (stringsToLower lower title)) : ℚ) /
                  ((stringsFields (stringsToLower lower query)).length : ℚ)| ≤
              50 * (matchingWords (stringsFields (stringsToLower lower query))
                  (stringsFields (stringsToLower lower title)) : ℚ) /
                  ((stringsFields (stringsToLower lower query)).length : ℚ) *
                (2 : ℚ) ^ (-51 : Int))) ∧
        (calculateMatchScore lower query title).toRat ≤ 50) ∧
      (query = lit "" → title ≠ lit "" →
        calculateMatchScore lower query title = Float64.ofInt 90) ∧
      ((Float64.ofInt 100).toRat = 100 ∧ (Float64.ofInt 90).toRat = 90 ∧
        (Float64.ofInt 70).toRat = 70 ∧ (Float64.ofInt 50).toRat = 50 ∧
        (Float64.ofInt 0).toRat = 0) ∧
      (∀ s : GoString, (∀ c ∈ s, c < 128) →
        stringsToLower lower s = s.map (fun c => if 65 ≤ c ∧ c ≤ 90 then c + 32 else c) ∧
        stringsFields (stringsToLower lower s) =
          asciiWords (s.map (fun c => if 65 ≤ c ∧ c ≤ 90 then c + 32 else c))) ∧
      stringsFields [0xC3, 0xA9, 0xC2, 0xA0, 0x61, 0xE2, 0x80, 0x83, 0xFF, 0xC2, 0x85, 0x62] =
        [[0xC3, 0xA9], [0x61], [0xFF], [0x62]] := by
  have h100 : (Float64.ofInt 100).toRat = 100 := by
    rw [Float64.ofInt_exact 100 (by norm_num)]
    norm_num
  have h90 : (Float64.ofInt 90).toRat = 90 := by
    rw [Float64.ofInt_exact 90 (by norm_num)]
    norm_num
  have h70 : (Float64.ofInt 70).toRat = 70 := by
    rw [Float64.ofInt_exact 70 (by norm_num)]
    norm_num
  have h50 : (Float64.ofInt 50).toRat = 50 := by
    rw [Float64.ofInt_exact 50 (by norm_num)]
    norm_num
  have h0 : (Float64.ofInt 0).toRat = 0 := by
    rw [Float64.ofInt_exact 0 (by norm_num)]
    norm_num
  have hempty : stringsToLower lower (lit "") = [] := rfl
  -- the word tier
  have hword : ∀ (qs ts : List GoString),
      (qs = [] → (if qs.length > 0 then
          ((Float64.ofInt (qs.foldl (fun (count : Nat) qw =>
            if ts.any (fun tw => stringsContains tw qw || stringsContains qw tw) then
              count + 1
            else count) 0)).div (Float64.ofInt qs.length)).mul (Float64.ofInt 50)
        else Float64.ofInt 0) = Float64.ofInt 0) ∧
      (qs ≠ [] → (if qs.length > 0 then
          ((Float64.ofInt (qs.foldl (fun (count : Nat) qw =>
            if ts.any (fun tw => stringsContains tw qw || stringsContains qw tw) then
              count + 1
            else count) 0)).div (Float64.ofInt qs.length)).mul (Float64.ofInt 50)
        else Float64.ofInt 0) =
          ((Float64.ofInt (matchingWords qs ts)).div (Float64.ofInt qs.length)).mul
            (Float64.ofInt 50)) ∧
      (0 ≤ (if qs.length > 0 then
          ((Float64.ofInt (qs.foldl (fun (count : Nat) qw =>
            if ts.any (fun tw => stringsContains tw qw || stringsContains qw tw) then
              count + 1
            else count) 0)).div (Float64.ofInt qs.length)).mul (Float64.ofInt 50)
        else Float64.ofInt 0).toRat ∧
       (if qs.length > 0 then
          ((Float64.ofInt (qs.foldl (fun (count : Nat) qw =>
            if ts.any (fun tw => stringsContains tw qw || stringsContains qw tw) then
              count + 1
            else count) 0)).div (Float64.ofInt qs.length)).mul (Float64.ofInt 50)
        else Float64.ofInt 0).toRat ≤ 50) := by
    intro qs ts
    rw [foldl_count_eq_matchingWords]
    by_cases hlen : qs.length > 0
    · rw [if_pos hlen]
      have hne : qs ≠ [] := List.length_pos.mp hlen
      exact ⟨fun h => absurd h hne, fun _ => rfl,
        Float64.ratio_fifty_bounds _ _ hlen (matchingWords_le qs ts)⟩
    · rw [if_neg hlen]
      have hnil : qs = [] := List.length_eq_zero.mp (by omega)
      refine ⟨fun _ => rfl, fun h => absurd hnil h, ?_⟩
      rw [h0]
      norm_num
  refine ⟨?_, ?_, ?_, ?_, ?_, ?_, ⟨h100, h90, h70, h50, h0⟩, ?_, by decide⟩
  · unfold calculateMatchScore
    simp only
    by_cases h1 : stringsToLower lower query = stringsToLower lower title
    · rw [if_pos h1, h100]
      norm_num
    · rw [if_neg h1]
      by_cases h2 : hasPrefix (stringsToLower lower title) (stringsToLower lower query) = true
      · rw [if_pos h2, h90]
        norm_num
      · rw [if_neg h2]
        by_cases h3 : stringsContains (stringsToLower lower title)
            (stringsToLower lower query) = true
        · rw [if_pos h3, h70]
          norm_num
        · rw [if_neg h3]
          obtain ⟨_, _, hnn, hle⟩ := hword (stringsFields (stringsToLower lower query))
            (stringsFields (stringsToLower lower title))
          exact ⟨hnn, le_trans hle (by norm_num)⟩
  · intro h
    unfold calculateMatchScore
    simp only
    rw [if_pos h]
  · intro hne hp
    unfold calculateMatchScore
    simp only
    rw [if_neg hne, if_pos ((hasPrefix_iff _ _).mpr hp)]
  · intro hne hp hc
    unfold calculateMatchScore
    simp only
    have hp2 : ¬ hasPrefix (stringsToLower lower title) (stringsToLower lower query) = true :=
      fun h => hp ((hasPrefix_iff _ _).mp h)
    rw [if_neg hne, if_neg hp2, if_pos ((stringsContains_iff _ _).mpr hc)]
  · intro hne hp hc
    have hp2 : ¬ hasPrefix (stringsToLower lower title) (stringsToLower lower query) = true :=
      fun h => hp ((hasPrefix_iff _ _).mp h)
    have hc2 : ¬ stringsContains (stringsToLower lower title) (stringsToLower lower query) =
        true := fun h => hc ((stringsContains_iff _ _).mp h)
    obtain ⟨hnil, hcons, _, hle⟩ := hword (stringsFields (stringsToLower lower query))
      (stringsFields (stringsToLower lower title))
    have hscore : calculateMatchScore lower query title =
        (if (stringsFields (stringsToLower lower query)).length > 0 then
          ((Float64.ofInt ((stringsFields (stringsToLower lower query)).foldl
            (fun (count : Nat) qw =>
              if (stringsFields (stringsToLower lower title)).any
                (fun tw => stringsContains tw qw || stringsContains qw tw) then
                count + 1
              else count) 0)).div
            (Float64.ofInt (stringsFields (stringsToLower lower query)).length)).mul
            (Float64.ofInt 50)
        else Float64.ofInt 0) := by
      unfold calculateMatchScore
      simp only
      rw [if_neg hne, if_neg hp2, if_neg hc2]
    rw [hscore]
    refine ⟨hnil, ?_, hle⟩
    intro hwords
    refine ⟨hcons hwords, ?_⟩
    intro h53
    rw [hcons hwords]
    exact Float64.ratio_fifty_err _ _ (List.length_pos.mpr hwords) (matchingWords_le _ _) h53
  · intro hq ht
    subst hq
    unfold calculateMatchScore
    simp only
    rw [hempty]
    have hne : ¬ ([] : GoString) = stringsToLower lower title :=
      fun h => stringsToLower_ne_nil lower title ht h.symm
    rw [if_neg hne, if_pos (by cases stringsToLower lower title <;> rfl)]
  · intro s hs
    have hlow : stringsToLower lower s =
        s.map (fun c => if 65 ≤ c ∧ c ≤ 90 then c + 32 else c) :=
      stringsToLower_ascii lower s hs
    refine ⟨hlow, ?_⟩
    rw [hlow]
    exact stringsFields_ascii _ (map_asciiLower_ascii s hs)

/-- Sample scores with ASCII strings: equal but for case, a prefix, a substring, one
word of two, which is exactly 25, and an empty query. -/
theorem calculateMatchScore_samples (lower : Nat → Nat) :
    calculateMatchScore lower (lit "NARUTO") (lit "naruto") = ⟨7036874417766400, -46⟩ ∧
      calculateMatchScore lower (lit "naru") (lit "Naruto") = ⟨6333186975989760, -46⟩ ∧
      calculateMatchScore lower (lit "rut") (lit "Naruto") = ⟨4925812092436480, -46⟩ ∧
      calculateMatchScore lower (lit "Naruto Shippuden") (lit "NARUTO") =
        ⟨7036874417766400, -48⟩ ∧
      calculateMatchScore lower (lit "") (lit "Naruto") = ⟨6333186975989760, -46⟩ ∧
      (⟨7036874417766400, -46⟩ : Float64).toRat = 100 ∧
      (⟨6333186975989760, -46⟩ : Float64).toRat = 90 ∧
      (⟨4925812092436480, -46⟩ : Float64).toRat = 70 ∧
      (⟨7036874417766400, -48⟩ : Float64).toRat = 25 := by
  have hf1 : stringsFields (lit "naruto shippuden") = [lit "naruto", lit "shippuden"] := by
    decide
  have hf2 : stringsFields (lit "naruto") = [lit "naruto"] := by decide
  have hl : ∀ s : GoString, (s.all (fun c => c < 128)) = true →
      stringsToLower lower s = s.map asciiLower := by
    intro s hs
    unfold stringsToLower
    rw [if_pos hs]
  refine ⟨?_, ?_, ?_, ?_, ?_, ?_, ?_, ?_, ?_⟩
  · unfold calculateMatchScore
    simp only
    rw [hl _ (by decide), hl _ (by decide), if_pos (by decide)]
    decide
  · unfold calculateMatchScore
    simp only
    rw [hl _ (by decide), hl _ (by decide), if_neg (by decide), if_pos (by decide)]
    decide
  · unfold calculateMatchScore
    simp only
    rw [hl _ (by decide), hl _ (by decide), if_neg (by decide), if_neg (by decide),
      if_pos (by decide)]
    decide
  · unfold calculateMatchScore
    simp only
    rw [hl _ (by decide), hl _ (by decide), if_neg (by decide), if_neg (by decide),
      if_neg (by decide)]
    rw [show (lit "Naruto Shippuden").map asciiLower = lit "naruto shippuden" by decide,
      show (lit "NARUTO").map asciiLower = lit "naruto" by decide, hf1, hf2,
      foldl_count_eq_matchingWords]
    rw [show matchingWords [lit "naruto", lit "shippuden"] [lit "naruto"] = 1 by decide,
      show [lit "naruto", lit "shippuden"].length = 2 from rfl, if_pos (by decide)]
    decide
  · unfold calculateMatchScore
    simp only
    rw [hl _ (by decide), hl _ (by decide), if_neg (by decide), if_pos (by decide)]
    decide
  · norm_num [Float64.toRat]
  · norm_num [Float64.toRat]
  · norm_num [Float64.toRat]
  · norm_num [Float64.toRat]

end aniworld

end Hayase
